import Mathlib

/-!
# STEPS `Tetexact`: the N-ary propensity tree and the event loop

A shallow embedding of the scheduler of `src/cpp/steps/tetexact/tetexact.cpp`
(`addKProc`, `_build`, `_getNext`, `_reset`, `_executeStep`, `_update`, `run`,
`step`) and of its facade (`reset`, the getters and setters of compartments,
patches, tets and tris, and the unsupported operations).

Conventions of the embedding.

* `double` values are exact rationals (`ℚ`): every statement below is a
  statement about the algorithm in exact arithmetic.
* A `double *` level is a `List ℚ`; reading slot `i` is `getD i 0`, writing it
  is `List.set`.  `pLevels` is the list of the levels, lowest first.
* The kinetic processes live outside this file of the repository: a `KProc`
  is a record of its scheduler index and of its `rate`, `apply` and
  `updVecSize` methods, all functions of an abstract world `W` (the pools and
  flags of the tets and tris).
* The random number generator is a stream addressed by the number of draws
  made so far (`pos`).
* `assert` is compiled out (release build); asserted facts are theorems.
* `pIndices` is the memory that starts at the array `new uint[maxupdate]`: a
  list of the cells of the array, followed by the cells after the array that a
  store has reached.  A store past the end of the array is undefined
  behaviour in C++; in the release build it lands in the memory after the
  array and `_update` reads it back from there, and so it does here.  The
  engine keeps the cells of the array only.  `_updateLog` is `_update` with a
  log of every position of `pIndices` it reads or writes.
* A `uint` is a natural number below `2^32`; arithmetic on it wraps, and the
  conversion of a double outside that range is undefined.
* A facade function returns `none` where the source follows a null or
  dangling pointer or indexes `pComps` or `pPatches` out of range; a function
  that throws returns the exception together with the engine.
* `statedef()->compdef(cidx)` is the definition held by `pComps[cidx]`, and
  `statedef()->patchdef(pidx)` the one held by `pPatches[pidx]` (the source
  asserts `lcomp->def() == comp`).
-/

namespace Steps

/-- The branching factor `#define SCHEDULEWIDTH 16`. -/
abbrev SCHEDULEWIDTH : Nat := 16

/-- The sentinel `0xFFFFFFFF` used by `_update` for "no previous entry". -/
abbrev NOPREV : Nat := 4294967295

/-- Wrap-around modulus of `uint`. -/
abbrev UINTMOD : Nat := 4294967296

/-- The random number source: the `pos`-th draw returns `unf pos` when read by
`getUnfIE` and `expo pos a` when read by `getExp a`. -/
structure RNG where
  pos : Nat
  unf : Nat → ℚ
  expo : Nat → ℚ → ℚ

/-- Uniform draw `rng()->getUnfIE()`. -/
def RNG.getUnfIE (r : RNG) : ℚ × RNG :=
  (r.unf r.pos, { r with pos := r.pos + 1 })

/-- Exponential draw `rng()->getExp(a0)`. -/
def RNG.getExp (r : RNG) (a0 : ℚ) : ℚ × RNG :=
  (r.expo r.pos a0, { r with pos := r.pos + 1 })

/-- A kinetic process as the scheduler sees it. `apply` changes the world,
may consult the generator, and returns the update vector. -/
structure KProc (W : Type) where
  schedIDX : Nat
  rate : W → ℚ
  apply : W → RNG → (W × RNG) × List Nat
  updVecSize : Nat

/-- The members of `Tetexact` the scheduler and the event loop touch. -/
structure Tetexact (W : Type) where
  world : W
  time : ℚ
  nsteps : Nat
  rng : RNG
  pKProcs : List (KProc W)
  pA0 : ℚ
  pLevelSizes : List Nat
  pLevels : List (List ℚ)
  pBuilt : Bool
  pIndices : List Nat
  pMaxUpSize : Nat
  pRannum : List ℚ

/-- The engine as the constructor's member initialisers leave it. -/
def Tetexact.init {W : Type} (w : W) (r : RNG) : Tetexact W :=
  { world := w, time := 0, nsteps := 0, rng := r, pKProcs := [], pA0 := 0,
    pLevelSizes := [], pLevels := [], pBuilt := false, pIndices := [],
    pMaxUpSize := 0, pRannum := [] }

variable {W : Type}

/-- Method `Tetexact::addKProc`. -/
def addKProc (s : Tetexact W) (kp : KProc W) : Tetexact W :=
  let nidx := s.pKProcs.length
  { s with pKProcs := s.pKProcs ++ [{ kp with schedIDX := nidx }] }

/-- Method `Tetexact::countKProcs`. -/
def countKProcs (s : Tetexact W) : Nat := s.pKProcs.length

/-- Method `Tetexact::getA0`. -/
def getA0 (s : Tetexact W) : ℚ := s.pA0

/-- The rounding step of `_build`:
`extra = clsize % 16; if (extra != 0) clsize += 16 - extra;` on `uint`. -/
def roundUpWidth (clsize : Nat) : Nat :=
  let extra := clsize % SCHEDULEWIDTH
  if extra ≠ 0 then (clsize + (SCHEDULEWIDTH - extra)) % UINTMOD else clsize

/-- The `do ... while (clsize > 1)` loop of `_build`; the first argument bounds
the number of iterations. -/
def buildLoop : Nat → Nat → List Nat × List (List ℚ) → List Nat × List (List ℚ)
  | 0, _, acc => acc
  | fuel + 1, clsize, (sizes, levels) =>
    let clsize1 := roundUpWidth clsize
    let sizes1 := sizes ++ [clsize1]
    let levels1 := levels ++ [List.replicate clsize1 (0 : ℚ)]
    let clsize2 := clsize1 / SCHEDULEWIDTH
    if clsize2 > 1 then buildLoop fuel clsize2 (sizes1, levels1) else (sizes1, levels1)

/-- The maximum of `updVecSize()` over all KProcs, as `_build` computes it. -/
def maxUpdate (kps : List (KProc W)) : Nat :=
  kps.foldl (fun maxupdate kp => if kp.updVecSize > maxupdate then kp.updVecSize else maxupdate) 0

/-- Method `Tetexact::_build`. The loop runs at most `clsize` times. The fresh
arrays `pIndices` and `pRannum` are uninitialised in the source; here they hold
zeros. `pMaxUpSize` is not assigned. -/
def _build (s : Tetexact W) : Tetexact W :=
  let clsize := s.pKProcs.length % UINTMOD
  if clsize = 0 then s else
  let built := buildLoop clsize clsize (s.pLevelSizes, s.pLevels)
  let maxupdate := maxUpdate s.pKProcs
  { s with
    pLevelSizes := built.1
    pLevels := built.2
    pA0 := 0
    pIndices := List.replicate maxupdate 0
    pRannum := List.replicate built.2.length 0
    pBuilt := true }

/-- The draw loop of `_getNext`: `pRannum[i] = rng()->getUnfIE()` for
`i = 0 .. clevel-1`. -/
def drawRannum (clevel : Nat) (r : RNG) (pRannum : List ℚ) : RNG × List ℚ :=
  (List.range clevel).foldl
    (fun st i => let d := st.1.getUnfIE; (d.2, st.2.set i d.1)) (r, pRannum)

/-- The inner `for` loop of `_getNext` with `n` iterations left: returns
`cur_node` and `curval` at loop exit. (The variable `old` is never read.) -/
def scanLevel (level : List ℚ) (selector : ℚ) : Nat → Nat → ℚ → ℚ → Nat × ℚ
  | 0, cur_node, _, curval => (cur_node, curval)
  | n + 1, cur_node, accum, _ =>
    let curval := level.getD cur_node 0
    if selector < curval + accum then (cur_node, curval)
    else scanLevel level selector n (cur_node + 1) (accum + curval) curval

/-- The `while (clevel != 0)` loop of `_getNext`: returns the final
`cur_node`. -/
def descend (pLevels : List (List ℚ)) (pRannum : List ℚ) : Nat → Nat → ℚ → Nat
  | 0, cur_node, _ => cur_node
  | clevel + 1, cur_node, a0 =>
    let cur_node1 := cur_node * SCHEDULEWIDTH
    let level := pLevels.getD clevel []
    let selector := pRannum.getD clevel 0 * a0
    let r := scanLevel level selector SCHEDULEWIDTH cur_node1 0 0
    descend pLevels pRannum clevel r.1 r.2

/-- Method `Tetexact::_getNext`: the chosen KProc (`none` is the null pointer)
and the engine with the generator advanced and `pRannum` filled. -/
def _getNext (s : Tetexact W) : Option (KProc W) × Tetexact W :=
  if s.pA0 = 0 then (none, s) else
  let clevel := s.pLevels.length
  let d := drawRannum clevel s.rng s.pRannum
  let s1 := { s with rng := d.1, pRannum := d.2 }
  let cur_node := descend s1.pLevels s1.pRannum clevel 0 s1.pA0
  (s1.pKProcs[cur_node]?, s1)

/-- The inner summation loop shared by `_reset` and `_update`:
`val = 0.0; for (i < 16) val += level[child_node++];` returning the sum and
the advanced child index. -/
def sumChildren (level : List ℚ) (child_node : Nat) : ℚ × Nat :=
  (List.range SCHEDULEWIDTH).foldl
    (fun st _ => (st.1 + level.getD st.2 0, st.2 + 1)) (0, child_node)

/-- The sum loop `pA0 = 0.0; for (i < 16) pA0 += level[i];`. -/
def sumTop (level : List ℚ) : ℚ :=
  (List.range SCHEDULEWIDTH).foldl (fun a i => a + level.getD i 0) 0

/-- First loop of `_reset`: `oldlevel[cur_node++] = (*kp)->rate()`. -/
def fillRates (w : W) : List (KProc W) → Nat → List ℚ → List ℚ
  | [], _, level => level
  | kp :: rest, cur_node, level => fillRates w rest (cur_node + 1) (level.set cur_node (kp.rate w))

/-- The node loop of `_reset` on one level: recompute `numnodes` slots of
`level` from consecutive groups of 16 children in `oldlevel`. -/
def resetLevel (oldlevel level : List ℚ) (numnodes : Nat) : List ℚ :=
  ((List.range numnodes).foldl
    (fun st cur_node =>
      let r := sumChildren oldlevel st.2
      (st.1.set cur_node r.1, r.2)) (level, 0)).1

/-- The "work up" loop of `_reset` over `cur_level = from .. from+n-1`; the
pointer `oldlevel` is the index of the level it points to. -/
def resetUp (pLevelSizes : List Nat) : Nat → Nat → List (List ℚ) × Nat → List (List ℚ) × Nat
  | 0, _, st => st
  | n + 1, cur_level, (pLevels, oldlevel) =>
    let numnodes := pLevelSizes.getD (cur_level - 1) 0 / SCHEDULEWIDTH
    let level := resetLevel (pLevels.getD oldlevel []) (pLevels.getD cur_level []) numnodes
    resetUp pLevelSizes n (cur_level + 1) (pLevels.set cur_level level, cur_level)

/-- Method `Tetexact::_reset`. -/
def _reset (s : Tetexact W) : Tetexact W :=
  if s.pKProcs.length = 0 then s else
  let level0 := fillRates s.world s.pKProcs 0 (s.pLevels.getD 0 [])
  let pLevels0 := s.pLevels.set 0 level0
  let up := resetUp s.pLevelSizes (s.pLevels.length - 1) 1 (pLevels0, 0)
  { s with pLevels := up.1, pA0 := sumTop (up.1.getD up.2 []) }

/-- The store `pIndices[i] = x` on the memory that starts at `pIndices`. A
store inside the list overwrites the cell. A store past its end, which for
the array itself is a store outside the allocation, makes the list reach that
cell; cells in between, which nothing has written, read as 0. -/
def memStore (mem : List Nat) (i x : Nat) : List Nat :=
  if i < mem.length then mem.set i x
  else mem ++ List.replicate (i - mem.length) 0 ++ [x]

/-- The "store and collapse if possible" step of `_update` on the scratch
buffer, with state `(pIndices, prev_e, cur_e)`. -/
def storeCollapse (idx : Nat) (st : List Nat × Nat × Nat) : List Nat × Nat × Nat :=
  let pIndices := st.1
  let prev_e := st.2.1
  let cur_e := st.2.2
  if prev_e = NOPREV then (memStore pIndices cur_e idx, 0, cur_e + 1)
  else if pIndices.getD prev_e 0 ≠ idx then (memStore pIndices cur_e idx, cur_e, cur_e + 1)
  else (pIndices, prev_e, cur_e)

/-- The rate of the KProc at position `idx`, `pKProcs[idx]->rate()`. -/
def rateAt (s : Tetexact W) (idx : Nat) : ℚ :=
  match s.pKProcs[idx]? with
  | some kp => kp.rate s.world
  | none => 0

/-- First loop of `_update`: recompute the rates of the entries into level 0
and store their parents. State: `(level0, (pIndices, prev_e, cur_e))`. -/
def updateRates (s : Tetexact W) (entries : List Nat)
    (st : List ℚ × List Nat × Nat × Nat) : List ℚ × List Nat × Nat × Nat :=
  entries.foldl
    (fun st idx =>
      let newrate := rateAt s idx
      (st.1.set idx newrate, storeCollapse (idx / SCHEDULEWIDTH) st.2)) st

/-- The entry loop of `_update` on one upper level: for `e < nentries`
recompute slot `pIndices[e]` of `currlevel` from `prevlevel` and store its
parent. State: `(currlevel, (pIndices, prev_e, cur_e))`. -/
def updateLevel (prevlevel : List ℚ) (nentries : Nat)
    (st : List ℚ × List Nat × Nat × Nat) : List ℚ × List Nat × Nat × Nat :=
  (List.range nentries).foldl
    (fun st e =>
      let idx := st.2.1.getD e 0
      let r := sumChildren prevlevel (idx * SCHEDULEWIDTH)
      (st.1.set idx r.1, storeCollapse (idx / SCHEDULEWIDTH) st.2)) st

/-- The level loop of `_update` over `l = from .. from+n-1`. State:
`(pLevels, pIndices, nentries)`; `prevlevel` is always level `l - 1`. -/
def updateUp : Nat → Nat → List (List ℚ) × List Nat × Nat → List (List ℚ) × List Nat × Nat
  | 0, _, st => st
  | n + 1, l, (pLevels, pIndices, nentries) =>
    let r := updateLevel (pLevels.getD (l - 1) []) nentries
      (pLevels.getD l [], pIndices, NOPREV, 0)
    updateUp n (l + 1) (pLevels.set l r.1, r.2.1, r.2.2.2)

/-- Method `Tetexact::_update`. The loops work on the memory that starts at
`pIndices`; the engine keeps the cells of the array, and what a store has left
in the memory after the array is not part of its state. -/
def _update (s : Tetexact W) (entries : List Nat) : Tetexact W :=
  if countKProcs s = 0 then s else
  let r0 := updateRates s entries (s.pLevels.getD 0 [], s.pIndices, NOPREV, 0)
  let pLevels0 := s.pLevels.set 0 r0.1
  let up := updateUp (s.pLevels.length - 1) 1 (pLevels0, r0.2.1, r0.2.2.2)
  { s with
    pLevels := up.1
    pIndices := up.2.1.take s.pIndices.length
    pA0 := sumTop (up.1.getD (up.1.length - 1) []) }

/-- Method `Tetexact::_executeStep`. -/
def _executeStep (s : Tetexact W) (kp : KProc W) (dt : ℚ) : Tetexact W :=
  let a := kp.apply s.world s.rng
  let s1 := { s with world := a.1.1, rng := a.1.2 }
  let s2 := _update s1 a.2
  { s2 with time := s2.time + dt, nsteps := s2.nsteps + 1 }

/-- A record of one call of `_executeStep` made by `run`: the chosen KProc's
scheduler index, the simulation time before the event and its `dt`. -/
structure Event where
  kproc : Nat
  tBefore : ℚ
  dt : ℚ
  deriving DecidableEq

/-- Outcome of one pass through the body of the `while` loop of `run`. -/
inductive Iter (W : Type) where
  | brk (s : Tetexact W)
  | cont (s : Tetexact W) (ev : Event)

/-- The body of the `while` loop of `Tetexact::run`. -/
def runBody (endtime : ℚ) (s : Tetexact W) : Iter W :=
  let g := _getNext s
  match g.1 with
  | none => Iter.brk g.2
  | some kp =>
    let a0 := getA0 g.2
    if a0 = 0 then Iter.brk g.2 else
    let d := g.2.rng.getExp a0
    let s1 := { g.2 with rng := d.2 }
    if s1.time + d.1 > endtime then Iter.brk s1
    else Iter.cont (_executeStep s1 kp d.1) ⟨kp.schedIDX, s1.time, d.1⟩

/-- The `while (statedef()->time() < endtime)` loop of `run`, with a bound on
the number of iterations; `none` when the bound is hit while the loop condition
still holds. Returns the engine at loop exit and the events executed. -/
def runLoop (endtime : ℚ) : Nat → Tetexact W → Option (Tetexact W × List Event)
  | 0, s => if s.time < endtime then none else some (s, [])
  | fuel + 1, s =>
    if s.time < endtime then
      match runBody endtime s with
      | Iter.brk s1 => some (s1, [])
      | Iter.cont s1 ev => (runLoop endtime fuel s1).map (fun r => (r.1, ev :: r.2))
    else some (s, [])

/-- How a call of `run` ends. -/
inductive RunStatus where
  | ok
  | argErr
  deriving DecidableEq

/-- What a call of `run` leaves behind: how it ended, the engine, and the
events it executed. -/
structure RunOut (W : Type) where
  status : RunStatus
  state : Tetexact W
  events : List Event

/-- Method `Tetexact::run`; `none` when the loop does not finish within `fuel`
iterations. -/
def run (fuel : Nat) (s : Tetexact W) (endtime : ℚ) : Option (RunOut W) :=
  if endtime < s.time then some ⟨RunStatus.argErr, s, []⟩
  else
    match runLoop endtime fuel s with
    | none => none
    | some r => some ⟨RunStatus.ok, { r.1 with time := endtime }, r.2⟩

/-- The engine the constructor produces: every KProc registered through
`addKProc`, then `_build`. -/
def setupEngine (w : W) (r : RNG) (kps : List (KProc W)) : Tetexact W :=
  _build (kps.foldl addKProc (Tetexact.init w r))

/-! ## Specification vocabulary -/

/-- Slot `i` of level `l` of the tree. -/
def slot (s : Tetexact W) (l i : Nat) : ℚ := (s.pLevels.getD l []).getD i 0

/-- Number of slots of level `l`. -/
def levelSize (s : Tetexact W) (l : Nat) : Nat := (s.pLevels.getD l []).length

/-- The shape `_build` gives the engine: at least one KProc, each at the
position `addKProc` recorded in it, levels of the recorded sizes, each a
multiple of 16 wide and wide enough for the parents of the level below, a top
level of exactly 16 slots, zero padding after the last KProc, and one
`pRannum` cell per level. -/
structure Built (s : Tetexact W) : Prop where
  nkp : 1 ≤ s.pKProcs.length
  idx : ∀ (i : Nat) (kp : KProc W), s.pKProcs[i]? = some kp → kp.schedIDX = i
  nlev : 1 ≤ s.pLevels.length
  sizes : s.pLevelSizes = s.pLevels.map List.length
  leaves : s.pKProcs.length ≤ levelSize s 0
  mult : ∀ l, l < s.pLevels.length → SCHEDULEWIDTH ∣ levelSize s l
  up : ∀ l, l + 1 < s.pLevels.length → levelSize s l ≤ SCHEDULEWIDTH * levelSize s (l + 1)
  top : levelSize s (s.pLevels.length - 1) = SCHEDULEWIDTH
  pad0 : ∀ i, s.pKProcs.length ≤ i → slot s 0 i = 0
  pad : ∀ l i, levelSize s l ≤ SCHEDULEWIDTH * i → slot s (l + 1) i = 0
  rannum : s.pRannum.length = s.pLevels.length

/-- Invariant 1: every KProc's leaf holds its current rate. -/
def LeavesMatch (s : Tetexact W) : Prop :=
  ∀ (i : Nat) (kp : KProc W), s.pKProcs[i]? = some kp → slot s 0 kp.schedIDX = kp.rate s.world

/-- Invariant 2: every slot of every internal level is the sum of its 16
children. -/
def SumsMatch (s : Tetexact W) : Prop :=
  ∀ l, 1 ≤ l → l < s.pLevels.length → ∀ i,
    slot s l i = ∑ j in Finset.range SCHEDULEWIDTH, slot s (l - 1) (SCHEDULEWIDTH * i + j)

/-- Invariant 3: `A0` is the sum of the top level. -/
def TopMatch (s : Tetexact W) : Prop :=
  s.pA0 = ∑ j in Finset.range SCHEDULEWIDTH, slot s (s.pLevels.length - 1) j

/-- Tree consistency: invariants 2 and 3. -/
def Consistent (s : Tetexact W) : Prop := SumsMatch s ∧ TopMatch s

/-! ## A concrete engine for the witnesses

Seventeen first-order decay processes: KProc `i` has rate `w i` (the
population it consumes), and firing it removes one molecule and dirties its own
index. With 17 KProcs the tree has two levels (32 and 16 slots). -/

/-- Decay process number `i`. -/
def demoKProc (i : Nat) : KProc (Nat → ℚ) :=
  { schedIDX := 0
    rate := fun w => w i
    apply := fun w g => ((Function.update w i (w i - 1), g), [i])
    updVecSize := 4 }

/-- Initial populations: 0, 1, 2, 0, 1, 2, ... -/
def demoWorld : Nat → ℚ := fun i => ((i % 3 : Nat) : ℚ)

/-- A generator whose uniforms are all `1/2` and whose exponential draw is the
mean `1 / a0`. -/
def demoRNG : RNG := { pos := 0, unf := fun _ => 1 / 2, expo := fun _ a => 1 / a }

/-- The seventeen decay processes. -/
def demoKProcs : List (KProc (Nat → ℚ)) := (List.range 17).map demoKProc

/-- The built engine over the seventeen decay processes. -/
def demoEngine : Tetexact (Nat → ℚ) := setupEngine demoWorld demoRNG demoKProcs

/-! ## Proof vocabulary for `_update` -/

/-- Slot `i` of level `l` in a list of levels. -/
def rd (P : List (List ℚ)) (l i : Nat) : ℚ := (P.getD l []).getD i 0

/-- Index `p` is among the first `ce` entries of the scratch buffer. -/
def Stored (ind : List Nat) (ce : Nat) (p : Nat) : Prop :=
  ∃ j, j < ce ∧ ind.getD j 0 = p

/-- State of the scratch buffer `(pIndices, prev_e, cur_e)` after `e` entries
of a pass that started from memory `ind0`: at most `e` indices were stored,
`prev_e` is the sentinel or points at a stored index, the memory reaches at
least as far as before and as far as the indices stored, and the cells from
position `e` on are still those of `ind0`. -/
structure ScratchInv (ind0 : List Nat) (e : Nat) (st : List Nat × Nat × Nat) : Prop where
  cur_le : st.2.2 ≤ e
  prev_ok : st.2.1 = NOPREV ∨ st.2.1 < st.2.2
  len : ind0.length ≤ st.1.length
  fits : st.2.2 ≤ st.1.length
  unread : ∀ j, e ≤ j → st.1.getD j 0 = ind0.getD j 0

/-- State of `_update` before it processes level `l`, relative to the levels
`P0` it started from: levels from `l` on are untouched, the levels below `l`
are consistent among themselves, every slot of level `l - 1` that changed has
its parent among the `ne` stored indices, and the memory reaches as far as
these. -/
structure UpdInv (P0 : List (List ℚ)) (l : Nat) (st : List (List ℚ) × List Nat × Nat) : Prop where
  len : st.1.length = P0.length
  size : ∀ k, (st.1.getD k []).length = (P0.getD k []).length
  above : ∀ k, l ≤ k → st.1.getD k [] = P0.getD k []
  below : ∀ k, 1 ≤ k → k < l → ∀ i,
    rd st.1 k i = ∑ j in Finset.range SCHEDULEWIDTH, rd st.1 (k - 1) (SCHEDULEWIDTH * i + j)
  dirty : ∀ i, rd st.1 (l - 1) i ≠ rd P0 (l - 1) i → Stored st.2.1 st.2.2 (i / SCHEDULEWIDTH)
  fits : st.2.2 ≤ st.2.1.length

/-- At every level of the walk of `_getNext` the scan ends on one of the 16
children of the current node, `curval` is the value of that slot, and the two
assertions of the source (`cur_node < max_node` and `curval > 0.0`) hold. -/
def descendAsserts (pLevels : List (List ℚ)) (pRannum : List ℚ) : Nat → Nat → ℚ → Prop
  | 0, _, _ => True
  | clevel + 1, cur_node, a0 =>
    let cur_node1 := cur_node * SCHEDULEWIDTH
    let max_node := cur_node1 + SCHEDULEWIDTH
    let r := scanLevel (pLevels.getD clevel []) (pRannum.getD clevel 0 * a0)
      SCHEDULEWIDTH cur_node1 0 0
    (cur_node1 ≤ r.1 ∧ r.1 < max_node ∧ (pLevels.getD clevel []).getD r.1 0 = r.2 ∧ r.2 > 0)
      ∧ descendAsserts pLevels pRannum clevel r.1 r.2

/-- The ancestor of leaf `k` at level `l`. -/
def anc (k l : Nat) : Nat := k / SCHEDULEWIDTH ^ l

/-- The value `v_l` of the ancestor of leaf `k` at level `l`. -/
def slotVal (s : Tetexact W) (k l : Nat) : ℚ := slot s l (anc k l)

/-- The sum `P_l` of the earlier siblings of the ancestor of `k` at level `l`. -/
def prefixSum (s : Tetexact W) (k l : Nat) : ℚ :=
  ∑ i in Finset.range (anc k l % SCHEDULEWIDTH), slot s l (SCHEDULEWIDTH * anc k (l + 1) + i)

/-- The value `a_l` of the parent of the ancestor of `k` at level `l`; `A0` at
the top level. -/
def parentVal (s : Tetexact W) (k l : Nat) : ℚ :=
  if l + 1 = s.pLevels.length then s.pA0 else slot s (l + 1) (anc k (l + 1))

/-- The uniform `u_l` the next call of `_getNext` stores in `pRannum[l]`. -/
def uniformAt (s : Tetexact W) (l : Nat) : ℚ := s.rng.unf (s.rng.pos + l)

/-- The selector `u * a` falls into the interval of the ancestor of `k` at
level `l`, where `a` is the value handed down from the level above. -/
def SelectedWith (s : Tetexact W) (k l : Nat) (a u : ℚ) : Prop :=
  prefixSum s k l ≤ u * a ∧ u * a < prefixSum s k l + slotVal s k l

/-- The selector `u_l * a_l` falls into `[P_l, P_l + v_l)`. -/
def Selected (s : Tetexact W) (k l : Nat) : Prop :=
  SelectedWith s k l (parentVal s k l) (uniformAt s l)

/-- Method `Tetexact::step`. -/
def step (s : Tetexact W) : Tetexact W :=
  let g := _getNext s
  match g.1 with
  | none => g.2
  | some kp =>
    let a0 := getA0 g.2
    if a0 = 0 then g.2 else
    let d := g.2.rng.getExp a0
    _executeStep { g.2 with rng := d.2 } kp d.1

/-- A generator whose exponential draw reveals the position it was drawn at:
the draw made at position `n` returns `n + 1`. -/
def posRNG : RNG := { pos := 0, unf := fun _ => 1 / 2, expo := fun n _ => (n : ℚ) + 1 }

/-- The seventeen decay processes, reset, with the position-revealing
generator. -/
def posEngine : Tetexact (Nat → ℚ) := _reset (setupEngine demoWorld posRNG demoKProcs)

/-! ## The mesh behind the facade

The classes `Comp`, `Patch`, `Tet`, `Tri`, `Reac`, `Diff`, `SReac`, `Compdef`
and `Patchdef` are used by `tetexact.cpp` but defined in other files. The
records below hold the members the facade reads and writes. A pointer to a tet
or tri is its index into `pTets` or `pTris`; following a null or dangling
pointer makes the facade function return `none`. -/

/-- Modelled from the spec: the marker a global-to-local map returns for a
species, reaction, diffusion or surface reaction that is not defined in the
compartment or patch. Only equality with it is ever tested. -/
abbrev LIDX_UNDEFINED : Nat := 4294967295

/-- Modelled from the spec: Avogadro's constant `steps::math::AVOGADRO`. -/
def AVOGADRO : ℚ := 602214179 * 10 ^ 15

/-- Modelled from the spec: the state of a `Reac`, `Diff` or `SReac` that the
facade touches: its `schedIDX`, its `inactive` flag and its `extent`
counter. -/
structure KState where
  schedIDX : Nat
  inactive : Bool
  extent : Nat

/-- Modelled from the spec: `KProc::setActive`. -/
def KState.setActive (k : KState) (active : Bool) : KState := { k with inactive := !active }

/-- Modelled from the spec: `KProc::resetExtent`. -/
def KState.resetExtent (k : KState) : KState := { k with extent := 0 }

/-- Modelled from the spec: `KProc::reset`, back to the initial conditions
(active, extent zero). -/
def KState.reset (k : KState) : KState := { k with inactive := false, extent := 0 }

/-- Modelled from the spec: the members of `solver::Compdef` the facade reads:
the volume and the global-to-local maps. -/
structure Compdef where
  vol : ℚ
  specG2L : Nat → Nat
  reacG2L : Nat → Nat
  diffG2L : Nat → Nat

/-- Modelled from the spec: the members of `solver::Patchdef` the facade
reads. -/
structure Patchdef where
  area : ℚ
  specG2L : Nat → Nat
  sreacG2L : Nat → Nat

/-- Modelled from the spec: a tetrahedron: its compartment definition, volume,
per-species counts and clamped flags, up to four neighbouring tets and tris,
and its reactions and diffusions. -/
structure Tet where
  compdef : Compdef
  vol : ℚ
  pools : List Nat
  flags : List Bool
  nextTet : List (Option Nat)
  nextTri : List (Option Nat)
  reacs : List KState
  diffs : List KState

/-- Modelled from the spec: a triangle: its patch definition, area, counts,
clamped flags, inner and outer tet, and its surface reactions. -/
structure Tri where
  patchdef : Patchdef
  area : ℚ
  pools : List Nat
  flags : List Bool
  iTet : Option Nat
  oTet : Option Nat
  sreacs : List KState

/-- Modelled from the spec: a compartment: its definition, the tets that
realise it (indices into `pTets`) and its own pools array. -/
structure Comp where
  cdef : Compdef
  tets : List Nat
  pools : List ℚ

/-- Modelled from the spec: a patch: its definition, its tris (indices into
`pTris`) and its own pools array. -/
structure Patch where
  pdef : Patchdef
  tris : List Nat
  pools : List ℚ

/-- The members `pComps`, `pPatches`, `pTets` and `pTris` of `Tetexact`; an
entry `none` of `pTets` or `pTris` is a null pointer. -/
structure Mesh where
  pComps : List Comp
  pPatches : List Patch
  pTets : List (Option Tet)
  pTris : List (Option Tri)

/-- Dereference of a `Tet *`. -/
def Mesh.tetAt (m : Mesh) (i : Nat) : Option Tet := m.pTets.getD i none

/-- Dereference of a `Tri *`. -/
def Mesh.triAt (m : Mesh) (i : Nat) : Option Tri := m.pTris.getD i none

/-- Write through a `Tet *`. -/
def Mesh.setTet (m : Mesh) (i : Nat) (t : Tet) : Mesh := { m with pTets := m.pTets.set i (some t) }

/-- Write through a `Tri *`. -/
def Mesh.setTri (m : Mesh) (i : Nat) (t : Tri) : Mesh := { m with pTris := m.pTris.set i (some t) }

/-- Modelled from the spec: `Tet::setCount`, store the count of a species. -/
def Tet.setCount (t : Tet) (lidx count : Nat) : Tet := { t with pools := t.pools.set lidx count }

/-- Modelled from the spec: `Tet::clamped`. -/
def Tet.clamped (t : Tet) (lidx : Nat) : Bool := t.flags.getD lidx false

/-- Modelled from the spec: `Tet::setClamped`. -/
def Tet.setClamped (t : Tet) (lidx : Nat) (b : Bool) : Tet := { t with flags := t.flags.set lidx b }

/-- Modelled from the spec: `Tet::kprocBegin .. kprocEnd`, the reactions and
then the diffusions of the tet. -/
def Tet.kprocs (t : Tet) : List KState := t.reacs ++ t.diffs

/-- Modelled from the spec: `Tet::reset`, zero the pools, clear the flags and
reset the KProcs. -/
def Tet.reset (t : Tet) : Tet :=
  { t with pools := t.pools.map (fun _ => 0), flags := t.flags.map (fun _ => false),
           reacs := t.reacs.map KState.reset, diffs := t.diffs.map KState.reset }

/-- Modelled from the spec: `Tri::setCount`. -/
def Tri.setCount (t : Tri) (lidx count : Nat) : Tri := { t with pools := t.pools.set lidx count }

/-- Modelled from the spec: `Tri::clamped`. -/
def Tri.clamped (t : Tri) (lidx : Nat) : Bool := t.flags.getD lidx false

/-- Modelled from the spec: `Tri::setClamped`. -/
def Tri.setClamped (t : Tri) (lidx : Nat) (b : Bool) : Tri := { t with flags := t.flags.set lidx b }

/-- Modelled from the spec: `Tri::reset`. -/
def Tri.reset (t : Tri) : Tri :=
  { t with pools := t.pools.map (fun _ => 0), flags := t.flags.map (fun _ => false),
           sreacs := t.sreacs.map KState.reset }

/-- Volume of the tet behind a pointer (zero for a null pointer). -/
def Mesh.tetVol (m : Mesh) (i : Nat) : ℚ :=
  match m.tetAt i with
  | some t => t.vol
  | none => 0

/-- Area of the tri behind a pointer (zero for a null pointer). -/
def Mesh.triArea (m : Mesh) (i : Nat) : ℚ :=
  match m.triAt i with
  | some t => t.area
  | none => 0

/-- Modelled from the spec: `Comp::vol`, the sum of the volumes of its
tets. -/
def Comp.vol (m : Mesh) (c : Comp) : ℚ := (c.tets.map m.tetVol).sum

/-- Modelled from the spec: `Patch::area`, the sum of the areas of its
tris. -/
def Patch.area (m : Mesh) (p : Patch) : ℚ := (p.tris.map m.triArea).sum

/-- Modelled from the spec: `Comp::countTets`. -/
def Comp.countTets (c : Comp) : Nat := c.tets.length

/-- Modelled from the spec: `Patch::countTris`. -/
def Patch.countTris (p : Patch) : Nat := p.tris.length

/-- Walk of the cumulative weights: the first element whose cumulative weight
exceeds `selector`. -/
def pickWalk (weight : Nat → ℚ) (selector : ℚ) : List Nat → ℚ → Option Nat
  | [], _ => none
  | i :: rest, accum =>
    if selector < accum + weight i then some i
    else pickWalk weight selector rest (accum + weight i)

/-- Modelled from the spec: `Comp::pickTetByVol`, the tet whose cumulative
volume fraction contains `u`; null when there is none. -/
def Comp.pickTetByVol (m : Mesh) (c : Comp) (u : ℚ) : Option Nat :=
  pickWalk m.tetVol (u * c.vol m) c.tets 0

/-- Modelled from the spec: `Patch::pickTriByArea`. -/
def Patch.pickTriByArea (m : Mesh) (p : Patch) (u : ℚ) : Option Nat :=
  pickWalk m.triArea (u * p.area m) p.tris 0

/-- The conversion `static_cast<uint>(x)` of a double that holds a whole
number; the conversion of a value outside the range of `uint` is undefined
(`none`). -/
def toUint (x : ℚ) : Option Nat :=
  if 0 ≤ x ∧ ⌊x⌋.toNat < UINTMOD then some ⌊x⌋.toNat else none

/-- The statement `c++` on a `uint`. -/
def uintInc (c : Nat) : Nat := (c + 1) % UINTMOD

/-- The statement `c -= n3` on a `uint`. -/
def uintSub (c n3 : Nat) : Nat := (c + (UINTMOD - n3 % UINTMOD)) % UINTMOD

/-- The rounding of the target of `_setCompCount`, `_setPatchCount`,
`_setTetCount` and `_setTriCount`: `n_int = floor(n)`, `n_frc = n - n_int`,
`c = (uint) n_int`, and one uniform draw when `n_frc > 0`, which decides
whether `c++` runs. -/
def roundTarget (r : RNG) (n : ℚ) : Option (Nat × RNG) :=
  let n_int : ℚ := ⌊n⌋
  let n_frc := n - n_int
  match toUint n_int with
  | none => none
  | some c =>
    if n_frc > 0 then
      let d := r.getUnfIE
      if d.1 < n_frc then some (uintInc c, d.2) else some (c, d.2)
    else some (c, r)

/-- The method `std::set<SchedIDX>::insert` on the sorted list of the
elements. -/
def setInsert (x : Nat) (s : List Nat) : List Nat :=
  if x ∈ s then s else List.orderedInsert (fun a b => a ≤ b) x s

/-- Insertion of the `schedIDX` of every KProc of a list into the set. -/
def insertKProcs (ks : List KState) (updset : List Nat) : List Nat :=
  ks.foldl (fun u k => setInsert k.schedIDX u) updset

/-- The call `v.resize(n)` of `std::vector`: the first `n` elements are kept
and the vector is padded with zeros up to `n` elements. -/
def vecResize (v : List Nat) (n : Nat) : List Nat :=
  v.take n ++ List.replicate (n - v.length) 0

/-- The call `std::copy(first, last, out)`: the elements of the source are
written one after the other from position `i` of the destination on. -/
def vecCopy : List Nat → Nat → List Nat → List Nat
  | [], _, v => v
  | x :: xs, i, v => vecCopy xs (i + 1) (v.set i x)

/-- The function `schedIDXSet_To_Vec`: `v.resize(s.size())`, then
`std::copy(s.begin(), s.end(), v.begin())`. A `std::set<SchedIDX>` is the
list of its elements in increasing order, which is the order its iterators
visit them in. -/
def schedIDXSet_To_Vec (s : List Nat) (v : List Nat) : List Nat :=
  vecCopy s 0 (vecResize v s.length)

/-- The loop of `_updateSpec(Tet *)` over the four neighbouring triangles. -/
def insertTriKProcs (m : Mesh) (tet : Tet) : List Nat → List Nat → Option (List Nat)
  | [], updset => some updset
  | i :: rest, updset =>
    match tet.nextTri.getD i none with
    | none => insertTriKProcs m tet rest updset
    | some ti =>
      match m.triAt ti with
      | none => none
      | some tri => insertTriKProcs m tet rest (insertKProcs tri.sreacs updset)

/-- Method `Tetexact::_updateSpec(Tet *, uint)`. -/
def _updateSpec (s : Tetexact Mesh) (ti : Nat) (_spec_lidx : Nat) : Option (Tetexact Mesh) :=
  match s.world.tetAt ti with
  | none => none
  | some tet =>
    match insertTriKProcs s.world tet (List.range 4) (insertKProcs tet.kprocs []) with
    | none => none
    | some updset =>
      if updset.isEmpty then some s
      else some (_update s (schedIDXSet_To_Vec updset []))

/-- Method `Tetexact::_updateSpec(Tri *, uint)`. -/
def _updateSpecTri (s : Tetexact Mesh) (ti : Nat) (_spec_lidx : Nat) : Option (Tetexact Mesh) :=
  match s.world.triAt ti with
  | none => none
  | some tri =>
    let updset := insertKProcs tri.sreacs []
    if updset.isEmpty then some s
    else some (_update s (schedIDXSet_To_Vec updset []))

/-! ## The facade: compartments -/

/-- Modelled from the spec: `Tet::reac`, the reaction with a local index. -/
def Tet.reac (t : Tet) (lridx : Nat) : Option KState := t.reacs[lridx]?

/-- Modelled from the spec: `Tet::diff`, the diffusion with a local index. -/
def Tet.diff (t : Tet) (ldidx : Nat) : Option KState := t.diffs[ldidx]?

/-- Modelled from the spec: `Tri::sreac`, the surface reaction with a local
index. -/
def Tri.sreac (t : Tri) (lsridx : Nat) : Option KState := t.sreacs[lsridx]?

/-- A loop `for (t = bgnTet; t != endTet; ++t)` that changes each tet. -/
def forTets (f : Tet → Option Tet) : List Nat → Mesh → Option Mesh
  | [], m => some m
  | i :: rest, m =>
    match m.tetAt i with
    | none => none
    | some t =>
      match f t with
      | none => none
      | some t1 => forTets f rest (m.setTet i t1)

/-- A loop over tets that returns `false` at the first tet failing `p` and
`true` when none fails. -/
def allTets (m : Mesh) (p : Tet → Option Bool) : List Nat → Option Bool
  | [] => some true
  | i :: rest =>
    match m.tetAt i with
    | none => none
    | some t =>
      match p t with
      | none => none
      | some b => if b = false then some false else allTets m p rest

/-- A loop over tets that accumulates a double. -/
def sumTets (m : Mesh) (f : Tet → Option ℚ) : List Nat → ℚ → Option ℚ
  | [], acc => some acc
  | i :: rest, acc =>
    match m.tetAt i with
    | none => none
    | some t =>
      match f t with
      | none => none
      | some x => sumTets m f rest (acc + x)

/-- Method `Tetexact::_getCompCount`. -/
def _getCompCount (s : Tetexact Mesh) (cidx sidx : Nat) : Option ℚ :=
  match s.world.pComps[cidx]? with
  | none => none
  | some comp =>
    let slidx := comp.cdef.specG2L sidx
    if slidx = LIDX_UNDEFINED then some 0
    else some (comp.pools.getD slidx 0)

/-- The pre-seeding loop of `_setCompCount`: for each tet,
`fract = (double) c * (vol / totalvol)`, `n3 = (uint) floor(fract)`,
`setCount(slidx, n3)`, `c -= n3`. -/
def preSeed (slidx : Nat) (totalvol : ℚ) : List Nat → Mesh × Nat → Option (Mesh × Nat)
  | [], st => some st
  | i :: rest, (m, c) =>
    match m.tetAt i with
    | none => none
    | some tet =>
      let fract := (c : ℚ) * (tet.vol / totalvol)
      match toUint (⌊fract⌋ : ℚ) with
      | none => none
      | some n3 => preSeed slidx totalvol rest (m.setTet i (tet.setCount slidx n3), uintSub c n3)

/-- The loop `while (c != 0)` of `_setCompCount`: pick a tet by volume with a
fresh uniform, add one to its count, `c--`. -/
def sprinkle (comp : Comp) (slidx : Nat) : Nat → Mesh × RNG → Option (Mesh × RNG)
  | 0, st => some st
  | c + 1, (m, r) =>
    let d := r.getUnfIE
    match comp.pickTetByVol m d.1 with
    | none => none
    | some i =>
      match m.tetAt i with
      | none => none
      | some tet =>
        match toUint ((tet.pools.getD slidx 0 : ℚ) + 1) with
        | none => none
        | some cnt => sprinkle comp slidx c (m.setTet i (tet.setCount slidx cnt), d.2)

/-- The closing loop of `_setCompCount`: `_updateSpec(*t, slidx)` for each
tet of the compartment. -/
def updateSpecAll (slidx : Nat) : List Nat → Tetexact Mesh → Option (Tetexact Mesh)
  | [], s => some s
  | i :: rest, s =>
    match _updateSpec s i slidx with
    | none => none
    | some s1 => updateSpecAll slidx rest s1

/-- Method `Tetexact::_setCompCount`. -/
def _setCompCount (s : Tetexact Mesh) (cidx sidx : Nat) (n : ℚ) : Option (Tetexact Mesh) :=
  match s.world.pComps[cidx]? with
  | none => none
  | some comp =>
    let slidx := comp.cdef.specG2L sidx
    if slidx = LIDX_UNDEFINED then some s else
    let totalvol := comp.cdef.vol
    match roundTarget s.rng n with
    | none => none
    | some (c, r1) =>
      match (if c ≥ comp.countTets then preSeed slidx totalvol comp.tets (s.world, c)
             else some (s.world, c)) with
      | none => none
      | some (m1, c1) =>
        match sprinkle comp slidx c1 (m1, r1) with
        | none => none
        | some (m2, r2) =>
          match updateSpecAll slidx comp.tets { s with world := m2, rng := r2 } with
          | none => none
          | some s3 => some (_reset s3)

/-- Method `Tetexact::_getCompAmount`. -/
def _getCompAmount (s : Tetexact Mesh) (cidx sidx : Nat) : Option ℚ :=
  match _getCompCount s cidx sidx with
  | none => none
  | some count => some (count / AVOGADRO)

/-- Method `Tetexact::_setCompAmount`. -/
def _setCompAmount (s : Tetexact Mesh) (cidx sidx : Nat) (a : ℚ) : Option (Tetexact Mesh) :=
  _setCompCount s cidx sidx (a * AVOGADRO)

/-- Method `Tetexact::_getCompConc`. -/
def _getCompConc (s : Tetexact Mesh) (cidx sidx : Nat) : Option ℚ :=
  match _getCompCount s cidx sidx with
  | none => none
  | some count =>
    match s.world.pComps[cidx]? with
    | none => none
    | some comp => some (count / (1000 * comp.cdef.vol * AVOGADRO))

/-- Method `Tetexact::_setCompConc`. -/
def _setCompConc (s : Tetexact Mesh) (cidx sidx : Nat) (c : ℚ) : Option (Tetexact Mesh) :=
  match s.world.pComps[cidx]? with
  | none => none
  | some comp => _setCompCount s cidx sidx (c * (1000 * comp.cdef.vol * AVOGADRO))

/-- Method `Tetexact::_getCompClamped`. -/
def _getCompClamped (s : Tetexact Mesh) (cidx sidx : Nat) : Option Bool :=
  match s.world.pComps[cidx]? with
  | none => none
  | some comp =>
    let lsidx := comp.cdef.specG2L sidx
    if lsidx = LIDX_UNDEFINED then some false
    else allTets s.world (fun t => some (t.clamped lsidx)) comp.tets

/-- Method `Tetexact::_setCompClamped`. -/
def _setCompClamped (s : Tetexact Mesh) (cidx sidx : Nat) (b : Bool) : Option (Tetexact Mesh) :=
  match s.world.pComps[cidx]? with
  | none => none
  | some comp =>
    let lsidx := comp.cdef.specG2L sidx
    if lsidx = LIDX_UNDEFINED then some s
    else
      match forTets (fun t => some (t.setClamped lsidx b)) comp.tets s.world with
      | none => none
      | some m => some { s with world := m }

/-- The test `reac->inactive() == true` turned into the value the loop of an
`Active` getter tests: `false` stops the loop. -/
def activeOf (k : Option KState) : Option Bool := k.map fun x => !x.inactive

/-- Method `Tetexact::_getCompReacActive`. -/
def _getCompReacActive (s : Tetexact Mesh) (cidx ridx : Nat) : Option Bool :=
  match s.world.pComps[cidx]? with
  | none => none
  | some comp =>
    let lridx := comp.cdef.reacG2L ridx
    if lridx = LIDX_UNDEFINED then some false
    else allTets s.world (fun t => activeOf (t.reac lridx)) comp.tets

/-- Method `Tetexact::_setCompReacActive`. -/
def _setCompReacActive (s : Tetexact Mesh) (cidx ridx : Nat) (a : Bool) :
    Option (Tetexact Mesh) :=
  match s.world.pComps[cidx]? with
  | none => none
  | some comp =>
    let lridx := comp.cdef.reacG2L ridx
    if lridx = LIDX_UNDEFINED then some s
    else
      match forTets (fun t => (t.reac lridx).map fun k =>
          { t with reacs := t.reacs.set lridx (k.setActive a) }) comp.tets s.world with
      | none => none
      | some m => some (_reset { s with world := m })

/-- Method `Tetexact::_getCompDiffActive`. -/
def _getCompDiffActive (s : Tetexact Mesh) (cidx didx : Nat) : Option Bool :=
  match s.world.pComps[cidx]? with
  | none => none
  | some comp =>
    let ldidx := comp.cdef.diffG2L didx
    if ldidx = LIDX_UNDEFINED then some false
    else allTets s.world (fun t => activeOf (t.diff ldidx)) comp.tets

/-- Method `Tetexact::_setCompDiffActive`. -/
def _setCompDiffActive (s : Tetexact Mesh) (cidx didx : Nat) (act : Bool) :
    Option (Tetexact Mesh) :=
  match s.world.pComps[cidx]? with
  | none => none
  | some comp =>
    let ldidx := comp.cdef.diffG2L didx
    if ldidx = LIDX_UNDEFINED then some s
    else
      match forTets (fun t => (t.diff ldidx).map fun k =>
          { t with diffs := t.diffs.set ldidx (k.setActive act) }) comp.tets s.world with
      | none => none
      | some m => some (_reset { s with world := m })

/-- Method `Tetexact::_getCompReacH`. The method `Reac::h` is the parameter
`h`, a function of the mesh and of the reaction's `schedIDX`. -/
def _getCompReacH (h : Mesh → Nat → ℚ) (s : Tetexact Mesh) (cidx ridx : Nat) : Option ℚ :=
  match s.world.pComps[cidx]? with
  | none => none
  | some lcomp =>
    let lridx := lcomp.cdef.reacG2L ridx
    if lridx = LIDX_UNDEFINED then some 0
    else if lcomp.tets = [] then some 0
    else sumTets s.world (fun t => (t.reac lridx).map fun k => h s.world k.schedIDX) lcomp.tets 0

/-- Method `Tetexact::_getCompReacC`. The method `Reac::c` is the parameter
`c`. -/
def _getCompReacC (c : Mesh → Nat → ℚ) (s : Tetexact Mesh) (cidx ridx : Nat) : Option ℚ :=
  match s.world.pComps[cidx]? with
  | none => none
  | some lcomp =>
    let lridx := lcomp.cdef.reacG2L ridx
    if lridx = LIDX_UNDEFINED then some 0
    else if lcomp.tets = [] then some 0
    else
      match sumTets s.world (fun t => (t.reac lridx).map fun k => c s.world k.schedIDX * t.vol)
          lcomp.tets 0,
        sumTets s.world (fun t => some t.vol) lcomp.tets 0 with
      | some c2, some v => some (c2 / v)
      | _, _ => none

/-- Method `Tetexact::_getCompReacA`. The call `reac->rate()` is the rate of
the entry `schedIDX` of `pKProcs`. -/
def _getCompReacA (s : Tetexact Mesh) (cidx ridx : Nat) : Option ℚ :=
  match s.world.pComps[cidx]? with
  | none => none
  | some lcomp =>
    let lridx := lcomp.cdef.reacG2L ridx
    if lridx = LIDX_UNDEFINED then some 0
    else if lcomp.tets = [] then some 0
    else sumTets s.world (fun t => (t.reac lridx).map fun k => rateAt s k.schedIDX) lcomp.tets 0

/-- The loop of `_getCompReacExtent`, which accumulates into a `uint`. -/
def sumExtent (m : Mesh) (lridx : Nat) : List Nat → Nat → Option Nat
  | [], x => some x
  | i :: rest, x =>
    match m.tetAt i with
    | none => none
    | some t =>
      match t.reac lridx with
      | none => none
      | some k => sumExtent m lridx rest ((x + k.extent) % UINTMOD)

/-- Method `Tetexact::_getCompReacExtent`. -/
def _getCompReacExtent (s : Tetexact Mesh) (cidx ridx : Nat) : Option Nat :=
  match s.world.pComps[cidx]? with
  | none => none
  | some lcomp =>
    let lridx := lcomp.cdef.reacG2L ridx
    if lridx = LIDX_UNDEFINED then some 0
    else if lcomp.tets = [] then some 0
    else sumExtent s.world lridx lcomp.tets 0

/-- Method `Tetexact::_resetCompReacExtent`. -/
def _resetCompReacExtent (s : Tetexact Mesh) (cidx ridx : Nat) : Option (Tetexact Mesh) :=
  match s.world.pComps[cidx]? with
  | none => none
  | some lcomp =>
    let lridx := lcomp.cdef.reacG2L ridx
    if lridx = LIDX_UNDEFINED then some s
    else if lcomp.tets = [] then some s
    else
      match forTets (fun t => (t.reac lridx).map fun k =>
          { t with reacs := t.reacs.set lridx k.resetExtent }) lcomp.tets s.world with
      | none => none
      | some m => some { s with world := m }

/-! ## The facade: patches -/

/-- A loop `for (t = bgnTri; t != endTri; ++t)` that changes each tri. -/
def forTris (f : Tri → Option Tri) : List Nat → Mesh → Option Mesh
  | [], m => some m
  | i :: rest, m =>
    match m.triAt i with
    | none => none
    | some t =>
      match f t with
      | none => none
      | some t1 => forTris f rest (m.setTri i t1)

/-- A loop over tris that returns `false` at the first tri failing `p`. -/
def allTris (m : Mesh) (p : Tri → Option Bool) : List Nat → Option Bool
  | [] => some true
  | i :: rest =>
    match m.triAt i with
    | none => none
    | some t =>
      match p t with
      | none => none
      | some b => if b = false then some false else allTris m p rest

/-- A loop over tris that accumulates a double. -/
def sumTris (m : Mesh) (f : Tri → Option ℚ) : List Nat → ℚ → Option ℚ
  | [], acc => some acc
  | i :: rest, acc =>
    match m.triAt i with
    | none => none
    | some t =>
      match f t with
      | none => none
      | some x => sumTris m f rest (acc + x)

/-- Method `Tetexact::_getPatchCount`. -/
def _getPatchCount (s : Tetexact Mesh) (pidx sidx : Nat) : Option ℚ :=
  match s.world.pPatches[pidx]? with
  | none => none
  | some patch =>
    let slidx := patch.pdef.specG2L sidx
    if slidx = LIDX_UNDEFINED then some 0
    else some (patch.pools.getD slidx 0)

/-- The pre-seeding loop of `_setPatchCount`. -/
def preSeedTri (slidx : Nat) (totalarea : ℚ) : List Nat → Mesh × Nat → Option (Mesh × Nat)
  | [], st => some st
  | i :: rest, (m, c) =>
    match m.triAt i with
    | none => none
    | some tri =>
      let fract := (c : ℚ) * (tri.area / totalarea)
      match toUint (⌊fract⌋ : ℚ) with
      | none => none
      | some n3 =>
        preSeedTri slidx totalarea rest (m.setTri i (tri.setCount slidx n3), uintSub c n3)

/-- The loop `while (c != 0)` of `_setPatchCount`. -/
def sprinkleTri (patch : Patch) (slidx : Nat) : Nat → Mesh × RNG → Option (Mesh × RNG)
  | 0, st => some st
  | c + 1, (m, r) =>
    let d := r.getUnfIE
    match patch.pickTriByArea m d.1 with
    | none => none
    | some i =>
      match m.triAt i with
      | none => none
      | some tri =>
        match toUint ((tri.pools.getD slidx 0 : ℚ) + 1) with
        | none => none
        | some cnt => sprinkleTri patch slidx c (m.setTri i (tri.setCount slidx cnt), d.2)

/-- The closing loop of `_setPatchCount`: `_updateSpec(*t, slidx)` for each
tri of the patch. -/
def updateSpecAllTri (slidx : Nat) : List Nat → Tetexact Mesh → Option (Tetexact Mesh)
  | [], s => some s
  | i :: rest, s =>
    match _updateSpecTri s i slidx with
    | none => none
    | some s1 => updateSpecAllTri slidx rest s1

/-- Method `Tetexact::_setPatchCount`. -/
def _setPatchCount (s : Tetexact Mesh) (pidx sidx : Nat) (n : ℚ) : Option (Tetexact Mesh) :=
  match s.world.pPatches[pidx]? with
  | none => none
  | some patch =>
    let slidx := patch.pdef.specG2L sidx
    if slidx = LIDX_UNDEFINED then some s else
    let totalarea := patch.pdef.area
    match roundTarget s.rng n with
    | none => none
    | some (c, r1) =>
      match (if c ≥ patch.countTris then preSeedTri slidx totalarea patch.tris (s.world, c)
             else some (s.world, c)) with
      | none => none
      | some (m1, c1) =>
        match sprinkleTri patch slidx c1 (m1, r1) with
        | none => none
        | some (m2, r2) =>
          match updateSpecAllTri slidx patch.tris { s with world := m2, rng := r2 } with
          | none => none
          | some s3 => some (_reset s3)

/-- Method `Tetexact::_getPatchAmount`. -/
def _getPatchAmount (s : Tetexact Mesh) (pidx sidx : Nat) : Option ℚ :=
  match _getPatchCount s pidx sidx with
  | none => none
  | some count => some (count / AVOGADRO)

/-- Method `Tetexact::_setPatchAmount`. -/
def _setPatchAmount (s : Tetexact Mesh) (pidx sidx : Nat) (a : ℚ) : Option (Tetexact Mesh) :=
  _setPatchCount s pidx sidx (a * AVOGADRO)

/-- Method `Tetexact::_getPatchClamped`. -/
def _getPatchClamped (s : Tetexact Mesh) (pidx sidx : Nat) : Option Bool :=
  match s.world.pPatches[pidx]? with
  | none => none
  | some patch =>
    let lsidx := patch.pdef.specG2L sidx
    if lsidx = LIDX_UNDEFINED then some false
    else allTris s.world (fun t => some (t.clamped lsidx)) patch.tris

/-- Method `Tetexact::_setPatchClamped`. -/
def _setPatchClamped (s : Tetexact Mesh) (pidx sidx : Nat) (buf : Bool) :
    Option (Tetexact Mesh) :=
  match s.world.pPatches[pidx]? with
  | none => none
  | some patch =>
    let lsidx := patch.pdef.specG2L sidx
    if lsidx = LIDX_UNDEFINED then some s
    else
      match forTris (fun t => some (t.setClamped lsidx buf)) patch.tris s.world with
      | none => none
      | some m => some { s with world := m }

/-- Method `Tetexact::_getPatchSReacActive`. -/
def _getPatchSReacActive (s : Tetexact Mesh) (pidx ridx : Nat) : Option Bool :=
  match s.world.pPatches[pidx]? with
  | none => none
  | some patch =>
    let lsridx := patch.pdef.sreacG2L ridx
    if lsridx = LIDX_UNDEFINED then some false
    else allTris s.world (fun t => activeOf (t.sreac lsridx)) patch.tris

/-- Method `Tetexact::_setPatchSReacActive`. -/
def _setPatchSReacActive (s : Tetexact Mesh) (pidx ridx : Nat) (a : Bool) :
    Option (Tetexact Mesh) :=
  match s.world.pPatches[pidx]? with
  | none => none
  | some patch =>
    let lsridx := patch.pdef.sreacG2L ridx
    if lsridx = LIDX_UNDEFINED then some s
    else
      match forTris (fun t => (t.sreac lsridx).map fun k =>
          { t with sreacs := t.sreacs.set lsridx (k.setActive a) }) patch.tris s.world with
      | none => none
      | some m => some (_reset { s with world := m })

/-- Method `Tetexact::_getPatchSReacH`. The method `SReac::h` is the parameter
`h`. -/
def _getPatchSReacH (h : Mesh → Nat → ℚ) (s : Tetexact Mesh) (pidx ridx : Nat) : Option ℚ :=
  match s.world.pPatches[pidx]? with
  | none => none
  | some lpatch =>
    let lsridx := lpatch.pdef.sreacG2L ridx
    if lsridx = LIDX_UNDEFINED then some 0
    else if lpatch.tris = [] then some 0
    else sumTris s.world (fun t => (t.sreac lsridx).map fun k => h s.world k.schedIDX)
      lpatch.tris 0

/-- Method `Tetexact::_getPatchSReacC`. The method `SReac::c` is the parameter
`c`. -/
def _getPatchSReacC (c : Mesh → Nat → ℚ) (s : Tetexact Mesh) (pidx ridx : Nat) : Option ℚ :=
  match s.world.pPatches[pidx]? with
  | none => none
  | some lpatch =>
    let lsridx := lpatch.pdef.sreacG2L ridx
    if lsridx = LIDX_UNDEFINED then some 0
    else if lpatch.tris = [] then some 0
    else
      match sumTris s.world
          (fun t => (t.sreac lsridx).map fun k => c s.world k.schedIDX * t.area) lpatch.tris 0,
        sumTris s.world (fun t => some t.area) lpatch.tris 0 with
      | some c2, some a => some (c2 / a)
      | _, _ => none

/-- Method `Tetexact::_getPatchSReacA`. -/
def _getPatchSReacA (s : Tetexact Mesh) (pidx ridx : Nat) : Option ℚ :=
  match s.world.pPatches[pidx]? with
  | none => none
  | some lpatch =>
    let lsridx := lpatch.pdef.sreacG2L ridx
    if lsridx = LIDX_UNDEFINED then some 0
    else if lpatch.tris = [] then some 0
    else sumTris s.world (fun t => (t.sreac lsridx).map fun k => rateAt s k.schedIDX)
      lpatch.tris 0

/-- Method `Tetexact::_getPatchSReacExtent`: the extents are accumulated in a
double and the sum is returned as `uint`. -/
def _getPatchSReacExtent (s : Tetexact Mesh) (pidx ridx : Nat) : Option Nat :=
  match s.world.pPatches[pidx]? with
  | none => none
  | some lpatch =>
    let lsridx := lpatch.pdef.sreacG2L ridx
    if lsridx = LIDX_UNDEFINED then some 0
    else if lpatch.tris = [] then some 0
    else
      match sumTris s.world (fun t => (t.sreac lsridx).map fun k => (k.extent : ℚ))
          lpatch.tris 0 with
      | none => none
      | some x => toUint x

/-- Method `Tetexact::_resetPatchSReacExtent`. -/
def _resetPatchSReacExtent (s : Tetexact Mesh) (pidx ridx : Nat) : Option (Tetexact Mesh) :=
  match s.world.pPatches[pidx]? with
  | none => none
  | some lpatch =>
    let lsridx := lpatch.pdef.sreacG2L ridx
    if lsridx = LIDX_UNDEFINED then some s
    else if lpatch.tris = [] then some s
    else
      match forTris (fun t => (t.sreac lsridx).map fun k =>
          { t with sreacs := t.sreacs.set lsridx k.resetExtent }) lpatch.tris s.world with
      | none => none
      | some m => some { s with world := m }

/-! ## The facade: tets -/

/-- Method `Tetexact::_getTetCount`. -/
def _getTetCount (s : Tetexact Mesh) (tidx sidx : Nat) : Option ℚ :=
  match s.world.tetAt tidx with
  | none => none
  | some tet =>
    let lsidx := tet.compdef.specG2L sidx
    if lsidx = LIDX_UNDEFINED then some 0
    else some (tet.pools.getD lsidx 0 : ℚ)

/-- Method `Tetexact::_setTetCount`. -/
def _setTetCount (s : Tetexact Mesh) (tidx sidx : Nat) (n : ℚ) : Option (Tetexact Mesh) :=
  match s.world.tetAt tidx with
  | none => none
  | some tet =>
    let lsidx := tet.compdef.specG2L sidx
    if lsidx = LIDX_UNDEFINED then some s else
    match roundTarget s.rng n with
    | none => none
    | some (c, r1) =>
      _updateSpec { s with world := s.world.setTet tidx (tet.setCount lsidx c), rng := r1 }
        tidx lsidx

/-- Method `Tetexact::_getTetAmount`. -/
def _getTetAmount (s : Tetexact Mesh) (tidx sidx : Nat) : Option ℚ :=
  match _getTetCount s tidx sidx with
  | none => none
  | some count => some (count / AVOGADRO)

/-- Method `Tetexact::_setTetAmount`. -/
def _setTetAmount (s : Tetexact Mesh) (tidx sidx : Nat) (m : ℚ) : Option (Tetexact Mesh) :=
  _setTetCount s tidx sidx (m * AVOGADRO)

/-- Method `Tetexact::_getTetConc`. -/
def _getTetConc (s : Tetexact Mesh) (tidx sidx : Nat) : Option ℚ :=
  match _getTetCount s tidx sidx with
  | none => none
  | some count =>
    match s.world.tetAt tidx with
    | none => none
    | some tet => some (count / (1000 * tet.vol * AVOGADRO))

/-- Method `Tetexact::_setTetConc`. -/
def _setTetConc (s : Tetexact Mesh) (tidx sidx : Nat) (c : ℚ) : Option (Tetexact Mesh) :=
  match s.world.tetAt tidx with
  | none => none
  | some tet => _setTetCount s tidx sidx (c * (1000 * tet.vol * AVOGADRO))

/-- Method `Tetexact::_getTetClamped`. -/
def _getTetClamped (s : Tetexact Mesh) (tidx sidx : Nat) : Option Bool :=
  match s.world.tetAt tidx with
  | none => none
  | some tet =>
    let lsidx := tet.compdef.specG2L sidx
    if lsidx = LIDX_UNDEFINED then some false
    else some (tet.clamped lsidx)

/-- Method `Tetexact::_setTetClamped`. -/
def _setTetClamped (s : Tetexact Mesh) (tidx sidx : Nat) (buf : Bool) : Option (Tetexact Mesh) :=
  match s.world.tetAt tidx with
  | none => none
  | some tet =>
    let lsidx := tet.compdef.specG2L sidx
    if lsidx = LIDX_UNDEFINED then some s
    else some { s with world := s.world.setTet tidx (tet.setClamped lsidx buf) }

/-- Method `Tetexact::_getTetReacActive`. -/
def _getTetReacActive (s : Tetexact Mesh) (tidx ridx : Nat) : Option Bool :=
  match s.world.tetAt tidx with
  | none => none
  | some tet =>
    let lridx := tet.compdef.reacG2L ridx
    if lridx = LIDX_UNDEFINED then some false
    else
      match tet.reac lridx with
      | none => none
      | some k => if k.inactive = true then some false else some true

/-- Method `Tetexact::_setTetReacActive`. -/
def _setTetReacActive (s : Tetexact Mesh) (tidx ridx : Nat) (act : Bool) :
    Option (Tetexact Mesh) :=
  match s.world.tetAt tidx with
  | none => none
  | some tet =>
    let lridx := tet.compdef.reacG2L ridx
    if lridx = LIDX_UNDEFINED then some s
    else
      match tet.reac lridx with
      | none => none
      | some k =>
        let tet1 := { tet with reacs := tet.reacs.set lridx (k.setActive act) }
        some (_update { s with world := s.world.setTet tidx tet1 } [k.schedIDX])

/-- Method `Tetexact::_getTetDiffActive`. -/
def _getTetDiffActive (s : Tetexact Mesh) (tidx didx : Nat) : Option Bool :=
  match s.world.tetAt tidx with
  | none => none
  | some tet =>
    let ldidx := tet.compdef.diffG2L didx
    if ldidx = LIDX_UNDEFINED then some false
    else
      match tet.diff ldidx with
      | none => none
      | some k => if k.inactive = true then some false else some true

/-- Method `Tetexact::_setTetDiffActive`. -/
def _setTetDiffActive (s : Tetexact Mesh) (tidx didx : Nat) (act : Bool) :
    Option (Tetexact Mesh) :=
  match s.world.tetAt tidx with
  | none => none
  | some tet =>
    let ldidx := tet.compdef.diffG2L didx
    if ldidx = LIDX_UNDEFINED then some s
    else
      match tet.diff ldidx with
      | none => none
      | some k =>
        let tet1 := { tet with diffs := tet.diffs.set ldidx (k.setActive act) }
        some (_update { s with world := s.world.setTet tidx tet1 } [k.schedIDX])

/-- Method `Tetexact::_getTetReacH`. -/
def _getTetReacH (h : Mesh → Nat → ℚ) (s : Tetexact Mesh) (tidx ridx : Nat) : Option ℚ :=
  match s.world.tetAt tidx with
  | none => none
  | some tet =>
    let lridx := tet.compdef.reacG2L ridx
    if lridx = LIDX_UNDEFINED then some 0
    else (tet.reac lridx).map fun k => h s.world k.schedIDX

/-- Method `Tetexact::_getTetReacC`. -/
def _getTetReacC (c : Mesh → Nat → ℚ) (s : Tetexact Mesh) (tidx ridx : Nat) : Option ℚ :=
  match s.world.tetAt tidx with
  | none => none
  | some tet =>
    let lridx := tet.compdef.reacG2L ridx
    if lridx = LIDX_UNDEFINED then some 0
    else (tet.reac lridx).map fun k => c s.world k.schedIDX

/-- Method `Tetexact::_getTetReacA`. -/
def _getTetReacA (s : Tetexact Mesh) (tidx ridx : Nat) : Option ℚ :=
  match s.world.tetAt tidx with
  | none => none
  | some tet =>
    let lridx := tet.compdef.reacG2L ridx
    if lridx = LIDX_UNDEFINED then some 0
    else (tet.reac lridx).map fun k => rateAt s k.schedIDX

/-- Method `Tetexact::_getTetDiffA`. -/
def _getTetDiffA (s : Tetexact Mesh) (tidx didx : Nat) : Option ℚ :=
  match s.world.tetAt tidx with
  | none => none
  | some tet =>
    let ldidx := tet.compdef.diffG2L didx
    if ldidx = LIDX_UNDEFINED then some 0
    else (tet.diff ldidx).map fun k => rateAt s k.schedIDX

/-! ## The facade: tris -/

/-- Method `Tetexact::_getTriCount`. -/
def _getTriCount (s : Tetexact Mesh) (tidx sidx : Nat) : Option ℚ :=
  match s.world.triAt tidx with
  | none => none
  | some tri =>
    let lsidx := tri.patchdef.specG2L sidx
    if lsidx = LIDX_UNDEFINED then some 0
    else some (tri.pools.getD lsidx 0 : ℚ)

/-- Method `Tetexact::_setTriCount`. -/
def _setTriCount (s : Tetexact Mesh) (tidx sidx : Nat) (n : ℚ) : Option (Tetexact Mesh) :=
  match s.world.triAt tidx with
  | none => none
  | some tri =>
    let lsidx := tri.patchdef.specG2L sidx
    if lsidx = LIDX_UNDEFINED then some s else
    match roundTarget s.rng n with
    | none => none
    | some (c, r1) =>
      _updateSpecTri { s with world := s.world.setTri tidx (tri.setCount lsidx c), rng := r1 }
        tidx lsidx

/-- Method `Tetexact::_getTriClamped`. -/
def _getTriClamped (s : Tetexact Mesh) (tidx sidx : Nat) : Option Bool :=
  match s.world.triAt tidx with
  | none => none
  | some tri =>
    let lsidx := tri.patchdef.specG2L sidx
    if lsidx = LIDX_UNDEFINED then some false
    else some (tri.clamped lsidx)

/-- Method `Tetexact::_setTriClamped`. -/
def _setTriClamped (s : Tetexact Mesh) (tidx sidx : Nat) (buf : Bool) : Option (Tetexact Mesh) :=
  match s.world.triAt tidx with
  | none => none
  | some tri =>
    let lsidx := tri.patchdef.specG2L sidx
    if lsidx = LIDX_UNDEFINED then some s
    else some { s with world := s.world.setTri tidx (tri.setClamped lsidx buf) }

/-- Method `Tetexact::_getTriSReacActive`. -/
def _getTriSReacActive (s : Tetexact Mesh) (tidx ridx : Nat) : Option Bool :=
  match s.world.triAt tidx with
  | none => none
  | some tri =>
    let lsridx := tri.patchdef.sreacG2L ridx
    if lsridx = LIDX_UNDEFINED then some false
    else
      match tri.sreac lsridx with
      | none => none
      | some k => if k.inactive = true then some false else some true

/-- Method `Tetexact::_setTriSReacActive`. -/
def _setTriSReacActive (s : Tetexact Mesh) (tidx ridx : Nat) (act : Bool) :
    Option (Tetexact Mesh) :=
  match s.world.triAt tidx with
  | none => none
  | some tri =>
    let lsridx := tri.patchdef.sreacG2L ridx
    if lsridx = LIDX_UNDEFINED then some s
    else
      match tri.sreac lsridx with
      | none => none
      | some k =>
        let tri1 := { tri with sreacs := tri.sreacs.set lsridx (k.setActive act) }
        some (_update { s with world := s.world.setTri tidx tri1 } [k.schedIDX])

/-- Method `Tetexact::_getTriSReacH`. -/
def _getTriSReacH (h : Mesh → Nat → ℚ) (s : Tetexact Mesh) (tidx ridx : Nat) : Option ℚ :=
  match s.world.triAt tidx with
  | none => none
  | some tri =>
    let lsridx := tri.patchdef.sreacG2L ridx
    if lsridx = LIDX_UNDEFINED then some 0
    else (tri.sreac lsridx).map fun k => h s.world k.schedIDX

/-- Method `Tetexact::_getTriSReacC`. -/
def _getTriSReacC (c : Mesh → Nat → ℚ) (s : Tetexact Mesh) (tidx ridx : Nat) : Option ℚ :=
  match s.world.triAt tidx with
  | none => none
  | some tri =>
    let lsridx := tri.patchdef.sreacG2L ridx
    if lsridx = LIDX_UNDEFINED then some 0
    else (tri.sreac lsridx).map fun k => c s.world k.schedIDX

/-- Method `Tetexact::_getTriSReacA`. -/
def _getTriSReacA (s : Tetexact Mesh) (tidx ridx : Nat) : Option ℚ :=
  match s.world.triAt tidx with
  | none => none
  | some tri =>
    let lsridx := tri.patchdef.sreacG2L ridx
    if lsridx = LIDX_UNDEFINED then some 0
    else (tri.sreac lsridx).map fun k => rateAt s k.schedIDX

/-! ## The facade: `reset` and the unsupported operations -/

/-- Modelled from the spec: the part of a reset that concerns the pools of a
tet: zero counts, cleared flags. -/
def Tet.resetPools (t : Tet) : Tet :=
  { t with pools := t.pools.map (fun _ => 0), flags := t.flags.map (fun _ => false) }

/-- Modelled from the spec: the pools part of a reset of a tri. -/
def Tri.resetPools (t : Tri) : Tri :=
  { t with pools := t.pools.map (fun _ => 0), flags := t.flags.map (fun _ => false) }

/-- Modelled from the spec: `Comp::reset`, zero pools and reset flags on all
the tets of compartment `ci`. -/
def Comp.reset (m : Mesh) (ci : Nat) : Option Mesh :=
  match m.pComps[ci]? with
  | none => none
  | some c =>
    match forTets (fun t => some t.resetPools) c.tets m with
    | none => none
    | some m1 =>
      some { m1 with pComps := m1.pComps.set ci { c with pools := c.pools.map (fun _ => 0) } }

/-- Modelled from the spec: `Patch::reset`, the analogue over the tris of
patch `pi`. -/
def Patch.reset (m : Mesh) (pi : Nat) : Option Mesh :=
  match m.pPatches[pi]? with
  | none => none
  | some p =>
    match forTris (fun t => some t.resetPools) p.tris m with
    | none => none
    | some m1 =>
      some { m1 with
        pPatches := m1.pPatches.set pi { p with pools := p.pools.map (fun _ => 0) } }

/-- The call `std::for_each(pComps.begin(), pComps.end(), &Comp::reset)`, over
the given indices. -/
def resetComps : List Nat → Mesh → Option Mesh
  | [], m => some m
  | ci :: rest, m =>
    match Comp.reset m ci with
    | none => none
    | some m1 => resetComps rest m1

/-- The call `std::for_each(pPatches.begin(), pPatches.end(), &Patch::reset)`,
over the given indices. -/
def resetPatches : List Nat → Mesh → Option Mesh
  | [], m => some m
  | pi :: rest, m =>
    match Patch.reset m pi with
    | none => none
    | some m1 => resetPatches rest m1

/-- The call `std::for_each(pTets.begin(), pTets.end(), &Tet::reset)`: every
entry is dereferenced, so a null entry makes it undefined. -/
def resetTets (m : Mesh) : Option Mesh :=
  if m.pTets.all Option.isSome then some { m with pTets := m.pTets.map (Option.map Tet.reset) }
  else none

/-- The loop of `reset` over `pTris`, which skips the null entries. -/
def resetTris (m : Mesh) : Mesh := { m with pTris := m.pTris.map (Option.map Tri.reset) }

/-- Method `Tetexact::reset`. -/
def reset (s : Tetexact Mesh) : Option (Tetexact Mesh) :=
  match resetComps (List.range s.world.pComps.length) s.world with
  | none => none
  | some m1 =>
    match resetPatches (List.range m1.pPatches.length) m1 with
    | none => none
    | some m2 =>
      match resetTets m2 with
      | none => none
      | some m3 => some (_reset { s with world := resetTris m3, time := 0, nsteps := 0 })

/-- The exceptions the facade throws. -/
inductive Err where
  | NotImplErr
  | ArgErr
  deriving DecidableEq

/-- The outcome of a call that throws: the exception and the engine as the
call leaves it. -/
abbrev Thrown (W : Type) := Err × Tetexact W

/-- Method `Tetexact::saveState`. -/
def saveState (s : Tetexact W) (_filename : String) : Thrown W := (Err.NotImplErr, s)

/-- Method `Tetexact::_getCompReacK`. -/
def _getCompReacK (s : Tetexact W) (_cidx _ridx : Nat) : Thrown W := (Err.NotImplErr, s)

/-- Method `Tetexact::_setCompReacK`. -/
def _setCompReacK (s : Tetexact W) (_cidx _ridx : Nat) (_kf : ℚ) : Thrown W := (Err.NotImplErr, s)

/-- Method `Tetexact::_getCompDiffD`. -/
def _getCompDiffD (s : Tetexact W) (_cidx _didx : Nat) : Thrown W := (Err.NotImplErr, s)

/-- Method `Tetexact::_setCompDiffD`. -/
def _setCompDiffD (s : Tetexact W) (_cidx _didx : Nat) : Thrown W := (Err.NotImplErr, s)

/-- Method `Tetexact::_getPatchSReacK`. -/
def _getPatchSReacK (s : Tetexact W) (_pidx _ridx : Nat) : Thrown W := (Err.NotImplErr, s)

/-- Method `Tetexact::_setPatchSReacK`. -/
def _setPatchSReacK (s : Tetexact W) (_pidx _ridx : Nat) (_kf : ℚ) : Thrown W :=
  (Err.NotImplErr, s)

/-- Method `Tetexact::_setTetVol`. -/
def _setTetVol (s : Tetexact W) (_tidx : Nat) (_vol : ℚ) : Thrown W := (Err.NotImplErr, s)

/-- Method `Tetexact::_getTetReacK`. -/
def _getTetReacK (s : Tetexact W) (_tidx _ridx : Nat) : Thrown W := (Err.NotImplErr, s)

/-- Method `Tetexact::_setTetReacK`. -/
def _setTetReacK (s : Tetexact W) (_tidx _ridx : Nat) (_kf : ℚ) : Thrown W := (Err.NotImplErr, s)

/-- Method `Tetexact::_getTetDiffD`. -/
def _getTetDiffD (s : Tetexact W) (_tidx _didx : Nat) : Thrown W := (Err.NotImplErr, s)

/-- Method `Tetexact::_setTetDiffD`. -/
def _setTetDiffD (s : Tetexact W) (_tidx _didx : Nat) : Thrown W := (Err.NotImplErr, s)

/-- Method `Tetexact::_setTriArea`. -/
def _setTriArea (s : Tetexact W) (_tidx : Nat) (_area : ℚ) : Thrown W := (Err.NotImplErr, s)

/-- Method `Tetexact::_getTriSReacK`. -/
def _getTriSReacK (s : Tetexact W) (_tidx _ridx : Nat) : Thrown W := (Err.NotImplErr, s)

/-- Method `Tetexact::_setTriSReacK`. -/
def _setTriSReacK (s : Tetexact W) (_tidx _ridx : Nat) (_kf : ℚ) : Thrown W := (Err.NotImplErr, s)

/-! ## Specification vocabulary for the mesh -/

/-- The counts of local species `lidx` in the tets of compartment `cidx`, in
the order of the compartment's tet list. -/
def compTetCounts (m : Mesh) (cidx lidx : Nat) : List Nat :=
  match m.pComps[cidx]? with
  | none => []
  | some comp => comp.tets.map fun i =>
    match m.tetAt i with
    | some t => t.pools.getD lidx 0
    | none => 0

/-- The links of a tet: its neighbouring tets and tris and the `schedIDX` of
its KProcs. -/
def Tet.links (t : Tet) : List (Option Nat) × List (Option Nat) × List Nat :=
  (t.nextTet, t.nextTri, t.kprocs.map fun k => k.schedIDX)

/-- The links of a tri: its inner and outer tet and the `schedIDX` of its
KProcs. -/
def Tri.links (t : Tri) : Option Nat × Option Nat × List Nat :=
  (t.iTet, t.oTet, t.sreacs.map fun k => k.schedIDX)

/-- The object graph of the mesh: which tets each compartment has, which tris
each patch has, and for every slot of `pTets` and `pTris` whether it is filled
and with which links. -/
def Mesh.graph (m : Mesh) :
    List (List Nat) × List (List Nat)
      × List (Option (List (Option Nat) × List (Option Nat) × List Nat))
      × List (Option (Option Nat × Option Nat × List Nat)) :=
  (m.pComps.map (fun c => c.tets), m.pPatches.map (fun p => p.tris),
    m.pTets.map (Option.map Tet.links), m.pTris.map (Option.map Tri.links))

/-- Every pointer held by a compartment, a patch or a tet leads to an
object, and `pTets` has no null entry. -/
def Mesh.Linked (m : Mesh) : Prop :=
  (∀ c ∈ m.pComps, ∀ i ∈ c.tets, (m.tetAt i).isSome = true)
  ∧ (∀ p ∈ m.pPatches, ∀ i ∈ p.tris, (m.triAt i).isSome = true)
  ∧ (∀ t ∈ m.pTets, t.isSome = true)

/-! ## A concrete mesh for the witnesses

One compartment of volume 2 made of two tets of volume 1, each holding five
molecules of the only species and one decay reaction; one patch made of one
triangle on tet 0 with three molecules and one surface reaction. Global index
0 is the only species, reaction and surface reaction defined; nothing else is
mapped. -/

/-- The global-to-local map that knows only index 0. -/
def demoG2L (gidx : Nat) : Nat := if gidx = 0 then 0 else LIDX_UNDEFINED

/-- The compartment definition of the demo: volume 2. -/
def demoCompdef : Compdef :=
  { vol := 2, specG2L := demoG2L, reacG2L := demoG2L, diffG2L := fun _ => LIDX_UNDEFINED }

/-- The patch definition of the demo: area 1. -/
def demoPatchdef : Patchdef := { area := 1, specG2L := demoG2L, sreacG2L := demoG2L }

/-- The demo mesh. -/
def demoMesh : Mesh :=
  { pComps := [{ cdef := demoCompdef, tets := [0, 1], pools := [10] }]
    pPatches := [{ pdef := demoPatchdef, tris := [0], pools := [3] }]
    pTets :=
      [some { compdef := demoCompdef, vol := 1, pools := [5], flags := [false],
              nextTet := [some 1, none, none, none], nextTri := [some 0, none, none, none],
              reacs := [⟨0, false, 0⟩], diffs := [] },
       some { compdef := demoCompdef, vol := 1, pools := [5], flags := [false],
              nextTet := [some 0, none, none, none], nextTri := [none, none, none, none],
              reacs := [⟨1, false, 0⟩], diffs := [] }]
    pTris :=
      [some { patchdef := demoPatchdef, area := 1, pools := [3], flags := [false],
              iTet := some 0, oTet := none, sreacs := [⟨2, false, 0⟩] }] }

/-- The decay reaction of tet `i`: its rate is the count of species 0 in the
tet (zero when inactive); firing removes one molecule and counts one
extent. -/
def tetDecay (i : Nat) : KProc Mesh :=
  { schedIDX := i
    rate := fun m =>
      match m.tetAt i with
      | some t => if ((t.reacs.getD 0 ⟨0, true, 0⟩).inactive) then 0 else (t.pools.getD 0 0 : ℚ)
      | none => 0
    apply := fun m r =>
      match m.tetAt i with
      | some t =>
        ((m.setTet i { t with
            pools := t.pools.set 0 (t.pools.getD 0 0 - 1)
            reacs := t.reacs.map fun k => { k with extent := k.extent + 1 } }, r), [i])
      | none => ((m, r), [i])
    updVecSize := 1 }

/-- The surface reaction of tri 0: its rate is the count of species 0 on the
tri. -/
def triDecay : KProc Mesh :=
  { schedIDX := 2
    rate := fun m =>
      match m.triAt 0 with
      | some t => if ((t.sreacs.getD 0 ⟨0, true, 0⟩).inactive) then 0 else (t.pools.getD 0 0 : ℚ)
      | none => 0
    apply := fun m r =>
      match m.triAt 0 with
      | some t =>
        ((m.setTri 0 { t with
            pools := t.pools.set 0 (t.pools.getD 0 0 - 1)
            sreacs := t.sreacs.map fun k => { k with extent := k.extent + 1 } }, r), [2])
      | none => ((m, r), [2])
    updVecSize := 1 }

/-- The engine over the demo mesh, built and reset. -/
def meshEngine : Tetexact Mesh :=
  _reset (setupEngine demoMesh demoRNG [tetDecay 0, tetDecay 1, triDecay])

/-- The demo engine with a generator whose every uniform is `1/4`. -/
def meshEngineQuarter : Tetexact Mesh :=
  { meshEngine with rng := { pos := 0, unf := fun _ => 1 / 4, expo := fun _ a => 1 / a } }

/-! ## The size assertion of `_update` and the destructor -/

/-- The assertion `assert(entries.size() <= pMaxUpSize)` of `_update`. -/
def updateAssert (s : Tetexact W) (entries : List Nat) : Bool :=
  decide (entries.length ≤ s.pMaxUpSize)

/-- The positions of a vector that a loop `for (it = first; it != last; ++it)`
visits, for iterators standing at positions `first` and `last`. -/
def iterRange (first last : Nat) : List Nat := List.range' first (last - first)

/-- The positions of `pComps`, `pPatches`, `pTets` and `pTris` on whose
element the destructor calls `delete`, in the order of the calls. -/
structure Deleted where
  comps : List Nat
  patches : List Nat
  tets : List Nat
  tris : List Nat
  deriving DecidableEq

/-- Destructor `Tetexact::~Tetexact`: its four loops over the object vectors.
The loops over `pComps`, `pPatches` and `pTets` start at `begin()`, the loop
over `pTris` starts at `pTris.end()`; all run until `end()`. -/
def destructor (s : Tetexact Mesh) : Deleted :=
  { comps := iterRange 0 s.world.pComps.length
    patches := iterRange 0 s.world.pPatches.length
    tets := iterRange 0 s.world.pTets.length
    tris := iterRange s.world.pTris.length s.world.pTris.length }

/-! ## `_update` with a log of its accesses to the scratch buffer

The same loops as `_update`, with a log of every slot the loops recompute, of
every position of `pIndices` they read or write, and of the part of the
scratch buffer in use after each level. -/

/-- The log of one call of `_update`: the slots recomputed, as pairs
`(level, slot)` in the order of the writes; for each level processed the
indices `pIndices[0 .. nentries)` kept for the next level; and the positions
`i` of every read and of every write of `pIndices[i]`. -/
structure UpdLog where
  slots : List (Nat × Nat)
  scratch : List (List Nat)
  reads : List Nat
  writes : List Nat

/-- The slots of level `l` that the log records, in the order of the writes. -/
def UpdLog.slotsAt (log : UpdLog) (l : Nat) : List Nat :=
  (log.slots.filter fun p => decide (p.1 = l)).map fun p => p.2

/-- The positions of `pIndices` that the "store and collapse if possible" step
reads (`pIndices[prev_e]`) and writes (`pIndices[cur_e]`). -/
def storeCollapseAccess (idx : Nat) (st : List Nat × Nat × Nat) : List Nat × List Nat :=
  let pIndices := st.1
  let prev_e := st.2.1
  let cur_e := st.2.2
  if prev_e = NOPREV then ([], [cur_e])
  else if pIndices.getD prev_e 0 ≠ idx then ([prev_e], [cur_e])
  else ([prev_e], [])

/-- First loop of `_update`, logged. -/
def updateRatesLog (s : Tetexact W) :
    List Nat → (List ℚ × List Nat × Nat × Nat) × UpdLog →
      (List ℚ × List Nat × Nat × Nat) × UpdLog
  | [], acc => acc
  | idx :: rest, (st, log) =>
    let a := storeCollapseAccess (idx / SCHEDULEWIDTH) st.2
    updateRatesLog s rest
      ((st.1.set idx (rateAt s idx), storeCollapse (idx / SCHEDULEWIDTH) st.2),
        { log with
          slots := log.slots ++ [(0, idx)]
          reads := log.reads ++ a.1
          writes := log.writes ++ a.2 })

/-- The entry loop of `_update` on upper level `l`, logged; the list argument
holds the values of `e` still to run. -/
def updateLevelLog (l : Nat) (prevlevel : List ℚ) :
    List Nat → (List ℚ × List Nat × Nat × Nat) × UpdLog →
      (List ℚ × List Nat × Nat × Nat) × UpdLog
  | [], acc => acc
  | e :: rest, (st, log) =>
    let idx := st.2.1.getD e 0
    let r := sumChildren prevlevel (idx * SCHEDULEWIDTH)
    let a := storeCollapseAccess (idx / SCHEDULEWIDTH) st.2
    updateLevelLog l prevlevel rest
      ((st.1.set idx r.1, storeCollapse (idx / SCHEDULEWIDTH) st.2),
        { log with
          slots := log.slots ++ [(l, idx)]
          reads := log.reads ++ e :: a.1
          writes := log.writes ++ a.2 })

/-- The level loop of `_update`, logged. -/
def updateUpLog : Nat → Nat → (List (List ℚ) × List Nat × Nat) × UpdLog →
    (List (List ℚ) × List Nat × Nat) × UpdLog
  | 0, _, acc => acc
  | n + 1, l, ((pLevels, pIndices, nentries), log) =>
    let r := updateLevelLog l (pLevels.getD (l - 1) []) (List.range nentries)
      ((pLevels.getD l [], pIndices, NOPREV, 0), log)
    updateUpLog n (l + 1)
      ((pLevels.set l r.1.1, r.1.2.1, r.1.2.2.2),
        { r.2 with scratch := r.2.scratch ++ [r.1.2.1.take r.1.2.2.2] })

/-- Method `Tetexact::_update`, logged. -/
def _updateLog (s : Tetexact W) (entries : List Nat) : Tetexact W × UpdLog :=
  if countKProcs s = 0 then (s, ⟨[], [], [], []⟩) else
  let r0 := updateRatesLog s entries
    ((s.pLevels.getD 0 [], s.pIndices, NOPREV, 0), ⟨[], [], [], []⟩)
  let up := updateUpLog (s.pLevels.length - 1) 1
    ((s.pLevels.set 0 r0.1.1, r0.1.2.1, r0.1.2.2.2),
      { r0.2 with scratch := [r0.1.2.1.take r0.1.2.2.2] })
  ({ s with
      pLevels := up.1.1
      pIndices := up.1.2.1.take s.pIndices.length
      pA0 := sumTop (up.1.1.getD (up.1.1.length - 1) []) }, up.2)

/-- State of the level loop of the logged `_update` before level `L`, for the
vector `entries`: the log holds one kept list for each level below `L`, the
last of which is the part of the scratch buffer in use; no kept list is longer
than `entries` and every position of `pIndices` read or written is below its
length; on level 0 the slots recomputed are the entries, and on each upper
level below `L` the list kept after the level before. -/
structure LogInv (entries : List Nat) (L : Nat) (st : List (List ℚ) × List Nat × Nat)
    (log : UpdLog) : Prop where
  count : log.scratch.length = L
  last : log.scratch.getD (L - 1) [] = st.2.1.take st.2.2
  fits : st.2.2 ≤ st.2.1.length
  short : ∀ sc ∈ log.scratch, sc.length ≤ entries.length
  reads : ∀ p ∈ log.reads, p < entries.length
  writes : ∀ p ∈ log.writes, p < entries.length
  leaf : log.slotsAt 0 = entries
  upper : ∀ l, 1 ≤ l → l < L → log.slotsAt l = log.scratch.getD (l - 1) []
  below : ∀ p ∈ log.slots, p.1 < L

/-! ## A tet with seventeen independent reactions

One compartment made of one tet that holds seventeen species, five molecules
of each, and for every species a decay reaction whose rate is the count of
that species only. Reaction `j` has `schedIDX` `j`; firing it changes the
rate of no other reaction, so its update vector is `[j]` and `updVecSize()` is
1 for every KProc. -/

/-- The global-to-local map of the seventeen species and reactions. -/
def wideG2L (gidx : Nat) : Nat := if gidx < 17 then gidx else LIDX_UNDEFINED

/-- The compartment definition of the seventeen-species demo. -/
def wideCompdef : Compdef :=
  { vol := 1, specG2L := wideG2L, reacG2L := wideG2L, diffG2L := fun _ => LIDX_UNDEFINED }

/-- The seventeen-species mesh. -/
def wideMesh : Mesh :=
  { pComps := [{ cdef := wideCompdef, tets := [0], pools := List.replicate 17 85 }]
    pPatches := []
    pTets :=
      [some { compdef := wideCompdef, vol := 1, pools := List.replicate 17 5,
              flags := List.replicate 17 false,
              nextTet := [none, none, none, none], nextTri := [none, none, none, none],
              reacs := (List.range 17).map fun j => ⟨j, false, 0⟩, diffs := [] }]
    pTris := [] }

/-- The decay of species `j` in tet 0. -/
def speciesDecay (j : Nat) : KProc Mesh :=
  { schedIDX := j
    rate := fun m =>
      match m.tetAt 0 with
      | some t => if ((t.reacs.getD j ⟨0, true, 0⟩).inactive) then 0 else (t.pools.getD j 0 : ℚ)
      | none => 0
    apply := fun m r =>
      match m.tetAt 0 with
      | some t =>
        ((m.setTet 0 { t with
            pools := t.pools.set j (t.pools.getD j 0 - 1)
            reacs := t.reacs.set j
              { (t.reacs.getD j ⟨0, true, 0⟩) with
                extent := (t.reacs.getD j ⟨0, true, 0⟩).extent + 1 } }, r), [j])
      | none => ((m, r), [j])
    updVecSize := 1 }

/-- The engine over the seventeen-species mesh, built and reset. -/
def wideEngine : Tetexact Mesh :=
  _reset (setupEngine wideMesh demoRNG ((List.range 17).map speciesDecay))

/-! ## A compartment with two unequal tets

One compartment of two tets with one species and the reaction `2 A -> 0`
with rate constant 1: tet 0 has volume 1 and two molecules, tet 1 has
volume 2 and three molecules. In each tet `h = n (n - 1) / 2`, `c = 1 / V`
and the rate is `h * c`. The reaction of tet `i` has `schedIDX` `i`. -/

/-- The demo mesh with a second compartment that has no tet. -/
def emptyCompEngine : Tetexact Mesh :=
  { meshEngine with
    world := { demoMesh with
      pComps := demoMesh.pComps ++ [{ cdef := demoCompdef, tets := [], pools := [0] }] } }

/-! ## The constructor: connecting tets and tris, `_setup`

The second half of `Tetexact::Tetexact`: the loop that connects neighbouring
tets, the loop that attaches the patch triangles to their inner and outer
tets, and `_setup`. The indices `pTets[t]->tet(i)` and `pTris[t]->tet(i)` that
the elements were constructed with are the parameters `tetNbr t i` and
`triTet t i` (negative when there is none). -/

/-- The pointer `pTets[j]` as a link: `none` when the entry is null. -/
def Mesh.tetPtr (m : Mesh) (j : Nat) : Option Nat :=
  if (m.tetAt j).isSome then some j else none

/-- Modelled from the spec: `Tet::setNextTet`, store the neighbouring tet of
face `i`. -/
def Tet.setNextTet (t : Tet) (i : Nat) (p : Option Nat) : Tet :=
  { t with nextTet := t.nextTet.set i p }

/-- The four statements `if (tetI >= 0) pTets[t]->setNextTet(I, pTets[tetI])`
of the neighbour loop for tet `t`. -/
def connectTet (tetNbr : Nat → Nat → Int) (m : Mesh) (t : Nat) (tet : Tet) : Tet :=
  (List.range 4).foldl
    (fun tt i => if tetNbr t i ≥ 0 then tt.setNextTet i (m.tetPtr (tetNbr t i).toNat) else tt)
    tet

/-- The loop `for (t = 0; t < ntets; ++t)` of the constructor that connects
neighbouring tets; a null entry of `pTets` is skipped. -/
def connectTets (tetNbr : Nat → Nat → Int) : List Nat → Mesh → Mesh
  | [], m => m
  | t :: rest, m =>
    match m.tetAt t with
    | none => connectTets tetNbr rest m
    | some tet => connectTets tetNbr rest (m.setTet t (connectTet tetNbr m t tet))

/-- A loop of `_setup` over `pTets`: every entry is dereferenced. The call
made through the entry is the parameter `f`. -/
def setupTets (f : Nat → Tetexact Mesh → Tetexact Mesh) :
    List Nat → Tetexact Mesh → Option (Tetexact Mesh)
  | [], s => some s
  | t :: rest, s =>
    match s.world.tetAt t with
    | none => none
    | some _ => setupTets f rest (f t s)

/-- A loop of `_setup` over `pTris`: null entries are skipped. -/
def setupTris (f : Nat → Tetexact Mesh → Tetexact Mesh) :
    List Nat → Tetexact Mesh → Tetexact Mesh
  | [], s => s
  | t :: rest, s =>
    match s.world.triAt t with
    | none => setupTris f rest s
    | some _ => setupTris f rest (f t s)

/-- Method `Tetexact::_setup`. The calls `setupKProcs(this)` on a tet and on
a tri and the loops over `setupDeps()` of the KProcs of a tet and of a tri are
the parameters. -/
def _setup (tetKProcs triKProcs tetDeps triDeps : Nat → Tetexact Mesh → Tetexact Mesh)
    (s : Tetexact Mesh) : Option (Tetexact Mesh) :=
  match setupTets tetKProcs (List.range s.world.pTets.length) s with
  | none => none
  | some s1 =>
    let s2 := setupTris triKProcs (List.range s1.world.pTris.length) s1
    match setupTets tetDeps (List.range s2.world.pTets.length) s2 with
    | none => none
    | some s3 => some (_build (setupTris triDeps (List.range s3.world.pTris.length) s3))

/-! ## Specification vocabulary for the constructor -/

/-- A mesh with a tet slot that was never filled: tet 0 belongs to no
compartment, tet 1 is the only tet of the compartment. -/
def holeMesh : Mesh :=
  { pComps := [{ cdef := demoCompdef, tets := [1], pools := [5] }]
    pPatches := []
    pTets :=
      [none,
       some { compdef := demoCompdef, vol := 1, pools := [5], flags := [false],
              nextTet := [none, none, none, none], nextTri := [none, none, none, none],
              reacs := [⟨0, false, 0⟩], diffs := [] }]
    pTris := [] }

/-- The engine over the mesh with the empty tet slot, as the constructor holds
it before `_setup`. -/
def holeEngine : Tetexact Mesh := Tetexact.init holeMesh demoRNG

/-- The demo engine with an empty slot appended to `pTris`. -/
def nullTriEngine : Tetexact Mesh :=
  { meshEngine with world := { demoMesh with pTris := demoMesh.pTris ++ [none] } }

theorem getD_set_eq {α : Type} (l : List α) (i j : Nat) (v d : α) :
    (l.set i v).getD j d = if i = j ∧ i < l.length then v else l.getD j d := by
  simp only [List.getD_eq_getElem?_getD, List.getElem?_set]
  by_cases h : i = j
  · subst h
    by_cases h2 : i < l.length
    · simp [h2]
    · simp [h2, List.getElem?_eq_none (Nat.le_of_not_lt h2)]
  · simp [h]

theorem sumChildren_fold (level : List ℚ) (c n : Nat) :
    (List.range n).foldl (fun (st : ℚ × Nat) _ => (st.1 + level.getD st.2 0, st.2 + 1)) (0, c)
      = (∑ j in Finset.range n, level.getD (c + j) 0, c + n) := by
  induction n with
  | zero => simp
  | succ n ih =>
    rw [List.range_succ, List.foldl_append, ih]
    simp [Finset.sum_range_succ]
    omega

theorem sumChildren_eq (level : List ℚ) (c : Nat) :
    sumChildren level c
      = (∑ j in Finset.range SCHEDULEWIDTH, level.getD (c + j) 0, c + SCHEDULEWIDTH) :=
  sumChildren_fold level c SCHEDULEWIDTH

theorem sumTop_fold (level : List ℚ) (n : Nat) :
    (List.range n).foldl (fun a i => a + level.getD i 0) 0
      = ∑ j in Finset.range n, level.getD j 0 := by
  induction n with
  | zero => simp
  | succ n ih =>
    rw [List.range_succ, List.foldl_append, ih]
    simp [Finset.sum_range_succ]

theorem sumTop_eq (level : List ℚ) :
    sumTop level = ∑ j in Finset.range SCHEDULEWIDTH, level.getD j 0 :=
  sumTop_fold level SCHEDULEWIDTH

theorem fillRates_length (w : W) (kps : List (KProc W)) (cur : Nat) (level : List ℚ) :
    (fillRates w kps cur level).length = level.length := by
  induction kps generalizing cur level with
  | nil => rfl
  | cons kp rest ih => simp [fillRates, ih]

theorem fillRates_getD_lt (w : W) (kps : List (KProc W)) (cur : Nat) (level : List ℚ)
    (i : Nat) (h : i < cur) : (fillRates w kps cur level).getD i 0 = level.getD i 0 := by
  induction kps generalizing cur level with
  | nil => rfl
  | cons kp rest ih =>
    simp only [fillRates]
    rw [ih (cur + 1) _ (by omega), getD_set_eq]
    simp; omega

theorem fillRates_getD_ge (w : W) (kps : List (KProc W)) (cur : Nat) (level : List ℚ)
    (i : Nat) (h : cur + kps.length ≤ i) :
    (fillRates w kps cur level).getD i 0 = level.getD i 0 := by
  induction kps generalizing cur level with
  | nil => rfl
  | cons kp rest ih =>
    simp only [fillRates]
    simp only [List.length_cons] at h
    rw [ih (cur + 1) _ (by omega), getD_set_eq]
    simp; omega

theorem fillRates_getD_mid (w : W) (kps : List (KProc W)) (cur : Nat) (level : List ℚ)
    (j : Nat) (kp : KProc W) (hk : kps[j]? = some kp) (hl : cur + j < level.length) :
    (fillRates w kps cur level).getD (cur + j) 0 = kp.rate w := by
  induction kps generalizing cur level j with
  | nil => simp at hk
  | cons k rest ih =>
    simp only [fillRates]
    cases j with
    | zero =>
      simp at hk
      subst hk
      rw [fillRates_getD_lt w rest (cur + 1) _ _ (by omega), getD_set_eq]
      simp; omega
    | succ j =>
      simp at hk
      have := ih (cur + 1) (level.set cur (k.rate w)) j hk (by simp; omega)
      rw [← this]
      congr 1
      omega

theorem resetLevel_fold (oldlevel level : List ℚ) (n : Nat) :
    ∃ lv, (List.range n).foldl
      (fun (st : List ℚ × Nat) cur_node =>
        let r := sumChildren oldlevel st.2
        (st.1.set cur_node r.1, r.2)) (level, 0) = (lv, SCHEDULEWIDTH * n)
      ∧ lv.length = level.length
      ∧ ∀ i, lv.getD i 0 = if i < n ∧ i < level.length
          then ∑ j in Finset.range SCHEDULEWIDTH, oldlevel.getD (SCHEDULEWIDTH * i + j) 0
          else level.getD i 0 := by
  induction n with
  | zero => exact ⟨level, by simp⟩
  | succ n ih =>
    obtain ⟨lv, h1, h2, h3⟩ := ih
    refine ⟨lv.set n (sumChildren oldlevel (SCHEDULEWIDTH * n)).1, ?_, ?_, ?_⟩
    · rw [List.range_succ, List.foldl_append, h1]
      simp [sumChildren_eq, Nat.mul_succ]
    · simp [h2]
    · intro i
      rw [getD_set_eq, h3, sumChildren_eq, h2]
      by_cases hi : n = i
      · subst hi
        by_cases hl : n < level.length
        · simp [hl]
        · simp [hl]
      · have : (i < n + 1 ∧ i < level.length) ↔ (i < n ∧ i < level.length) := by omega
        simp only [hi, false_and, if_false, this]

theorem resetLevel_length (oldlevel level : List ℚ) (n : Nat) :
    (resetLevel oldlevel level n).length = level.length := by
  obtain ⟨lv, h1, h2, _⟩ := resetLevel_fold oldlevel level n
  simp only [resetLevel, h1, h2]

theorem resetLevel_getD (oldlevel level : List ℚ) (n i : Nat) :
    (resetLevel oldlevel level n).getD i 0 = if i < n ∧ i < level.length
      then ∑ j in Finset.range SCHEDULEWIDTH, oldlevel.getD (SCHEDULEWIDTH * i + j) 0
      else level.getD i 0 := by
  obtain ⟨lv, h1, _, h3⟩ := resetLevel_fold oldlevel level n
  simp only [resetLevel, h1, h3]

theorem resetUp_spec (sizes : List Nat) (n c : Nat) (P : List (List ℚ))
    (hc : 1 ≤ c) (hn : c + n = P.length) :
    ∃ P1, resetUp sizes n c (P, c - 1) = (P1, c + n - 1)
      ∧ P1.length = P.length
      ∧ (∀ l, l < c → P1.getD l [] = P.getD l [])
      ∧ (∀ l, c ≤ l → l < c + n →
          P1.getD l [] = resetLevel (P1.getD (l - 1) []) (P.getD l [])
            (sizes.getD (l - 1) 0 / SCHEDULEWIDTH)) := by
  induction n generalizing c P with
  | zero => exact ⟨P, by simp [resetUp], rfl, fun _ _ => rfl, fun l h1 h2 => by omega⟩
  | succ n ih =>
    simp only [resetUp]
    obtain ⟨P1, h1, h2, h3, h4⟩ := ih (c + 1)
      (P.set c (resetLevel (P.getD (c - 1) []) (P.getD c []) (sizes.getD (c - 1) 0 / SCHEDULEWIDTH)))
      (by omega) (by simp; omega)
    have hc1 : P1.getD (c - 1) [] = P.getD (c - 1) [] := by
      rw [h3 (c - 1) (by omega), getD_set_eq]
      simp; omega
    refine ⟨P1, ?_, ?_, ?_, ?_⟩
    · simp only [Nat.add_sub_cancel] at h1
      rw [h1]
      congr 1
      omega
    · simpa using h2
    · intro l hl
      rw [h3 l (by omega), getD_set_eq]
      simp; omega
    · intro l hl1 hl2
      by_cases hlc : l = c
      · subst hlc
        rw [hc1, h3 l (by omega), getD_set_eq]
        simp; omega
      · rw [h4 l (by omega) (by omega), getD_set_eq]
        simp [Ne.symm hlc]

theorem reset_eq (s : Tetexact W) (hk : s.pKProcs.length ≠ 0) (hl : 1 ≤ s.pLevels.length) :
    ∃ P1, _reset s = { s with pLevels := P1, pA0 := sumTop (P1.getD (s.pLevels.length - 1) []) }
      ∧ P1.length = s.pLevels.length
      ∧ P1.getD 0 [] = fillRates s.world s.pKProcs 0 (s.pLevels.getD 0 [])
      ∧ ∀ l, 1 ≤ l → l < s.pLevels.length →
          P1.getD l [] = resetLevel (P1.getD (l - 1) []) (s.pLevels.getD l [])
            (s.pLevelSizes.getD (l - 1) 0 / SCHEDULEWIDTH) := by
  obtain ⟨P1, h1, h2, h3, h4⟩ := resetUp_spec s.pLevelSizes (s.pLevels.length - 1) 1
    (s.pLevels.set 0 (fillRates s.world s.pKProcs 0 (s.pLevels.getD 0 []))) (le_refl 1)
    (by rw [List.length_set]; omega)
  refine ⟨P1, ?_, ?_, ?_, ?_⟩
  · simp only [_reset, hk, if_false]
    simp only [Nat.sub_self] at h1
    rw [h1]
    simp only
    congr 3
    omega
  · simpa using h2
  · rw [h3 0 (by omega), getD_set_eq, if_pos ⟨rfl, hl⟩]
  · intro l hl1 hl2
    rw [h4 l hl1 (by omega), getD_set_eq]
    have : ¬ (0 = l) := by omega
    simp [this]

theorem getD_ge_zero (lv : List ℚ) (i : Nat) (h : lv.length ≤ i) : lv.getD i 0 = 0 := by
  simp [List.getD_eq_getElem?_getD, List.getElem?_eq_none h]

theorem getD_ge_nil (P : List (List ℚ)) (l : Nat) (h : P.length ≤ l) : P.getD l [] = [] := by
  simp [List.getD_eq_getElem?_getD, List.getElem?_eq_none h]

theorem getD_map_length (P : List (List ℚ)) (l : Nat) :
    (P.map List.length).getD l 0 = (P.getD l []).length := by
  simp only [List.getD_eq_getElem?_getD, List.getElem?_map]
  cases P[l]? <;> simp

/-- What `_reset` does to a built engine. -/
theorem reset_props (s : Tetexact W) (h : Built s) :
    (∃ P1 a, _reset s = { s with pLevels := P1, pA0 := a })
    ∧ (_reset s).pLevels.length = s.pLevels.length
    ∧ (∀ l, levelSize (_reset s) l = levelSize s l)
    ∧ (∀ (i : Nat) (kp : KProc W), s.pKProcs[i]? = some kp →
        slot (_reset s) 0 i = kp.rate s.world)
    ∧ (∀ i, s.pKProcs.length ≤ i → slot (_reset s) 0 i = 0)
    ∧ (∀ l i, levelSize s l ≤ SCHEDULEWIDTH * i → slot (_reset s) (l + 1) i = 0)
    ∧ SumsMatch (_reset s) ∧ TopMatch (_reset s) := by
  obtain ⟨P1, heq, hlen, h0, hup⟩ := reset_eq s (by have := h.nkp; omega) h.nlev
  have hslot : ∀ l i, slot (_reset s) l i = (P1.getD l []).getD i 0 := by
    intro l i; simp [slot, heq]
  have hsize : ∀ l, levelSize (_reset s) l = levelSize s l := by
    intro l
    simp only [levelSize, heq]
    by_cases hl : l < s.pLevels.length
    · by_cases hl0 : l = 0
      · subst hl0; rw [h0, fillRates_length]
      · rw [hup l (by omega) hl, resetLevel_length]
    · rw [getD_ge_nil P1 l (by omega), getD_ge_nil s.pLevels l (by omega)]
  have hnum : ∀ l, s.pLevelSizes.getD l 0 = levelSize s l := by
    intro l; rw [h.sizes, getD_map_length]; rfl
  have hstep : ∀ l, 1 ≤ l → l < s.pLevels.length → ∀ i,
      slot (_reset s) l i = if i < levelSize s (l - 1) / SCHEDULEWIDTH ∧ i < levelSize s l
        then ∑ j in Finset.range SCHEDULEWIDTH, slot (_reset s) (l - 1) (SCHEDULEWIDTH * i + j)
        else slot s l i := by
    intro l hl1 hl2 i
    rw [hslot, hup l hl1 hl2, resetLevel_getD, hnum]
    simp only [hslot]
    rfl
  have hpad : ∀ l i, levelSize s l ≤ SCHEDULEWIDTH * i → slot (_reset s) (l + 1) i = 0 := by
    intro l i hi
    by_cases hl : l + 1 < s.pLevels.length
    · rw [hstep (l + 1) (by omega) hl, if_neg, h.pad l i hi]
      simp only [Nat.add_sub_cancel]
      intro hc
      have := Nat.div_mul_le_self (levelSize s l) SCHEDULEWIDTH
      have := (Nat.div_lt_iff_lt_mul (by decide : 0 < SCHEDULEWIDTH)).mp
        (lt_of_le_of_lt (Nat.div_le_div_right hi) (by simpa using hc.1))
      omega
    · rw [hslot, getD_ge_nil P1 _ (by omega)]; rfl
  refine ⟨⟨P1, _, heq⟩, by simp [heq, hlen], hsize, ?_, ?_, hpad, ?_, ?_⟩
  · intro i kp hk
    rw [hslot, h0]
    have hi : i < s.pKProcs.length := by
      by_contra hc
      rw [List.getElem?_eq_none (by omega)] at hk
      cases hk
    have := fillRates_getD_mid s.world s.pKProcs 0 (s.pLevels.getD 0 []) i kp hk
      (by have := h.leaves; simp only [levelSize] at this; omega)
    simpa using this
  · intro i hi
    rw [hslot, h0, fillRates_getD_ge _ _ _ _ _ (by omega)]
    exact h.pad0 i hi
  · intro l hl1 hl2 i
    have hl2 : l < s.pLevels.length := by simpa [heq, hlen] using hl2
    rw [hstep l hl1 hl2]
    split
    · rfl
    · rename_i hc
      have hle : levelSize s (l - 1) ≤ SCHEDULEWIDTH * i := by
        have hm := h.mult (l - 1) (by omega)
        have hu := h.up (l - 1) (by omega)
        rw [Nat.sub_add_cancel hl1] at hu
        obtain ⟨k, hk⟩ := hm
        rw [hk] at hc hu ⊢
        simp only [Nat.mul_div_cancel_left k (by decide : 0 < SCHEDULEWIDTH)] at hc
        simp only [SCHEDULEWIDTH] at *
        by_cases h1 : i < k
        · have := Nat.le_of_not_lt (fun h2 => hc ⟨h1, h2⟩)
          omega
        · omega
      have hz := h.pad (l - 1) i hle
      rw [Nat.sub_add_cancel hl1] at hz
      rw [hz]
      symm
      apply Finset.sum_eq_zero
      intro j _
      rw [hslot]
      apply getD_ge_zero
      have := hsize (l - 1)
      simp only [levelSize, heq] at this
      rw [this]
      simp only [levelSize, SCHEDULEWIDTH] at hle ⊢
      omega
  · simp only [TopMatch, slot, heq, hlen, sumTop_eq]

/-! ## `_build` and `addKProc` establish the built shape -/

theorem roundUpWidth_spec (c : Nat) (hb : c + 15 < UINTMOD) :
    SCHEDULEWIDTH ∣ roundUpWidth c ∧ c ≤ roundUpWidth c ∧ roundUpWidth c < c + SCHEDULEWIDTH := by
  simp only [roundUpWidth, SCHEDULEWIDTH, UINTMOD] at *
  split
  · rw [Nat.mod_eq_of_lt (by omega)]
    refine ⟨?_, by omega, by omega⟩
    apply Nat.dvd_of_mod_eq_zero
    omega
  · rename_i h
    simp only [ne_eq, not_not] at h
    exact ⟨Nat.dvd_of_mod_eq_zero h, le_refl _, by omega⟩

theorem buildLoop_spec (fuel : Nat) : ∀ (c : Nat), 1 ≤ c → c + 15 < UINTMOD → c ≤ fuel →
    ∀ (sizes : List Nat) (levels : List (List ℚ)),
    ∃ new : List Nat, 1 ≤ new.length
      ∧ buildLoop fuel c (sizes, levels)
          = (sizes ++ new, levels ++ new.map (fun n => List.replicate n (0 : ℚ)))
      ∧ (∀ k, k < new.length → SCHEDULEWIDTH ∣ new.getD k 0)
      ∧ c ≤ new.getD 0 0
      ∧ (∀ k, k + 1 < new.length → new.getD k 0 ≤ SCHEDULEWIDTH * new.getD (k + 1) 0)
      ∧ new.getD (new.length - 1) 0 = SCHEDULEWIDTH := by
  induction fuel with
  | zero => intro c h1 _ h2; omega
  | succ fuel ih =>
    intro c hc hb hf sizes levels
    obtain ⟨hd, hle, hlt⟩ := roundUpWidth_spec c hb
    simp only [buildLoop]
    split
    · rename_i h2
      have hc2 : roundUpWidth c / SCHEDULEWIDTH ≤ fuel := by
        simp only [SCHEDULEWIDTH] at *; omega
      obtain ⟨new, hn1, hn2, hn3, hn4, hn5, hn6⟩ := ih (roundUpWidth c / SCHEDULEWIDTH)
        (by omega) (by simp only [SCHEDULEWIDTH, UINTMOD] at *; omega) hc2
        (sizes ++ [roundUpWidth c]) (levels ++ [List.replicate (roundUpWidth c) 0])
      refine ⟨roundUpWidth c :: new, by simp, ?_, ?_, ?_, ?_, ?_⟩
      · rw [hn2]; simp
      · intro k hk
        cases k with
        | zero => simpa using hd
        | succ k => simpa using hn3 k (by simpa using hk)
      · simpa using hle
      · intro k hk
        cases k with
        | zero =>
          simp only [List.getD_cons_zero, zero_add, List.getD_cons_succ]
          obtain ⟨q, hq⟩ := hd
          rw [hq] at hn4 ⊢
          rw [Nat.mul_div_cancel_left q (by decide : 0 < SCHEDULEWIDTH)] at hn4
          exact Nat.mul_le_mul_left _ hn4
        | succ k => simpa using hn5 k (by simpa using hk)
      · have : (roundUpWidth c :: new).length - 1 = (new.length - 1) + 1 := by
          simp; omega
        rw [this]
        simpa using hn6
    · rename_i h2
      refine ⟨[roundUpWidth c], by simp, by simp, ?_, by simpa using hle, by simp, ?_⟩
      · intro k hk
        have : k = 0 := by simpa using hk
        subst this
        simpa using hd
      · obtain ⟨q, hq⟩ := hd
        rw [hq, Nat.mul_div_cancel_left q (by decide : 0 < SCHEDULEWIDTH)] at h2
        simp only [List.length_singleton, Nat.sub_self, List.getD_cons_zero]
        simp only [SCHEDULEWIDTH] at *
        omega

theorem addKProc_idx (s : Tetexact W) (kp : KProc W)
    (h : ∀ (i : Nat) (k : KProc W), s.pKProcs[i]? = some k → k.schedIDX = i) :
    ∀ (i : Nat) (k : KProc W), (addKProc s kp).pKProcs[i]? = some k → k.schedIDX = i := by
  intro i k hk
  simp only [addKProc, List.getElem?_append] at hk
  split at hk
  · exact h i k hk
  · rename_i hi
    have : i - s.pKProcs.length = 0 := by
      by_contra hc
      rw [List.getElem?_eq_none (by simp; omega)] at hk
      cases hk
    rw [this] at hk
    simp at hk
    subst hk
    simp; omega

theorem foldl_addKProc (kps : List (KProc W)) (s : Tetexact W)
    (h : ∀ (i : Nat) (k : KProc W), s.pKProcs[i]? = some k → k.schedIDX = i) :
    (∀ (i : Nat) (k : KProc W), (kps.foldl addKProc s).pKProcs[i]? = some k → k.schedIDX = i)
    ∧ (kps.foldl addKProc s).pKProcs.length = s.pKProcs.length + kps.length
    ∧ (kps.foldl addKProc s).pLevels = s.pLevels
    ∧ (kps.foldl addKProc s).pLevelSizes = s.pLevelSizes := by
  induction kps generalizing s with
  | nil => exact ⟨h, rfl, rfl, rfl⟩
  | cons kp rest ih =>
    obtain ⟨h1, h2, h3, h4⟩ := ih (addKProc s kp) (addKProc_idx s kp h)
    refine ⟨h1, ?_, h3, h4⟩
    rw [List.foldl_cons, h2]
    simp [addKProc]; omega

theorem build_built (s : Tetexact W) (hN : 1 ≤ s.pKProcs.length)
    (hb : s.pKProcs.length + 15 < UINTMOD)
    (hidx : ∀ (i : Nat) (k : KProc W), s.pKProcs[i]? = some k → k.schedIDX = i)
    (hL : s.pLevels = []) (hS : s.pLevelSizes = []) : Built (_build s) := by
  have hmod : s.pKProcs.length % UINTMOD = s.pKProcs.length :=
    Nat.mod_eq_of_lt (by omega)
  obtain ⟨new, hn1, hn2, hn3, hn4, hn5, hn6⟩ := buildLoop_spec s.pKProcs.length
    s.pKProcs.length hN hb (le_refl _) s.pLevelSizes s.pLevels
  have hne : s.pKProcs.length ≠ 0 := by omega
  rw [hL, hS] at hn2
  simp only [List.nil_append] at hn2
  have hP : (_build s).pLevels = new.map (fun n => List.replicate n (0 : ℚ)) := by
    simp only [_build, hmod, hne, if_false, hL, hS, hn2]
  have hZ : (_build s).pLevelSizes = new := by
    simp only [_build, hmod, hne, if_false, hL, hS, hn2]
  have hK : (_build s).pKProcs = s.pKProcs := by
    simp [_build, hmod, hne]
  have hsz : ∀ l, levelSize (_build s) l = new.getD l 0 := by
    intro l
    simp only [levelSize, hP, List.getD_eq_getElem?_getD, List.getElem?_map]
    cases new[l]? <;> simp
  have hslot : ∀ l i, slot (_build s) l i = 0 := by
    intro l i
    simp only [slot, hP, List.getD_eq_getElem?_getD, List.getElem?_map]
    cases new[l]? with
    | none => simp
    | some n =>
      simp only [Option.map_some', Option.getD_some]
      by_cases hi : i < n
      · simp [List.getElem?_replicate, hi]
      · simp [List.getElem?_replicate, hi]
  have hlen : (_build s).pLevels.length = new.length := by simp [hP]
  refine ⟨by rw [hK]; exact hN, by rw [hK]; exact hidx, by rw [hlen]; exact hn1, ?_, ?_, ?_, ?_,
    ?_, fun i _ => hslot 0 i, fun l i _ => hslot (l + 1) i, ?_⟩
  · rw [hZ, hP]; simp [Function.comp_def]
  · rw [hK, hsz]; exact hn4
  · intro l hl; rw [hsz]; exact hn3 l (by rw [hlen] at hl; exact hl)
  · intro l hl; rw [hsz, hsz]; exact hn5 l (by rw [hlen] at hl; exact hl)
  · rw [hsz, hlen]; exact hn6
  · simp only [_build, hmod, hne, if_false, hL, hS, hn2, List.length_replicate]

theorem setupEngine_built (w : W) (r : RNG) (kps : List (KProc W))
    (hN : 1 ≤ kps.length) (hb : kps.length + 15 < UINTMOD) :
    Built (setupEngine w r kps) := by
  obtain ⟨h1, h2, h3, h4⟩ := foldl_addKProc kps (Tetexact.init w r)
    (by intro i k hk; simp [Tetexact.init] at hk)
  have h2' : (kps.foldl addKProc (Tetexact.init w r)).pKProcs.length = kps.length := by
    rw [h2]; simp [Tetexact.init]
  exact build_built _ (by omega) (by omega) h1 (by rw [h3]; rfl) (by rw [h4]; rfl)

/-! ## `_reset` (claims C1 and C4) -/

theorem demoEngine_built : Built demoEngine :=
  setupEngine_built demoWorld demoRNG demoKProcs (by decide) (by decide)

/-- C1: after `_reset` on a built engine with at least one KProc, every KProc's
leaf `L[0][schedIDX]` holds its rate, the padding slots of `L[0]` are zero,
every slot of every level `l ≥ 1` is the sum of its 16 children in level
`l - 1`, and `A0` is the sum of the 16 slots of the top level. -/
theorem reset_tree_consistent (s : Tetexact W) (h : Built s) :
    (∀ (i : Nat) (kp : KProc W), (_reset s).pKProcs[i]? = some kp →
        slot (_reset s) 0 kp.schedIDX = kp.rate (_reset s).world)
    ∧ (∀ i, (_reset s).pKProcs.length ≤ i → i < levelSize (_reset s) 0 →
        slot (_reset s) 0 i = 0)
    ∧ (∀ l, 1 ≤ l → l < (_reset s).pLevels.length → ∀ i,
        slot (_reset s) l i
          = ∑ j in Finset.range 16, slot (_reset s) (l - 1) (16 * i + j))
    ∧ (_reset s).pA0
        = ∑ j in Finset.range 16, slot (_reset s) ((_reset s).pLevels.length - 1) j := by
  obtain ⟨⟨P1, a, heq⟩, _, _, hleaf, hpad0, _, hsum, htop⟩ := reset_props s h
  have hK : (_reset s).pKProcs = s.pKProcs := by rw [heq]
  have hW : (_reset s).world = s.world := by rw [heq]
  refine ⟨?_, ?_, hsum, htop⟩
  · intro i kp hk
    rw [hK] at hk
    rw [h.idx i kp hk, hW]
    exact hleaf i kp hk
  · intro i hi _
    rw [hK] at hi
    exact hpad0 i hi

theorem reset_tree_consistent_witness :
    Built demoEngine ∧ (_reset demoEngine).pA0
      = ∑ j in Finset.range 16, slot (_reset demoEngine) ((_reset demoEngine).pLevels.length - 1) j :=
  ⟨demoEngine_built, (reset_tree_consistent demoEngine demoEngine_built).2.2.2⟩

theorem reset_built (s : Tetexact W) (h : Built s) : Built (_reset s) := by
  obtain ⟨⟨P1, a, heq⟩, hlen, hsize, hleaf, hpad0, hpad, hsum, htop⟩ := reset_props s h
  have hK : (_reset s).pKProcs = s.pKProcs := by rw [heq]
  have hZ : (_reset s).pLevelSizes = s.pLevelSizes := by rw [heq]
  refine ⟨by rw [hK]; exact h.nkp, by rw [hK]; exact h.idx, by rw [hlen]; exact h.nlev, ?_,
    by rw [hK, hsize]; exact h.leaves, ?_, ?_, by rw [hlen, hsize]; exact h.top,
    by rw [hK]; exact hpad0, ?_, by rw [hlen, ← h.rannum, heq]⟩
  · rw [hZ, h.sizes]
    apply List.ext_getElem?
    intro l
    have h1 := getD_map_length s.pLevels l
    have h2 := getD_map_length (_reset s).pLevels l
    have h3 := hsize l
    simp only [levelSize] at h3
    rw [← h3, ← h2] at h1
    simp only [List.getD_eq_getElem?_getD] at h1
    by_cases hl : l < s.pLevels.length
    · have e1 : l < (s.pLevels.map List.length).length := by simpa using hl
      have e2 : l < ((_reset s).pLevels.map List.length).length := by simpa [hlen] using hl
      rw [List.getElem?_eq_getElem e1, List.getElem?_eq_getElem e2] at h1 ⊢
      simpa using h1
    · rw [List.getElem?_eq_none (by simpa using hl),
        List.getElem?_eq_none (by simpa [hlen] using hl)]
  · intro l hl; rw [hsize]; exact h.mult l (by rw [hlen] at hl; exact hl)
  · intro l hl; rw [hsize, hsize]; exact h.up l (by rw [hlen] at hl; exact hl)
  · intro l i hi; rw [hsize] at hi; exact hpad l i hi

theorem sum_range_mul_width (f : Nat → ℚ) (m : Nat) :
    ∑ k in Finset.range (SCHEDULEWIDTH * m), f k
      = ∑ i in Finset.range m, ∑ j in Finset.range SCHEDULEWIDTH, f (SCHEDULEWIDTH * i + j) := by
  induction m with
  | zero => simp
  | succ m ih =>
    rw [Nat.mul_succ, Finset.sum_range_add, ih,
      Finset.sum_range_succ
        (fun i => ∑ j in Finset.range SCHEDULEWIDTH, f (SCHEDULEWIDTH * i + j)) m]

theorem sum_range_trunc (f : Nat → ℚ) (n n' : Nat) (h : n ≤ n')
    (hz : ∀ k, n ≤ k → f k = 0) :
    ∑ k in Finset.range n', f k = ∑ k in Finset.range n, f k := by
  obtain ⟨d, rfl⟩ := Nat.exists_eq_add_of_le h
  rw [Finset.sum_range_add]
  have : ∑ x in Finset.range d, f (n + x) = 0 :=
    Finset.sum_eq_zero (fun x _ => hz (n + x) (by omega))
  rw [this, add_zero]

theorem slot_ge_zero (s : Tetexact W) (l i : Nat) (h : levelSize s l ≤ i) : slot s l i = 0 :=
  getD_ge_zero _ _ h

/-- In a built, consistent tree every level has the same total as the
leaves, and so has `A0`. -/
theorem level_total (s : Tetexact W) (h : Built s) (hc : SumsMatch s) :
    ∀ l, l < s.pLevels.length →
      ∑ i in Finset.range (levelSize s l), slot s l i
        = ∑ i in Finset.range s.pKProcs.length, slot s 0 i := by
  intro l
  induction l with
  | zero =>
    intro _
    exact sum_range_trunc _ _ _ h.leaves h.pad0
  | succ l ih =>
    intro hl
    rw [← ih (by omega)]
    have e1 : ∑ i in Finset.range (levelSize s (l + 1)), slot s (l + 1) i
        = ∑ i in Finset.range (levelSize s (l + 1)),
            ∑ j in Finset.range SCHEDULEWIDTH, slot s l (SCHEDULEWIDTH * i + j) := by
      apply Finset.sum_congr rfl
      intro i _
      have := hc (l + 1) (by omega) hl i
      simpa using this
    rw [e1, ← sum_range_mul_width (fun k => slot s l k)]
    exact sum_range_trunc _ _ _ (h.up l hl) (fun k hk => slot_ge_zero s l k hk)

theorem A0_eq_leaf_total (s : Tetexact W) (h : Built s) (hc : Consistent s) :
    s.pA0 = ∑ i in Finset.range s.pKProcs.length, slot s 0 i := by
  have := level_total s h hc.1 (s.pLevels.length - 1) (by have := h.nlev; omega)
  rw [h.top] at this
  rw [← this]
  exact hc.2

theorem sum_map_eq_sum_range {α : Type} (f : α → ℚ) (xs : List α) :
    (xs.map f).sum = ∑ i in Finset.range xs.length,
      (match xs[i]? with
       | some x => f x
       | none => 0) := by
  induction xs with
  | nil => simp
  | cons x rest ih =>
    rw [List.map_cons, List.sum_cons, List.length_cons, Finset.sum_range_succ', ih]
    simp [add_comm]

/-- C4: after `_reset` the global propensity `A0` read by `getA0` is the sum of
`rate()` over all registered KProcs, for every built engine (any number
`N ≥ 1` of KProcs, any number of levels). -/
theorem reset_A0_is_total_rate (s : Tetexact W) (h : Built s) :
    getA0 (_reset s) = (s.pKProcs.map (fun kp => kp.rate s.world)).sum := by
  obtain ⟨⟨P1, a, heq⟩, _, _, hleaf, _, _, hsum, htop⟩ := reset_props s h
  have hK : (_reset s).pKProcs = s.pKProcs := by rw [heq]
  have h1 := A0_eq_leaf_total (_reset s) (reset_built s h) ⟨hsum, htop⟩
  rw [getA0, h1, hK, sum_map_eq_sum_range]
  apply Finset.sum_congr rfl
  intro i hi
  have hi' : i < s.pKProcs.length := Finset.mem_range.mp hi
  rw [List.getElem?_eq_getElem hi']
  exact hleaf i _ (List.getElem?_eq_getElem hi')

theorem reset_A0_is_total_rate_witness :
    Built demoEngine ∧ getA0 (_reset demoEngine) = 16 :=
  ⟨demoEngine_built, by
    rw [reset_A0_is_total_rate demoEngine demoEngine_built]
    decide!⟩

/-! ## `_update` (claims C2 and C3) -/

theorem memStore_length (mem : List Nat) (i x : Nat) :
    (memStore mem i x).length = max mem.length (i + 1) := by
  unfold memStore
  split
  · rw [List.length_set]; omega
  · simp only [List.length_append, List.length_replicate, List.length_singleton]; omega

theorem memStore_getD (mem : List Nat) (i x j : Nat) :
    (memStore mem i x).getD j 0 = if j = i then x else mem.getD j 0 := by
  unfold memStore
  simp only [List.getD_eq_getElem?_getD]
  split
  · rename_i h
    by_cases hj : j = i
    · subst hj
      rw [List.getElem?_set_self h, if_pos rfl]; rfl
    · rw [List.getElem?_set_ne (fun e => hj e.symm), if_neg hj]
  · rename_i h
    by_cases hj : j = i
    · subst hj
      rw [if_pos rfl, List.getElem?_append_right (by simp; omega)]
      have e : j - (mem ++ List.replicate (j - mem.length) 0).length = 0 := by
        simp only [List.length_append, List.length_replicate]; omega
      rw [e]
      rfl
    · rw [if_neg hj]
      by_cases h1 : j < mem.length
      · rw [List.append_assoc, List.getElem?_append_left h1]
      · rw [List.getElem?_eq_none (l := mem) (by omega)]
        by_cases h2 : j < i
        · rw [List.getElem?_append_left (by simp; omega),
            List.getElem?_append_right (by omega), List.getElem?_replicate]
          split <;> rfl
        · rw [List.getElem?_eq_none (by simp; omega)]

theorem storeCollapse_inv (ind0 : List Nat) (e q : Nat) (st : List Nat × Nat × Nat)
    (ps : List Nat) (h : ScratchInv ind0 e st)
    (hs : ∀ p, Stored st.1 st.2.2 p ↔ p ∈ ps) :
    ScratchInv ind0 (e + 1) (storeCollapse q st)
    ∧ ∀ p, Stored (storeCollapse q st).1 (storeCollapse q st).2.2 p ↔ p ∈ ps ++ [q] := by
  obtain ⟨ind, pe, ce⟩ := st
  obtain ⟨h1, h2, h3, hf, h4⟩ := h
  simp only at h1 h2 h3 hf h4 hs
  have hstore : ∀ pe', (pe' = NOPREV ∨ pe' < ce + 1) →
      ScratchInv ind0 (e + 1) (memStore ind ce q, pe', ce + 1)
      ∧ ∀ p, Stored (memStore ind ce q) (ce + 1) p ↔ p ∈ ps ++ [q] := by
    intro pe' hpe'
    refine ⟨⟨by simp only; omega, hpe', by simp only [memStore_length]; omega,
      by simp only [memStore_length]; omega, ?_⟩, ?_⟩
    · intro j hj
      simp only
      rw [memStore_getD, if_neg (by omega)]
      exact h4 j (by omega)
    · intro p
      simp only [List.mem_append, List.mem_singleton, ← hs p, Stored]
      constructor
      · rintro ⟨j, hj, hjp⟩
        rw [memStore_getD] at hjp
        by_cases hjc : j = ce
        · rw [if_pos hjc] at hjp
          exact Or.inr hjp.symm
        · rw [if_neg hjc] at hjp
          exact Or.inl ⟨j, by omega, hjp⟩
      · rintro (⟨j, hj, hjp⟩ | hp)
        · exact ⟨j, by omega, by rw [memStore_getD, if_neg (by omega)]; exact hjp⟩
        · exact ⟨ce, by omega, by rw [memStore_getD, if_pos rfl]; exact hp.symm⟩
  simp only [storeCollapse]
  split
  · exact hstore 0 (Or.inr (by omega))
  · split
    · exact hstore ce (Or.inr (by omega))
    · rename_i hne heq
      simp only [ne_eq, not_not] at heq
      have hpe : pe < ce := by
        rcases h2 with h2 | h2
        · exact absurd h2 hne
        · exact h2
      refine ⟨⟨by simp only; omega, h2, h3, hf, fun j hj => h4 j (by omega)⟩, ?_⟩
      intro p
      simp only [List.mem_append, List.mem_singleton, ← hs p]
      constructor
      · intro hp; exact Or.inl hp
      · rintro (hp | hp)
        · exact hp
        · exact ⟨pe, hpe, by rw [hp]; exact heq⟩

theorem scratchInv_init (ind0 : List Nat) : ScratchInv ind0 0 (ind0, NOPREV, 0) :=
  ⟨le_refl _, Or.inl rfl, le_refl _, Nat.zero_le _, fun _ _ => rfl⟩

theorem stored_init (ind0 : List Nat) (p : Nat) : Stored ind0 0 p ↔ p ∈ ([] : List Nat) := by
  simp [Stored]

theorem updateRates_spec (s : Tetexact W) (entries : List Nat) (level0 : List ℚ)
    (ind0 : List Nat) :
    (updateRates s entries (level0, ind0, NOPREV, 0)).1.length = level0.length
    ∧ (∀ i, i ∈ entries → i < level0.length →
        (updateRates s entries (level0, ind0, NOPREV, 0)).1.getD i 0 = rateAt s i)
    ∧ (∀ i, i ∉ entries →
        (updateRates s entries (level0, ind0, NOPREV, 0)).1.getD i 0 = level0.getD i 0)
    ∧ ScratchInv ind0 entries.length (updateRates s entries (level0, ind0, NOPREV, 0)).2
    ∧ (∀ p, Stored (updateRates s entries (level0, ind0, NOPREV, 0)).2.1
          (updateRates s entries (level0, ind0, NOPREV, 0)).2.2.2 p
        ↔ p ∈ entries.map (fun idx => idx / SCHEDULEWIDTH)) := by
  induction entries using List.reverseRecOn with
  | nil =>
    exact ⟨rfl, fun i hi => by simp at hi, fun _ _ => rfl, scratchInv_init ind0,
      fun p => stored_init ind0 p⟩
  | append_singleton xs x ih =>
    obtain ⟨h1, h2, h3, h4, h5⟩ := ih
    have hstep : updateRates s (xs ++ [x]) (level0, ind0, NOPREV, 0)
        = (((updateRates s xs (level0, ind0, NOPREV, 0)).1.set x (rateAt s x)),
            storeCollapse (x / SCHEDULEWIDTH) (updateRates s xs (level0, ind0, NOPREV, 0)).2) := by
      simp only [updateRates, List.foldl_append, List.foldl_cons, List.foldl_nil]
    obtain ⟨k1, k2⟩ := storeCollapse_inv ind0 xs.length (x / SCHEDULEWIDTH) _ _ h4 h5
    rw [hstep]
    refine ⟨by simp [h1], ?_, ?_, by simpa using k1, ?_⟩
    · intro i hi hlt
      simp only
      rw [getD_set_eq]
      by_cases hx : x = i
      · subst hx
        rw [if_pos ⟨rfl, by omega⟩]
      · rw [if_neg (by simp [hx])]
        have : i ∈ xs := by
          rcases List.mem_append.mp hi with h | h
          · exact h
          · exact absurd (List.mem_singleton.mp h).symm hx
        exact h2 i this hlt
    · intro i hi
      simp only
      have hx : ¬ x = i := fun h => hi (by simp [h])
      rw [getD_set_eq, if_neg (by simp [hx])]
      exact h3 i (fun h => hi (List.mem_append_left _ h))
    · intro p
      rw [k2 p]
      simp

theorem updateLevel_succ (prev : List ℚ) (n : Nat) (st : List ℚ × List Nat × Nat × Nat) :
    updateLevel prev (n + 1) st
      = ((updateLevel prev n st).1.set ((updateLevel prev n st).2.1.getD n 0)
            (sumChildren prev ((updateLevel prev n st).2.1.getD n 0 * SCHEDULEWIDTH)).1,
          storeCollapse ((updateLevel prev n st).2.1.getD n 0 / SCHEDULEWIDTH)
            (updateLevel prev n st).2) := by
  simp only [updateLevel, List.range_succ, List.foldl_append, List.foldl_cons, List.foldl_nil]

theorem updateLevel_spec (prev curr : List ℚ) (ind0 : List Nat) (n : Nat) :
    (updateLevel prev n (curr, ind0, NOPREV, 0)).1.length = curr.length
    ∧ (∀ i, Stored ind0 n i → i < curr.length →
        (updateLevel prev n (curr, ind0, NOPREV, 0)).1.getD i 0
          = ∑ j in Finset.range SCHEDULEWIDTH, prev.getD (SCHEDULEWIDTH * i + j) 0)
    ∧ (∀ i, ¬ Stored ind0 n i →
        (updateLevel prev n (curr, ind0, NOPREV, 0)).1.getD i 0 = curr.getD i 0)
    ∧ ScratchInv ind0 n (updateLevel prev n (curr, ind0, NOPREV, 0)).2
    ∧ (∀ p, Stored (updateLevel prev n (curr, ind0, NOPREV, 0)).2.1
          (updateLevel prev n (curr, ind0, NOPREV, 0)).2.2.2 p
        ↔ p ∈ (List.range n).map (fun j => ind0.getD j 0 / SCHEDULEWIDTH)) := by
  induction n with
  | zero =>
    refine ⟨rfl, fun i hi => ?_, fun _ _ => rfl, scratchInv_init ind0, fun p => ?_⟩
    · obtain ⟨j, hj, _⟩ := hi; omega
    · simpa using stored_init ind0 p
  | succ n ih =>
    obtain ⟨h1, h2, h3, h4, h5⟩ := ih
    have hrd : (updateLevel prev n (curr, ind0, NOPREV, 0)).2.1.getD n 0 = ind0.getD n 0 :=
      h4.unread n (le_refl n)
    obtain ⟨k1, k2⟩ := storeCollapse_inv ind0 n (ind0.getD n 0 / SCHEDULEWIDTH) _ _ h4 h5
    rw [updateLevel_succ, hrd, sumChildren_eq]
    refine ⟨by simp [h1], ?_, ?_, k1, ?_⟩
    · intro i hi hlt
      simp only
      rw [getD_set_eq]
      by_cases hx : ind0.getD n 0 = i
      · rw [if_pos ⟨hx, by omega⟩, hx, Nat.mul_comm]
      · rw [if_neg (fun h => hx h.1)]
        obtain ⟨j, hj, hji⟩ := hi
        have : j ≠ n := fun h => hx (by rw [← h]; exact hji)
        exact h2 i ⟨j, by omega, hji⟩ hlt
    · intro i hi
      simp only
      have hx : ¬ ind0.getD n 0 = i := fun h => hi ⟨n, by omega, h⟩
      rw [getD_set_eq, if_neg (fun h => hx h.1)]
      exact h3 i (fun ⟨j, hj, hji⟩ => hi ⟨j, by omega, hji⟩)
    · intro p
      rw [k2 p, List.range_succ]
      simp

theorem rd_set (P : List (List ℚ)) (l k i : Nat) (lv : List ℚ) :
    rd (P.set l lv) k i = if l = k ∧ l < P.length then lv.getD i 0 else rd P k i := by
  simp only [rd, getD_set_eq]
  split <;> rfl

theorem updInv_step (P0 : List (List ℚ))
    (hup : ∀ l, l + 1 < P0.length →
      (P0.getD l []).length ≤ SCHEDULEWIDTH * (P0.getD (l + 1) []).length)
    (hcons : ∀ k, 1 ≤ k → k < P0.length → ∀ i,
      rd P0 k i = ∑ j in Finset.range SCHEDULEWIDTH, rd P0 (k - 1) (SCHEDULEWIDTH * i + j))
    (l : Nat) (hl1 : 1 ≤ l) (hl : l < P0.length)
    (P : List (List ℚ)) (ind : List Nat) (ne : Nat) (h : UpdInv P0 l (P, ind, ne)) :
    UpdInv P0 (l + 1)
      (P.set l (updateLevel (P.getD (l - 1) []) ne (P.getD l [], ind, NOPREV, 0)).1,
        (updateLevel (P.getD (l - 1) []) ne (P.getD l [], ind, NOPREV, 0)).2.1,
        (updateLevel (P.getD (l - 1) []) ne (P.getD l [], ind, NOPREV, 0)).2.2.2)
    ∧ ind.length
        ≤ (updateLevel (P.getD (l - 1) []) ne (P.getD l [], ind, NOPREV, 0)).2.1.length := by
  obtain ⟨r1, r2, r3, r4, r5⟩ := updateLevel_spec (P.getD (l - 1) []) (P.getD l []) ind ne
  refine ⟨?_, r4.len⟩
  generalize updateLevel (P.getD (l - 1) []) ne (P.getD l [], ind, NOPREV, 0) = r at *
  have hlen : P.length = P0.length := h.len
  have hsz : ∀ k, (P.getD k []).length = (P0.getD k []).length := h.size
  have hnew : ∀ i, rd (P.set l r.1) l i = r.1.getD i 0 := by
    intro i; rw [rd_set, if_pos ⟨rfl, by omega⟩]
  have hold : ∀ k i, k ≠ l → rd (P.set l r.1) k i = rd P k i := by
    intro k i hk; rw [rd_set, if_neg (fun hc => hk hc.1.symm)]
  refine ⟨by simpa using hlen, ?_, ?_, ?_, ?_, ?_⟩
  · intro k
    simp only
    rw [getD_set_eq]
    split
    · rename_i hk; rw [r1, ← hk.1]; exact hsz l
    · exact hsz k
  · intro k hk
    simp only
    rw [getD_set_eq, if_neg (by omega)]
    exact h.above k (by omega)
  · intro k hk1 hk2 i
    simp only
    by_cases hkl : k = l
    · subst hkl
      rw [hnew]
      have hch : ∀ j, rd (P.set k r.1) (k - 1) (SCHEDULEWIDTH * i + j)
          = rd P (k - 1) (SCHEDULEWIDTH * i + j) := fun j => hold _ _ (by omega)
      simp only [hch]
      by_cases hS : Stored ind ne i
      · by_cases hlt : i < (P.getD k []).length
        · exact r2 i hS hlt
        · rw [getD_ge_zero _ _ (by omega)]
          symm
          apply Finset.sum_eq_zero
          intro j _
          apply getD_ge_zero
          have := hup (k - 1) (by omega)
          rw [Nat.sub_add_cancel hl1] at this
          rw [hsz (k - 1)]
          rw [hsz k] at hlt
          simp only [SCHEDULEWIDTH] at *
          omega
      · rw [r3 i hS]
        have e1 : (P.getD k []).getD i 0 = rd P0 k i := by
          show rd P k i = rd P0 k i
          simp only [rd, h.above k (le_refl k)]
        rw [e1, hcons k hl1 hl i]
        apply Finset.sum_congr rfl
        intro j hj
        by_contra hne
        have hj' : j < SCHEDULEWIDTH := Finset.mem_range.mp hj
        have := h.dirty (SCHEDULEWIDTH * i + j) (fun hc => hne hc.symm)
        simp only at this
        have hdiv : (SCHEDULEWIDTH * i + j) / SCHEDULEWIDTH = i := by
          simp only [SCHEDULEWIDTH] at *; omega
        rw [hdiv] at this
        exact hS this
    · rw [hold k i hkl]
      have hch : ∀ j, rd (P.set l r.1) (k - 1) (SCHEDULEWIDTH * i + j)
          = rd P (k - 1) (SCHEDULEWIDTH * i + j) := fun j => hold _ _ (by omega)
      simp only [hch]
      exact h.below k hk1 (by omega) i
  · intro i hi
    simp only [Nat.add_sub_cancel] at hi ⊢
    rw [hnew] at hi
    have hS : Stored ind ne i := by
      by_contra hS
      apply hi
      rw [r3 i hS]
      show rd P l i = rd P0 l i
      simp only [rd, h.above l (le_refl l)]
    obtain ⟨j, hj, hji⟩ := hS
    rw [r5]
    exact List.mem_map.mpr ⟨j, List.mem_range.mpr hj, by rw [hji]⟩
  · exact r4.fits

theorem updateUp_spec (P0 : List (List ℚ))
    (hup : ∀ l, l + 1 < P0.length →
      (P0.getD l []).length ≤ SCHEDULEWIDTH * (P0.getD (l + 1) []).length)
    (hcons : ∀ k, 1 ≤ k → k < P0.length → ∀ i,
      rd P0 k i = ∑ j in Finset.range SCHEDULEWIDTH, rd P0 (k - 1) (SCHEDULEWIDTH * i + j))
    (n : Nat) : ∀ (l : Nat) (st : List (List ℚ) × List Nat × Nat), 1 ≤ l →
      l + n = P0.length → UpdInv P0 l st →
      UpdInv P0 (l + n) (updateUp n l st)
      ∧ (∀ k, k < l → (updateUp n l st).1.getD k [] = st.1.getD k [])
      ∧ st.2.1.length ≤ (updateUp n l st).2.1.length := by
  induction n with
  | zero => intro l st _ _ h; exact ⟨h, fun _ _ => rfl, le_refl _⟩
  | succ n ih =>
    intro l st hl1 hl h
    obtain ⟨P, ind, ne⟩ := st
    obtain ⟨hs, hsl⟩ := updInv_step P0 hup hcons l hl1 (by omega) P ind ne h
    obtain ⟨k1, k2, k3⟩ := ih (l + 1) _ (by omega) (by omega) hs
    simp only [updateUp]
    refine ⟨by rw [show l + (n + 1) = l + 1 + n by omega]; exact k1, ?_, ?_⟩
    · intro k hk
      rw [k2 k (by omega)]
      simp only
      rw [getD_set_eq, if_neg (by omega)]
    · exact le_trans hsl k3

/-- What `_update` does to a built engine whose internal slots are the sums
of their children. -/
theorem update_props (s : Tetexact W) (h : Built s) (hc : SumsMatch s) (entries : List Nat)
    (hvalid : ∀ idx, idx ∈ entries → idx < s.pKProcs.length) :
    (∃ P I a, _update s entries = { s with pLevels := P, pIndices := I, pA0 := a })
    ∧ (_update s entries).pLevels.length = s.pLevels.length
    ∧ (∀ l, levelSize (_update s entries) l = levelSize s l)
    ∧ (∀ idx, idx ∈ entries → slot (_update s entries) 0 idx = rateAt s idx)
    ∧ (∀ i, i ∉ entries → slot (_update s entries) 0 i = slot s 0 i)
    ∧ SumsMatch (_update s entries) ∧ TopMatch (_update s entries)
    ∧ (_update s entries).pIndices.length = s.pIndices.length := by
  have hne : countKProcs s ≠ 0 := by have := h.nkp; simp only [countKProcs]; omega
  have hnl := h.nlev
  obtain ⟨a1, a2, a3, a4, a5⟩ := updateRates_spec s entries (s.pLevels.getD 0 []) s.pIndices
  generalize hr0 : updateRates s entries (s.pLevels.getD 0 [], s.pIndices, NOPREV, 0) = r0 at *
  have hinit : UpdInv s.pLevels 1 (s.pLevels.set 0 r0.1, r0.2.1, r0.2.2.2) := by
    refine ⟨by simp, ?_, ?_, ?_, ?_, ?_⟩
    · intro k
      simp only
      rw [getD_set_eq]
      split
      · rename_i hk; rw [a1, ← hk.1]
      · rfl
    · intro k hk
      simp only
      rw [getD_set_eq, if_neg (by omega)]
    · intro k hk1 hk2; omega
    · intro i hi
      simp only [Nat.sub_self] at hi ⊢
      rw [rd_set, if_pos ⟨rfl, by omega⟩] at hi
      have hmem : i ∈ entries := by
        by_contra hm
        exact hi (a3 i hm)
      rw [a5]
      exact List.mem_map.mpr ⟨i, hmem, rfl⟩
    · exact a4.fits
  obtain ⟨u1, u2, u3⟩ := updateUp_spec s.pLevels
    (fun l hl => h.up l hl) (fun k hk1 hk2 i => hc k hk1 hk2 i)
    (s.pLevels.length - 1) 1 _ (le_refl 1) (by omega) hinit
  have heq : _update s entries = { s with
      pLevels := (updateUp (s.pLevels.length - 1) 1 (s.pLevels.set 0 r0.1, r0.2.1, r0.2.2.2)).1
      pIndices := (updateUp (s.pLevels.length - 1) 1
        (s.pLevels.set 0 r0.1, r0.2.1, r0.2.2.2)).2.1.take s.pIndices.length
      pA0 := sumTop ((updateUp (s.pLevels.length - 1) 1
        (s.pLevels.set 0 r0.1, r0.2.1, r0.2.2.2)).1.getD
          ((updateUp (s.pLevels.length - 1) 1
            (s.pLevels.set 0 r0.1, r0.2.1, r0.2.2.2)).1.length - 1) []) } := by
    simp only [_update, hne, if_false, hr0]
  generalize updateUp (s.pLevels.length - 1) 1 (s.pLevels.set 0 r0.1, r0.2.1, r0.2.2.2) = up at *
  have hfull : 1 + (s.pLevels.length - 1) = s.pLevels.length := by omega
  rw [hfull] at u1
  have hlen : up.1.length = s.pLevels.length := u1.len
  have hslot : ∀ l i, slot (_update s entries) l i = rd up.1 l i := by
    intro l i; rw [heq]; rfl
  have hl0 : up.1.getD 0 [] = r0.1 := by
    rw [u2 0 (by omega)]
    simp only
    rw [getD_set_eq, if_pos ⟨rfl, by omega⟩]
  refine ⟨⟨_, _, _, heq⟩, by rw [heq]; exact hlen, ?_, ?_, ?_, ?_, ?_, ?_⟩
  · intro l
    rw [heq]
    exact u1.size l
  · intro idx hidx
    rw [hslot]
    simp only [rd, hl0]
    apply a2 idx hidx
    have := h.leaves
    have := hvalid idx hidx
    simp only [levelSize] at *
    omega
  · intro i hi
    rw [hslot]
    simp only [rd, hl0]
    exact a3 i hi
  · intro l hl1 hl2 i
    rw [heq] at hl2
    simp only [hslot]
    exact u1.below l hl1 (by simpa [hlen] using hl2) i
  · simp only [TopMatch, hslot]
    rw [heq]
    simp only [sumTop_eq, rd]
  · rw [heq]
    simp only [List.length_take]
    have := a4.len
    simp only at u3
    omega

theorem map_length_congr (P Q : List (List ℚ)) (hlen : P.length = Q.length)
    (hsize : ∀ l, (P.getD l []).length = (Q.getD l []).length) :
    P.map List.length = Q.map List.length := by
  apply List.ext_getElem?
  intro l
  have h1 := getD_map_length P l
  have h2 := getD_map_length Q l
  rw [hsize l, ← h2] at h1
  simp only [List.getD_eq_getElem?_getD] at h1
  by_cases hl : l < P.length
  · have e1 : l < (P.map List.length).length := by simpa using hl
    have e2 : l < (Q.map List.length).length := by simpa [← hlen] using hl
    rw [List.getElem?_eq_getElem e1, List.getElem?_eq_getElem e2] at h1 ⊢
    simpa using h1
  · rw [List.getElem?_eq_none (by simpa using hl),
      List.getElem?_eq_none (by simpa [← hlen] using hl)]

theorem update_built (s : Tetexact W) (h : Built s) (hc : SumsMatch s) (entries : List Nat)
    (hvalid : ∀ idx, idx ∈ entries → idx < s.pKProcs.length) : Built (_update s entries) := by
  obtain ⟨⟨P, I, a, heq⟩, hlen, hsize, _, hrest, hsum, _, _⟩ :=
    update_props s h hc entries hvalid
  have hK : (_update s entries).pKProcs = s.pKProcs := by rw [heq]
  have hZ : (_update s entries).pLevelSizes = s.pLevelSizes := by rw [heq]
  refine ⟨by rw [hK]; exact h.nkp, by rw [hK]; exact h.idx, by rw [hlen]; exact h.nlev, ?_,
    by rw [hK, hsize]; exact h.leaves, ?_, ?_, by rw [hlen, hsize]; exact h.top, ?_, ?_,
    by rw [hlen, ← h.rannum, heq]⟩
  · rw [hZ, h.sizes]
    exact map_length_congr _ _ hlen.symm (fun l => (hsize l).symm)
  · intro l hl; rw [hsize]; exact h.mult l (by rw [hlen] at hl; exact hl)
  · intro l hl; rw [hsize, hsize]; exact h.up l (by rw [hlen] at hl; exact hl)
  · intro i hi
    rw [hK] at hi
    rw [hrest i (fun hm => by have := hvalid i hm; omega)]
    exact h.pad0 i hi
  · intro l i hi
    by_cases hl : l + 1 < (_update s entries).pLevels.length
    · rw [hsum (l + 1) (by omega) hl i]
      apply Finset.sum_eq_zero
      intro j _
      apply slot_ge_zero
      simp only [Nat.add_sub_cancel, SCHEDULEWIDTH] at *
      omega
    · simp only [slot]
      rw [getD_ge_nil _ _ (by omega)]
      rfl

theorem reset_consistent (s : Tetexact W) (h : Built s) : Consistent (_reset s) := by
  obtain ⟨_, _, _, _, _, _, hsum, htop⟩ := reset_props s h
  exact ⟨hsum, htop⟩

theorem built_congr (s t : Tetexact W) (h : Built s) (hK : t.pKProcs = s.pKProcs)
    (hP : t.pLevels = s.pLevels) (hZ : t.pLevelSizes = s.pLevelSizes)
    (hR : t.pRannum.length = s.pRannum.length) : Built t := by
  have hslot : ∀ l i, slot t l i = slot s l i := by intro l i; simp only [slot, hP]
  have hsize : ∀ l, levelSize t l = levelSize s l := by intro l; simp only [levelSize, hP]
  exact ⟨by rw [hK]; exact h.nkp, by rw [hK]; exact h.idx, by rw [hP]; exact h.nlev,
    by rw [hZ, hP]; exact h.sizes, by rw [hK, hsize]; exact h.leaves,
    fun l hl => by rw [hsize]; exact h.mult l (by rw [hP] at hl; exact hl),
    fun l hl => by rw [hsize, hsize]; exact h.up l (by rw [hP] at hl; exact hl),
    by rw [hP, hsize]; exact h.top,
    fun i hi => by rw [hslot]; exact h.pad0 i (by rw [hK] at hi; exact hi),
    fun l i hi => by rw [hslot]; exact h.pad l i (by rw [hsize] at hi; exact hi),
    by rw [hR, hP]; exact h.rannum⟩

theorem foldl_addKProc_rates (kps : List (KProc W)) (s : Tetexact W) :
    (kps.foldl addKProc s).pKProcs.map (fun kp => kp.rate)
      = s.pKProcs.map (fun kp => kp.rate) ++ kps.map (fun kp => kp.rate) := by
  induction kps generalizing s with
  | nil => simp
  | cons kp rest ih =>
    rw [List.foldl_cons, ih]
    simp [addKProc]

theorem build_pKProcs (s : Tetexact W) : (_build s).pKProcs = s.pKProcs := by
  simp only [_build]
  split <;> rfl

theorem demoEngine_rate (i : Nat) (kp : KProc (Nat → ℚ))
    (h : demoEngine.pKProcs[i]? = some kp) : kp.rate = fun w => w i := by
  have h1 : demoEngine.pKProcs.map (fun kp => kp.rate)
      = (List.range 17).map (fun i => fun (w : Nat → ℚ) => w i) := by
    simp only [demoEngine, setupEngine, build_pKProcs, foldl_addKProc_rates, demoKProcs,
      Tetexact.init, List.map_nil, List.nil_append, List.map_map]
    rfl
  have h2 : (demoEngine.pKProcs.map (fun kp => kp.rate))[i]? = some kp.rate := by
    rw [List.getElem?_map, h]; rfl
  rw [h1, List.getElem?_map] at h2
  by_cases hi : i < 17
  · rw [List.getElem?_range hi] at h2
    simpa using h2.symm
  · rw [List.getElem?_eq_none (by simpa using hi)] at h2
    cases h2

theorem foldl_addKProc_world (kps : List (KProc W)) (s : Tetexact W) :
    (kps.foldl addKProc s).world = s.world := by
  induction kps generalizing s with
  | nil => rfl
  | cons kp rest ih => rw [List.foldl_cons, ih]; rfl

/-- The same for the engine the constructor builds from any list of at least
one KProc: whatever the number of levels, `A0` after `_reset` is the sum of
the rates of the KProcs registered. -/
theorem reset_A0_setupEngine (w : W) (r : RNG) (kps : List (KProc W))
    (hN : 1 ≤ kps.length) (hb : kps.length + 15 < UINTMOD) :
    getA0 (_reset (setupEngine w r kps)) = (kps.map (fun kp => kp.rate w)).sum := by
  have hb' := setupEngine_built w r kps hN hb
  obtain ⟨⟨P1, a, heq⟩, _⟩ := reset_props _ hb'
  have hK : (setupEngine w r kps).pKProcs.map (fun kp => kp.rate)
      = kps.map (fun kp => kp.rate) := by
    simp only [setupEngine, build_pKProcs, foldl_addKProc_rates, Tetexact.init, List.map_nil,
      List.nil_append]
  have hW : (setupEngine w r kps).world = w := by
    simp only [setupEngine, _build]
    split
    · exact foldl_addKProc_world kps _
    · exact foldl_addKProc_world kps _
  have hsum : ∀ (xs ys : List (KProc W)),
      xs.map (fun kp => kp.rate) = ys.map (fun kp => kp.rate) →
      (xs.map (fun kp => kp.rate w)).sum = (ys.map (fun kp => kp.rate w)).sum := by
    intro xs ys hxy
    have := congrArg (List.map (fun f : W → ℚ => f w)) hxy
    simp only [List.map_map, Function.comp_def] at this
    rw [this]
  have hmain := A0_eq_leaf_total _ (reset_built _ hb') (reset_consistent _ hb')
  obtain ⟨_, _, _, hleaf, _, _, _, _⟩ := reset_props _ hb'
  rw [getA0, hmain, ← hsum _ _ hK, sum_map_eq_sum_range, heq, hW]
  apply Finset.sum_congr rfl
  intro i hi
  have hi' : i < (setupEngine w r kps).pKProcs.length := Finset.mem_range.mp hi
  rw [List.getElem?_eq_getElem hi']
  have := hleaf i _ (List.getElem?_eq_getElem hi')
  rw [heq, hW] at this
  exact this

/-! ## `_getNext` (claims C5, C6 and C7) -/

theorem drawRannum_spec (n : Nat) (r : RNG) (R : List ℚ) :
    (drawRannum n r R).1 = { r with pos := r.pos + n }
    ∧ (drawRannum n r R).2.length = R.length
    ∧ ∀ i, (drawRannum n r R).2.getD i 0
        = if i < n ∧ i < R.length then r.unf (r.pos + i) else R.getD i 0 := by
  induction n with
  | zero => exact ⟨rfl, rfl, fun i => by rw [if_neg (by omega)]; rfl⟩
  | succ n ih =>
    obtain ⟨h1, h2, h3⟩ := ih
    have hstep : drawRannum (n + 1) r R
        = (((drawRannum n r R).1.getUnfIE).2,
            (drawRannum n r R).2.set n ((drawRannum n r R).1.getUnfIE).1) := by
      simp only [drawRannum, List.range_succ, List.foldl_append, List.foldl_cons, List.foldl_nil]
    rw [hstep, h1]
    refine ⟨by simp [RNG.getUnfIE, Nat.add_assoc], by simp [h2], ?_⟩
    intro i
    simp only [RNG.getUnfIE]
    rw [getD_set_eq, h3, h2]
    by_cases hi : n = i
    · subst hi
      by_cases hl : n < R.length
      · simp [hl]
      · simp [hl]
    · have : (i < n + 1 ∧ i < R.length) ↔ (i < n ∧ i < R.length) := by omega
      simp only [hi, false_and, if_false, this]

theorem scanLevel_spec (level : List ℚ) (sel : ℚ) (n : Nat) :
    ∀ (cur : Nat) (accum cv : ℚ),
      (∀ i, i < n → 0 ≤ level.getD (cur + i) 0) → accum ≤ sel →
      sel < accum + ∑ i in Finset.range n, level.getD (cur + i) 0 →
      ∃ j, j < n ∧ scanLevel level sel n cur accum cv = (cur + j, level.getD (cur + j) 0)
        ∧ accum + ∑ i in Finset.range j, level.getD (cur + i) 0 ≤ sel
        ∧ sel < accum + ∑ i in Finset.range j, level.getD (cur + i) 0
            + level.getD (cur + j) 0 := by
  induction n with
  | zero =>
    intro cur accum cv _ h1 h2
    simp at h2
    linarith
  | succ n ih =>
    intro cur accum cv hnn h1 h2
    simp only [scanLevel]
    split
    · rename_i hlt
      refine ⟨0, by omega, by simp, by simpa using h1, ?_⟩
      simp only [Finset.range_zero, Finset.sum_empty, Nat.add_zero, add_zero]
      linarith
    · rename_i hge
      rw [Finset.sum_range_succ'] at h2
      simp only [Nat.add_zero] at h2
      obtain ⟨j, hj, e1, e2, e3⟩ := ih (cur + 1) (accum + level.getD cur 0)
        (level.getD cur 0)
        (fun i hi => by have := hnn (i + 1) (by omega); rwa [show cur + 1 + i = cur + (i + 1) by omega])
        (by linarith)
        (by
          have : ∑ i in Finset.range n, level.getD (cur + 1 + i) 0
              = ∑ i in Finset.range n, level.getD (cur + (i + 1)) 0 :=
            Finset.sum_congr rfl (fun i _ => by rw [show cur + 1 + i = cur + (i + 1) by omega])
          rw [this]; linarith)
      have hs : ∑ i in Finset.range j, level.getD (cur + 1 + i) 0
          = ∑ i in Finset.range j, level.getD (cur + (i + 1)) 0 :=
        Finset.sum_congr rfl (fun i _ => by rw [show cur + 1 + i = cur + (i + 1) by omega])
      refine ⟨j + 1, by omega, ?_, ?_, ?_⟩
      · rw [e1, show cur + 1 + j = cur + (j + 1) by omega]
      · rw [Finset.sum_range_succ']
        simp only [Nat.add_zero]
        rw [hs] at e2
        linarith
      · rw [Finset.sum_range_succ']
        simp only [Nat.add_zero]
        rw [hs, show cur + 1 + j = cur + (j + 1) by omega] at e3
        linarith

theorem anc_succ (k l : Nat) : anc k (l + 1) = anc k l / SCHEDULEWIDTH := by
  simp only [anc, pow_succ, Nat.div_div_eq_div_mul]

theorem anc_zero (k : Nat) : anc k 0 = k := by simp [anc]

/-- The walk of `_getNext` from node `cur` of level `clevel` downwards, when
the value `a0` handed down is positive and is the sum of the children of
`cur`: the leaf reached descends from `cur`, the selector fell into its
ancestor's interval at every level walked, the leaf is positive, and the
assertions hold. -/
theorem descend_path (s : Tetexact W) (R : List ℚ)
    (hnn : ∀ l i, 0 ≤ slot s l i) (hsum : SumsMatch s)
    (hu : ∀ l, l < s.pLevels.length → 0 ≤ R.getD l 0 ∧ R.getD l 0 < 1) (clevel : Nat) :
    ∀ (cur : Nat) (a0 : ℚ), clevel ≤ s.pLevels.length → 0 < a0 →
      (1 ≤ clevel → a0 = ∑ j in Finset.range SCHEDULEWIDTH,
          slot s (clevel - 1) (SCHEDULEWIDTH * cur + j)) →
      anc (descend s.pLevels R clevel cur a0) clevel = cur
      ∧ (∀ l, l < clevel → SelectedWith s (descend s.pLevels R clevel cur a0) l
            (if l + 1 = clevel then a0
              else slot s (l + 1) (anc (descend s.pLevels R clevel cur a0) (l + 1)))
            (R.getD l 0))
      ∧ (1 ≤ clevel → 0 < slot s 0 (descend s.pLevels R clevel cur a0))
      ∧ descendAsserts s.pLevels R clevel cur a0 := by
  induction clevel with
  | zero =>
    intro cur a0 _ _ _
    exact ⟨anc_zero cur, fun l hl => by omega, fun h => by omega, trivial⟩
  | succ clevel ih =>
    intro cur a0 hle ha0 hsumcur
    have ha := hsumcur (by omega)
    simp only [Nat.add_sub_cancel] at ha
    obtain ⟨hu0, hu1⟩ := hu clevel (by omega)
    have hsel0 : (0 : ℚ) ≤ R.getD clevel 0 * a0 := mul_nonneg hu0 (le_of_lt ha0)
    have hsel1 : R.getD clevel 0 * a0 < a0 := by
      have := mul_lt_mul_of_pos_right hu1 ha0
      linarith
    have hcomm : ∀ i, cur * SCHEDULEWIDTH + i = SCHEDULEWIDTH * cur + i := by
      intro i; rw [Nat.mul_comm]
    obtain ⟨j, hj, e1, e2, e3⟩ := scanLevel_spec (s.pLevels.getD clevel [])
      (R.getD clevel 0 * a0) SCHEDULEWIDTH (cur * SCHEDULEWIDTH) 0 0
      (fun i _ => hnn clevel (cur * SCHEDULEWIDTH + i)) hsel0
      (by
        rw [zero_add]
        have : ∑ i in Finset.range SCHEDULEWIDTH,
            (s.pLevels.getD clevel []).getD (cur * SCHEDULEWIDTH + i) 0 = a0 := by
          rw [ha]
          exact Finset.sum_congr rfl (fun i _ => by rw [hcomm]; rfl)
        rw [this]; exact hsel1)
    rw [zero_add] at e2 e3
    have hdesc : descend s.pLevels R (clevel + 1) cur a0
        = descend s.pLevels R clevel (cur * SCHEDULEWIDTH + j)
            (slot s clevel (cur * SCHEDULEWIDTH + j)) := by
      simp only [descend, e1]
      rfl
    have hvpos : 0 < slot s clevel (cur * SCHEDULEWIDTH + j) := by
      have : (s.pLevels.getD clevel []).getD (cur * SCHEDULEWIDTH + j) 0
          = slot s clevel (cur * SCHEDULEWIDTH + j) := rfl
      rw [this] at e3
      linarith
    obtain ⟨i1, i2, i3, i4⟩ := ih (cur * SCHEDULEWIDTH + j)
      (slot s clevel (cur * SCHEDULEWIDTH + j)) (by omega) hvpos
      (fun h1 => hsum clevel h1 (by omega) _)
    rw [hdesc]
    generalize descend s.pLevels R clevel (cur * SCHEDULEWIDTH + j)
      (slot s clevel (cur * SCHEDULEWIDTH + j)) = k at *
    have hanc : anc k (clevel + 1) = cur := by
      rw [anc_succ, i1]
      simp only [SCHEDULEWIDTH] at *
      omega
    have hmod : anc k clevel % SCHEDULEWIDTH = j := by
      rw [i1]
      simp only [SCHEDULEWIDTH] at *
      omega
    refine ⟨hanc, ?_, ?_, ?_⟩
    · intro l hl
      by_cases hlc : l = clevel
      · subst hlc
        rw [if_pos rfl]
        simp only [SelectedWith, prefixSum, slotVal]
        rw [hmod, hanc, i1]
        have hp : ∑ i in Finset.range j, slot s l (SCHEDULEWIDTH * cur + i)
            = ∑ i in Finset.range j, (s.pLevels.getD l []).getD (cur * SCHEDULEWIDTH + i) 0 :=
          Finset.sum_congr rfl (fun i _ => by rw [hcomm]; rfl)
        rw [hp]
        exact ⟨e2, e3⟩
      · have hl' : l < clevel := by omega
        have := i2 l hl'
        rw [if_neg (by omega)]
        by_cases hl1 : l + 1 = clevel
        · rw [if_pos hl1] at this
          rw [hl1, i1]
          exact this
        · rw [if_neg hl1] at this
          exact this
    · intro _
      by_cases hc0 : clevel = 0
      · subst hc0
        rw [anc_zero] at i1
        rw [i1]
        exact hvpos
      · exact i3 (by omega)
    · simp only [descendAsserts, e1]
      exact ⟨⟨by omega, by omega, trivial, hvpos⟩, i4⟩

theorem slots_nonneg (s : Tetexact W) (hs : SumsMatch s) (h0 : ∀ i, 0 ≤ slot s 0 i) :
    ∀ l i, 0 ≤ slot s l i := by
  intro l
  induction l with
  | zero => exact h0
  | succ l ih =>
    intro i
    by_cases hl : l + 1 < s.pLevels.length
    · rw [hs (l + 1) (by omega) hl i]
      exact Finset.sum_nonneg (fun j _ => ih _)
    · simp only [slot]
      rw [getD_ge_nil _ _ (by omega)]
      simp

/-- What `_getNext` computes when `A0` is not zero. -/
theorem getNext_eq (s : Tetexact W) (h : Built s) (hA : s.pA0 ≠ 0) :
    ∃ R : List ℚ, (∀ l, l < s.pLevels.length → R.getD l 0 = uniformAt s l)
      ∧ _getNext s = (s.pKProcs[descend s.pLevels R s.pLevels.length 0 s.pA0]?,
          { s with rng := { s.rng with pos := s.rng.pos + s.pLevels.length }, pRannum := R }) := by
  obtain ⟨d1, d2, d3⟩ := drawRannum_spec s.pLevels.length s.rng s.pRannum
  refine ⟨(drawRannum s.pLevels.length s.rng s.pRannum).2, ?_, ?_⟩
  · intro l hl
    rw [d3 l, if_pos ⟨hl, by rw [h.rannum]; exact hl⟩]
    rfl
  · simp only [_getNext, hA, if_false, d1]

/-- The walk of `_getNext` on a built, consistent engine with non-negative
rates, `A0 > 0` and uniforms in `[0,1)`. -/
theorem getNext_walk (s : Tetexact W) (h : Built s) (hc : Consistent s)
    (hnn : ∀ i, 0 ≤ slot s 0 i) (hA : 0 < s.pA0)
    (hu : ∀ l, l < s.pLevels.length → 0 ≤ uniformAt s l ∧ uniformAt s l < 1) :
    ∃ (R : List ℚ) (k : Nat) (kp : KProc W),
      _getNext s = (some kp,
          { s with rng := { s.rng with pos := s.rng.pos + s.pLevels.length }, pRannum := R })
      ∧ s.pKProcs[k]? = some kp ∧ kp.schedIDX = k ∧ k < s.pKProcs.length
      ∧ 0 < slot s 0 k
      ∧ (∀ l, l < s.pLevels.length → Selected s k l)
      ∧ descendAsserts s.pLevels R s.pLevels.length 0 s.pA0
      ∧ anc k s.pLevels.length = 0 := by
  obtain ⟨R, hR, heq⟩ := getNext_eq s h (ne_of_gt hA)
  have hall := slots_nonneg s hc.1 hnn
  obtain ⟨p1, p2, p3, p4⟩ := descend_path s R hall hc.1
    (fun l hl => by rw [hR l hl]; exact hu l hl) s.pLevels.length 0 s.pA0 (le_refl _) hA
    (fun _ => by
      rw [hc.2]
      exact Finset.sum_congr rfl (fun j _ => by simp))
  generalize descend s.pLevels R s.pLevels.length 0 s.pA0 = k at *
  have hpos := p3 h.nlev
  have hk : k < s.pKProcs.length := by
    by_contra hge
    have := h.pad0 k (by omega)
    linarith
  refine ⟨R, k, s.pKProcs[k], ?_, List.getElem?_eq_getElem hk,
    h.idx k _ (List.getElem?_eq_getElem hk), hk, hpos, ?_, p4, p1⟩
  · rw [heq, List.getElem?_eq_getElem hk]
  · intro l hl
    have := p2 l hl
    rw [hR l hl] at this
    simp only [Selected, parentVal]
    exact this

theorem A0_nonneg (s : Tetexact W) (hc : Consistent s) (hnn : ∀ i, 0 ≤ slot s 0 i) :
    0 ≤ s.pA0 := by
  rw [hc.2]
  exact Finset.sum_nonneg (fun j _ => slots_nonneg s hc.1 hnn _ _)

/-- C5: `_getNext` returns null exactly when `A0 == 0`. With `A0 == 0` it
returns null and leaves the engine, the generator included, untouched. On a
built, consistent engine with non-negative rates, `A0 > 0` and uniforms in
`[0,1)` it returns a registered KProc, stored at its own `schedIDX`, which is
below the number of KProcs. -/
theorem getNext_null_iff_A0_zero (s : Tetexact W) (h : Built s) (hc : Consistent s)
    (hnn : ∀ i, 0 ≤ slot s 0 i) (hu : ∀ l, l < s.pLevels.length → 0 ≤ uniformAt s l ∧ uniformAt s l < 1) :
    ((_getNext s).1 = none ↔ s.pA0 = 0)
    ∧ (s.pA0 = 0 → _getNext s = (none, s))
    ∧ (0 < s.pA0 → ∃ kp, (_getNext s).1 = some kp ∧ kp.schedIDX < s.pKProcs.length
        ∧ s.pKProcs[kp.schedIDX]? = some kp) := by
  have hzero : s.pA0 = 0 → _getNext s = (none, s) := by
    intro h0; simp only [_getNext, h0, if_true]
  have hpos : 0 < s.pA0 → ∃ kp, (_getNext s).1 = some kp ∧ kp.schedIDX < s.pKProcs.length
      ∧ s.pKProcs[kp.schedIDX]? = some kp := by
    intro hA
    obtain ⟨R, k, kp, e1, e2, e3, e4, _⟩ := getNext_walk s h hc hnn hA hu
    exact ⟨kp, by rw [e1], by rw [e3]; exact e4, by rw [e3]; exact e2⟩
  refine ⟨⟨?_, fun h0 => by rw [hzero h0]⟩, hzero, hpos⟩
  intro hnone
  by_contra hne
  have hA : 0 < s.pA0 := lt_of_le_of_ne (A0_nonneg s hc hnn) (Ne.symm hne)
  obtain ⟨kp, hk, _⟩ := hpos hA
  rw [hnone] at hk
  cases hk

theorem demo_reset_nonneg : ∀ i, 0 ≤ slot (_reset demoEngine) 0 i := by
  intro i
  obtain ⟨_, _, _, hleaf, hpad0, _⟩ := reset_props demoEngine demoEngine_built
  by_cases hi : i < demoEngine.pKProcs.length
  · have hk : demoEngine.pKProcs[i]? = some demoEngine.pKProcs[i] := List.getElem?_eq_getElem hi
    rw [hleaf i _ hk, demoEngine_rate i _ hk]
    show (0 : ℚ) ≤ ((i % 3 : Nat) : ℚ)
    exact Nat.cast_nonneg _
  · rw [hpad0 i (by omega)]

theorem demo_reset_uniform : ∀ l, l < (_reset demoEngine).pLevels.length →
    0 ≤ uniformAt (_reset demoEngine) l ∧ uniformAt (_reset demoEngine) l < 1 := by
  intro l _
  show (0 : ℚ) ≤ 1 / 2 ∧ (1 / 2 : ℚ) < 1
  constructor <;> norm_num

theorem getNext_null_iff_A0_zero_witness :
    Built (_reset demoEngine) ∧ Consistent (_reset demoEngine)
    ∧ (∀ i, 0 ≤ slot (_reset demoEngine) 0 i)
    ∧ (∀ l, l < (_reset demoEngine).pLevels.length →
        0 ≤ uniformAt (_reset demoEngine) l ∧ uniformAt (_reset demoEngine) l < 1)
    ∧ ((_getNext (_reset demoEngine)).1 = none ↔ (_reset demoEngine).pA0 = 0)
    ∧ (_getNext (_reset demoEngine)).1.map (fun kp => kp.schedIDX) = some 8 :=
  ⟨reset_built _ demoEngine_built, reset_consistent _ demoEngine_built, demo_reset_nonneg,
    demo_reset_uniform,
    (getNext_null_iff_A0_zero (_reset demoEngine) (reset_built _ demoEngine_built)
      (reset_consistent _ demoEngine_built) demo_reset_nonneg demo_reset_uniform).1,
    by decide!⟩

/-- C6: `_getNext` never selects a zero-rate KProc. On a built, consistent
engine with non-negative rates, `A0 > 0` and uniforms in `[0,1)`, at every
level the scan stops on one of the 16 children of the current node, at a slot
of strictly positive value (so both assertions of the source hold), and the
KProc returned has a strictly positive leaf `L[0][schedIDX]`. -/
theorem getNext_never_selects_zero (s : Tetexact W) (h : Built s) (hc : Consistent s)
    (hnn : ∀ i, 0 ≤ slot s 0 i) (hA : 0 < s.pA0)
    (hu : ∀ l, l < s.pLevels.length → 0 ≤ uniformAt s l ∧ uniformAt s l < 1) :
    descendAsserts (_getNext s).2.pLevels (_getNext s).2.pRannum
        (_getNext s).2.pLevels.length 0 (_getNext s).2.pA0
    ∧ ∃ kp, (_getNext s).1 = some kp ∧ 0 < slot s 0 kp.schedIDX := by
  obtain ⟨R, k, kp, e1, _, e3, _, e5, _, e7, _⟩ := getNext_walk s h hc hnn hA hu
  rw [e1]
  exact ⟨e7, kp, rfl, by rw [e3]; exact e5⟩

theorem getNext_never_selects_zero_witness :
    Built (_reset demoEngine) ∧ Consistent (_reset demoEngine)
    ∧ 0 < (_reset demoEngine).pA0
    ∧ ∃ kp, (_getNext (_reset demoEngine)).1 = some kp
        ∧ 0 < slot (_reset demoEngine) 0 kp.schedIDX :=
  ⟨reset_built _ demoEngine_built, reset_consistent _ demoEngine_built, by decide!,
    (getNext_never_selects_zero (_reset demoEngine) (reset_built _ demoEngine_built)
      (reset_consistent _ demoEngine_built) demo_reset_nonneg (by decide!)
      demo_reset_uniform).2⟩

theorem sum_range_mono (g : Nat → ℚ) (hg : ∀ i, 0 ≤ g i) (m n : Nat) (h : m ≤ n) :
    ∑ i in Finset.range m, g i ≤ ∑ i in Finset.range n, g i :=
  Finset.sum_le_sum_of_subset_of_nonneg (Finset.range_mono h) (fun i _ _ => hg i)

/-- Within one block of siblings with non-negative values, the selector lies
in the interval of at most one of them. -/
theorem selected_unique_block (g : Nat → ℚ) (hg : ∀ i, 0 ≤ g i) (sel : ℚ) (j j' : Nat)
    (h1 : ∑ i in Finset.range j, g i ≤ sel) (h2 : sel < ∑ i in Finset.range j, g i + g j)
    (h1' : ∑ i in Finset.range j', g i ≤ sel)
    (h2' : sel < ∑ i in Finset.range j', g i + g j') : j = j' := by
  rcases Nat.lt_trichotomy j j' with hlt | heq | hgt
  · have := sum_range_mono g hg (j + 1) j' hlt
    rw [Finset.sum_range_succ] at this
    linarith
  · exact heq
  · have := sum_range_mono g hg (j' + 1) j hgt
    rw [Finset.sum_range_succ] at this
    linarith

theorem anc_split (k l : Nat) :
    anc k l = SCHEDULEWIDTH * anc k (l + 1) + anc k l % SCHEDULEWIDTH := by
  rw [anc_succ]
  exact (Nat.div_add_mod _ _).symm

/-- Two leaves under the same node of level `clevel` for which the same
selectors fall into the intervals of their ancestors at every level below are
the same leaf. -/
theorem path_unique (s : Tetexact W) (hnn : ∀ l i, 0 ≤ slot s l i) (u : Nat → ℚ)
    (clevel : Nat) : ∀ (k k' : Nat) (a0 : ℚ), anc k clevel = anc k' clevel →
      (∀ l, l < clevel → SelectedWith s k l
        (if l + 1 = clevel then a0 else slot s (l + 1) (anc k (l + 1))) (u l)) →
      (∀ l, l < clevel → SelectedWith s k' l
        (if l + 1 = clevel then a0 else slot s (l + 1) (anc k' (l + 1))) (u l)) →
      k = k' := by
  induction clevel with
  | zero =>
    intro k k' _ h _ _
    simpa [anc_zero] using h
  | succ clevel ih =>
    intro k k' a0 hanc hk hk'
    have t := hk clevel (by omega)
    have t' := hk' clevel (by omega)
    rw [if_pos rfl] at t t'
    simp only [SelectedWith, prefixSum, slotVal] at t t'
    rw [← hanc] at t'
    have hv : slot s clevel (anc k clevel)
        = slot s clevel (SCHEDULEWIDTH * anc k (clevel + 1) + anc k clevel % SCHEDULEWIDTH) :=
      congrArg (slot s clevel) (anc_split k clevel)
    have hv' : slot s clevel (anc k' clevel)
        = slot s clevel (SCHEDULEWIDTH * anc k (clevel + 1) + anc k' clevel % SCHEDULEWIDTH) := by
      rw [hanc]
      exact congrArg (slot s clevel) (anc_split k' clevel)
    rw [hv] at t
    rw [hv'] at t'
    have hj := selected_unique_block
      (fun i => slot s clevel (SCHEDULEWIDTH * anc k (clevel + 1) + i))
      (fun i => hnn _ _) (u clevel * a0) _ _ t.1 t.2 t'.1 t'.2
    have hsame : anc k clevel = anc k' clevel := by
      rw [anc_split k clevel, anc_split k' clevel, hj, hanc]
    apply ih k k' (slot s clevel (anc k clevel)) hsame
    · intro l hl
      have := hk l (by omega)
      rw [if_neg (by omega)] at this
      by_cases hl1 : l + 1 = clevel
      · rw [if_pos hl1]; rw [hl1] at this; exact this
      · rw [if_neg hl1]; exact this
    · intro l hl
      have := hk' l (by omega)
      rw [if_neg (by omega)] at this
      by_cases hl1 : l + 1 = clevel
      · rw [if_pos hl1, hsame]; rw [hl1] at this; exact this
      · rw [if_neg hl1]; exact this

theorem top_block_zero (s : Tetexact W) (h : Built s) (i : Nat) (hi : SCHEDULEWIDTH ≤ i) :
    slot s (s.pLevels.length - 1) i = 0 :=
  slot_ge_zero s _ i (by rw [h.top]; exact hi)

/-- The interval `[P_l, P_l + v_l)` of an ancestor lies inside `[0, a_l)`. -/
theorem prefix_add_val_le_parent (s : Tetexact W) (h : Built s) (hc : Consistent s)
    (hnn : ∀ i, 0 ≤ slot s 0 i) (k l : Nat) (hl : l < s.pLevels.length) :
    0 ≤ prefixSum s k l ∧ 0 ≤ slotVal s k l
    ∧ prefixSum s k l + slotVal s k l ≤ parentVal s k l := by
  have hall := slots_nonneg s hc.1 hnn
  have hP : 0 ≤ prefixSum s k l := Finset.sum_nonneg (fun i _ => hall _ _)
  have hV : 0 ≤ slotVal s k l := hall _ _
  refine ⟨hP, hV, ?_⟩
  have hj : anc k l % SCHEDULEWIDTH < SCHEDULEWIDTH := Nat.mod_lt _ (by decide)
  have hv : slotVal s k l
      = slot s l (SCHEDULEWIDTH * anc k (l + 1) + anc k l % SCHEDULEWIDTH) :=
    congrArg (slot s l) (anc_split k l)
  have hblock : prefixSum s k l + slotVal s k l
      ≤ ∑ i in Finset.range SCHEDULEWIDTH, slot s l (SCHEDULEWIDTH * anc k (l + 1) + i) := by
    rw [hv]
    simp only [prefixSum]
    rw [← Finset.sum_range_succ
      (fun i => slot s l (SCHEDULEWIDTH * anc k (l + 1) + i)) (anc k l % SCHEDULEWIDTH)]
    exact sum_range_mono _ (fun i => hall _ _) _ _ hj
  by_cases hl1 : l + 1 = s.pLevels.length
  · simp only [parentVal, if_pos hl1]
    have hl' : l = s.pLevels.length - 1 := by omega
    by_cases hc0 : anc k (l + 1) = 0
    · rw [hc.2, ← hl']
      rw [hc0] at hblock
      simpa using hblock
    · have hz : ∑ i in Finset.range SCHEDULEWIDTH,
          slot s l (SCHEDULEWIDTH * anc k (l + 1) + i) = 0 := by
        apply Finset.sum_eq_zero
        intro i _
        have h1 : 1 ≤ anc k (l + 1) := Nat.one_le_iff_ne_zero.mpr hc0
        have := top_block_zero s h (SCHEDULEWIDTH * anc k (l + 1) + i)
          (by simp only [SCHEDULEWIDTH]; omega)
        rw [← hl'] at this
        exact this
      rw [hz] at hblock
      exact le_trans hblock (A0_nonneg s hc hnn)
  · simp only [parentVal, if_neg hl1]
    rw [hc.1 (l + 1) (by omega) (by omega) (anc k (l + 1))]
    simpa using hblock

theorem parentVal_eq_slotVal (s : Tetexact W) (k l : Nat) (hl : l + 1 < s.pLevels.length) :
    parentVal s k l = slotVal s k (l + 1) := by
  simp only [parentVal, slotVal]
  rw [if_neg (by omega)]

/-- Telescoping: the product of the ratios `v_l / a_l` below level `m`, times
`v_m`, is the leaf value. -/
theorem ratio_prod_telescope (s : Tetexact W) (h : Built s) (hc : Consistent s)
    (hnn : ∀ i, 0 ≤ slot s 0 i) (k : Nat) (m : Nat) :
    m < s.pLevels.length →
    (∏ l in Finset.range m, slotVal s k l / parentVal s k l) * slotVal s k m
      = slotVal s k 0 := by
  induction m with
  | zero => intro _; simp
  | succ m ih =>
    intro hm
    have ihm := ih (by omega)
    obtain ⟨_, hv0, hle⟩ := prefix_add_val_le_parent s h hc hnn k m (by omega)
    have hp0 : 0 ≤ prefixSum s k m := (prefix_add_val_le_parent s h hc hnn k m (by omega)).1
    rw [Finset.prod_range_succ, parentVal_eq_slotVal s k m hm] at *
    by_cases hz : slotVal s k (m + 1) = 0
    · have hvm : slotVal s k m = 0 := by
        rw [hz] at hle
        linarith
      rw [hz, mul_zero, ← ihm, hvm, mul_zero]
    · have hcancel : slotVal s k m / slotVal s k (m + 1) * slotVal s k (m + 1)
          = slotVal s k m := by field_simp
      rw [mul_assoc, hcancel, ihm]

/-- C7: `_getNext` is an exact inverse-CDF sampler. On a built, consistent
engine with non-negative rates, `A0 > 0` and uniforms in `[0,1)`: the KProc
with scheduler index `k` is returned if and only if at every level `l` the
selector `u_l * a_l` lies in `[P_l, P_l + v_l)`; for `a_l > 0` that is the
`u`-interval `[P_l / a_l, P_l / a_l + v_l / a_l)`, which lies inside `[0,1]`;
and the product of the lengths `v_l / a_l` of these intervals is
`L[0][k] / A0`, the rate of `k` over `A0`. -/
theorem getNext_inverse_cdf (s : Tetexact W) (h : Built s) (hc : Consistent s)
    (hnn : ∀ i, 0 ≤ slot s 0 i) (hA : 0 < s.pA0)
    (hu : ∀ l, l < s.pLevels.length → 0 ≤ uniformAt s l ∧ uniformAt s l < 1) (k : Nat) :
    ((∃ kp, (_getNext s).1 = some kp ∧ kp.schedIDX = k)
        ↔ ∀ l, l < s.pLevels.length → Selected s k l)
    ∧ (∀ l, l < s.pLevels.length → 0 < parentVal s k l → ∀ u : ℚ,
        (SelectedWith s k l (parentVal s k l) u
          ↔ prefixSum s k l / parentVal s k l ≤ u
            ∧ u < prefixSum s k l / parentVal s k l + slotVal s k l / parentVal s k l))
    ∧ (∀ l, l < s.pLevels.length →
        0 ≤ prefixSum s k l / parentVal s k l
        ∧ prefixSum s k l / parentVal s k l + slotVal s k l / parentVal s k l ≤ 1)
    ∧ ∏ l in Finset.range s.pLevels.length, slotVal s k l / parentVal s k l
        = slot s 0 k / s.pA0 := by
  obtain ⟨R, k0, kp0, e1, e2, e3, e4, e5, e6, e7, e8⟩ := getNext_walk s h hc hnn hA hu
  have hall := slots_nonneg s hc.1 hnn
  have hnl := h.nlev
  refine ⟨⟨?_, ?_⟩, ?_, ?_, ?_⟩
  · rintro ⟨kp, hk1, hk2⟩
    rw [e1] at hk1
    have : kp0 = kp := by simpa using hk1
    rw [← hk2, ← this, e3]
    exact e6
  · intro hsel
    have htop := hsel (s.pLevels.length - 1) (by omega)
    have hvpos : 0 < slotVal s k (s.pLevels.length - 1) := by
      have := htop.1
      have := htop.2
      linarith
    have hanc : anc k (s.pLevels.length - 1) < SCHEDULEWIDTH := by
      by_contra hge
      have := top_block_zero s h (anc k (s.pLevels.length - 1)) (by omega)
      simp only [slotVal] at hvpos
      linarith
    have hanc0 : anc k s.pLevels.length = 0 := by
      have := anc_succ k (s.pLevels.length - 1)
      rw [Nat.sub_add_cancel hnl] at this
      rw [this]
      exact Nat.div_eq_of_lt hanc
    have hkk : k = k0 := path_unique s hall (uniformAt s) s.pLevels.length k k0 s.pA0
      (by rw [hanc0, e8])
      (fun l hl => hsel l hl) (fun l hl => e6 l hl)
    exact ⟨kp0, by rw [e1], by rw [e3, hkk]⟩
  · intro l hl ha u
    simp only [SelectedWith]
    rw [div_le_iff₀ ha, ← add_div, lt_div_iff₀ ha]
  · intro l hl
    obtain ⟨hP, hV, hle⟩ := prefix_add_val_le_parent s h hc hnn k l hl
    have ha : 0 ≤ parentVal s k l := by linarith
    refine ⟨div_nonneg hP ha, ?_⟩
    rw [← add_div]
    rcases eq_or_lt_of_le ha with hz | hpos
    · rw [← hz]; simp
    · exact (div_le_one hpos).mpr hle
  · have ht := ratio_prod_telescope s h hc hnn k (s.pLevels.length - 1) (by omega)
    have hlen : s.pLevels.length = (s.pLevels.length - 1) + 1 := by omega
    have hpar : parentVal s k (s.pLevels.length - 1) = s.pA0 := by
      simp only [parentVal]
      rw [if_pos (by omega)]
    rw [hlen, Finset.prod_range_succ, hpar, ← mul_div_assoc, ht]
    simp only [slotVal, anc_zero]

theorem getNext_inverse_cdf_witness :
    Built (_reset demoEngine) ∧ Consistent (_reset demoEngine)
    ∧ 0 < (_reset demoEngine).pA0
    ∧ ((∃ kp, (_getNext (_reset demoEngine)).1 = some kp ∧ kp.schedIDX = 8)
        ↔ ∀ l, l < (_reset demoEngine).pLevels.length → Selected (_reset demoEngine) 8 l)
    ∧ ∏ l in Finset.range (_reset demoEngine).pLevels.length,
          slotVal (_reset demoEngine) 8 l / parentVal (_reset demoEngine) 8 l
        = slot (_reset demoEngine) 0 8 / (_reset demoEngine).pA0 :=
  ⟨reset_built _ demoEngine_built, reset_consistent _ demoEngine_built, by decide!,
    (getNext_inverse_cdf (_reset demoEngine) (reset_built _ demoEngine_built)
      (reset_consistent _ demoEngine_built) demo_reset_nonneg (by decide!)
      demo_reset_uniform 8).1,
    (getNext_inverse_cdf (_reset demoEngine) (reset_built _ demoEngine_built)
      (reset_consistent _ demoEngine_built) demo_reset_nonneg (by decide!)
      demo_reset_uniform 8).2.2.2⟩

/-! ## `run` (claims C8, C9 and C10) -/

theorem getNext_frame (s : Tetexact W) :
    (_getNext s).2.time = s.time ∧ (_getNext s).2.nsteps = s.nsteps
    ∧ (_getNext s).2.world = s.world ∧ (_getNext s).2.pLevels = s.pLevels
    ∧ (_getNext s).2.pA0 = s.pA0 ∧ (_getNext s).2.pKProcs = s.pKProcs
    ∧ (_getNext s).2.pIndices = s.pIndices := by
  simp only [_getNext]
  split <;> exact ⟨rfl, rfl, rfl, rfl, rfl, rfl, rfl⟩

theorem update_frame (s : Tetexact W) (entries : List Nat) :
    (_update s entries).time = s.time ∧ (_update s entries).nsteps = s.nsteps
    ∧ (_update s entries).world = s.world ∧ (_update s entries).rng = s.rng
    ∧ (_update s entries).pKProcs = s.pKProcs := by
  simp only [_update]
  split <;> exact ⟨rfl, rfl, rfl, rfl, rfl⟩

theorem executeStep_counts (s : Tetexact W) (kp : KProc W) (dt : ℚ) :
    (_executeStep s kp dt).nsteps = s.nsteps + 1
    ∧ (_executeStep s kp dt).time = s.time + dt := by
  simp only [_executeStep]
  obtain ⟨h1, h2, _⟩ := update_frame
    { s with world := (kp.apply s.world s.rng).1.1, rng := (kp.apply s.world s.rng).1.2 }
    (kp.apply s.world s.rng).2
  exact ⟨by rw [h2], by rw [h1]⟩

/-- One pass through the loop body of `run`: either it breaks, leaving time,
step counter, world, tree and `A0` as they were, or it executes one event that
fires no later than `endtime` and counts one step. -/
theorem runBody_spec (endtime : ℚ) (s : Tetexact W) :
    (∃ s1, runBody endtime s = Iter.brk s1 ∧ s1.time = s.time ∧ s1.nsteps = s.nsteps
        ∧ s1.world = s.world ∧ s1.pLevels = s.pLevels ∧ s1.pA0 = s.pA0)
    ∨ (∃ s1 ev, runBody endtime s = Iter.cont s1 ev ∧ ev.tBefore = s.time
        ∧ ev.tBefore + ev.dt ≤ endtime ∧ s1.nsteps = s.nsteps + 1
        ∧ s1.time = s.time + ev.dt) := by
  obtain ⟨g1, g2, g3, g4, g5, _⟩ := getNext_frame s
  simp only [runBody]
  split
  · exact Or.inl ⟨_, rfl, g1, g2, g3, g4, g5⟩
  · rename_i kp hk
    split
    · exact Or.inl ⟨_, rfl, g1, g2, g3, g4, g5⟩
    · split
      · exact Or.inl ⟨_, rfl, g1, g2, g3, g4, g5⟩
      · rename_i hgt
        obtain ⟨c1, c2⟩ := executeStep_counts
          { (_getNext s).2 with rng := ((_getNext s).2.rng.getExp (getA0 (_getNext s).2)).2 }
          kp ((_getNext s).2.rng.getExp (getA0 (_getNext s).2)).1
        refine Or.inr ⟨_, _, rfl, g1, ?_, ?_, ?_⟩
        · exact not_lt.mp hgt
        · rw [c1]; exact congrArg (· + 1) g2
        · rw [c2]; exact congrArg (· + _) g1

theorem runLoop_spec (endtime : ℚ) (fuel : Nat) :
    ∀ (s : Tetexact W) (r : Tetexact W × List Event), runLoop endtime fuel s = some r →
      (∀ ev, ev ∈ r.2 → ev.tBefore + ev.dt ≤ endtime)
      ∧ r.1.nsteps = s.nsteps + r.2.length := by
  induction fuel with
  | zero =>
    intro s r h
    simp only [runLoop] at h
    split at h
    · cases h
    · cases h
      exact ⟨fun ev hev => by simp at hev, rfl⟩
  | succ fuel ih =>
    intro s r h
    simp only [runLoop] at h
    split at h
    · rcases runBody_spec endtime s with ⟨s1, hb, _, hn, _⟩ | ⟨s1, ev, hb, _, hle, hn, _⟩
      · rw [hb] at h
        cases h
        exact ⟨fun ev hev => by simp at hev, by simpa using hn⟩
      · rw [hb] at h
        simp only [Option.map_eq_some'] at h
        obtain ⟨r1, hr1, hr⟩ := h
        obtain ⟨i1, i2⟩ := ih s1 r1 hr1
        rw [← hr]
        refine ⟨?_, ?_⟩
        · intro e he
          rcases List.mem_cons.mp he with he | he
          · rw [he]; exact hle
          · exact i1 e he
        · simp only [List.length_cons]
          rw [i2, hn]
          omega
    · cases h
      exact ⟨fun ev hev => by simp at hev, rfl⟩

theorem run_at_current_time (fuel : Nat) (s : Tetexact W) :
    run fuel s s.time = some ⟨RunStatus.ok, s, []⟩ := by
  have hloop : runLoop s.time fuel s = some (s, []) := by
    cases fuel <;> simp [runLoop]
  simp only [run, lt_irrefl, if_false, hloop]

/-- C8: `run(endtime)` fails with `ArgErr` exactly when `endtime` is strictly
before the current time, and then the engine (time, step count, world, tree,
generator) is unchanged and no event is applied; with `endtime` equal to the
current time it succeeds, leaves the whole engine unchanged (so no random
number is drawn) and applies no event. -/
theorem run_argErr_iff (fuel : Nat) (s : Tetexact W) (endtime : ℚ) :
    ((∃ o, run fuel s endtime = some o ∧ o.status = RunStatus.argErr) ↔ endtime < s.time)
    ∧ (endtime < s.time → run fuel s endtime = some ⟨RunStatus.argErr, s, []⟩)
    ∧ (endtime = s.time → run fuel s endtime = some ⟨RunStatus.ok, s, []⟩) := by
  have hthrow : endtime < s.time → run fuel s endtime = some ⟨RunStatus.argErr, s, []⟩ := by
    intro h; simp only [run, h, if_true]
  refine ⟨⟨?_, fun h => ⟨_, hthrow h, rfl⟩⟩, hthrow, ?_⟩
  · rintro ⟨o, ho, hs⟩
    by_contra hge
    simp only [run, hge, if_false] at ho
    split at ho
    · cases ho
    · cases ho
      cases hs
  · intro h
    subst h
    exact run_at_current_time fuel s

theorem run_ok_of_loop (fuel : Nat) (s : Tetexact W) (endtime : ℚ)
    (r : Tetexact W × List Event) (hle : ¬ endtime < s.time)
    (hloop : runLoop endtime fuel s = some r) :
    run fuel s endtime = some ⟨RunStatus.ok, { r.1 with time := endtime }, r.2⟩ := by
  simp only [run, hle, if_false, hloop]

theorem runLoop_brk (fuel : Nat) (s s1 : Tetexact W) (endtime : ℚ) (hlt : s.time < endtime)
    (hb : runBody endtime s = Iter.brk s1) :
    runLoop endtime (fuel + 1) s = some (s1, []) := by
  simp only [runLoop, hlt, if_true, hb]

/-- C9: whenever `run(endtime)` returns normally the simulation time is
exactly `endtime`. The loop's three exits all return: the time already equals
`endtime`; `A0` is zero (`_getNext` returns null); the next event's time
`t + dt` exceeds `endtime`. -/
theorem run_ends_at_endtime (fuel : Nat) (s : Tetexact W) (endtime : ℚ) :
    (∀ o, run fuel s endtime = some o → o.status = RunStatus.ok → o.state.time = endtime)
    ∧ (s.time = endtime →
        ∃ o, run fuel s endtime = some o ∧ o.status = RunStatus.ok ∧ o.state.time = endtime)
    ∧ (s.time < endtime → s.pA0 = 0 →
        ∃ o, run (fuel + 1) s endtime = some o ∧ o.status = RunStatus.ok
          ∧ o.state.time = endtime)
    ∧ (s.time < endtime → ∀ kp, (_getNext s).1 = some kp → getA0 (_getNext s).2 ≠ 0 →
        (_getNext s).2.time + ((_getNext s).2.rng.getExp (getA0 (_getNext s).2)).1 > endtime →
        ∃ o, run (fuel + 1) s endtime = some o ∧ o.status = RunStatus.ok
          ∧ o.state.time = endtime) := by
  refine ⟨?_, ?_, ?_, ?_⟩
  · intro o ho hok
    simp only [run] at ho
    split at ho
    · cases ho
      cases hok
    · split at ho
      · cases ho
      · cases ho
        rfl
  · intro h
    subst h
    exact ⟨_, run_at_current_time fuel s, rfl, rfl⟩
  · intro hlt h0
    have hb : runBody endtime s = Iter.brk s := by
      simp only [runBody, _getNext, h0, if_true]
    exact ⟨_, run_ok_of_loop _ _ _ _ (not_lt.mpr (le_of_lt hlt)) (runLoop_brk fuel s s endtime hlt hb),
      rfl, rfl⟩
  · intro hlt kp hk ha hgt
    have hb : runBody endtime s = Iter.brk
        { (_getNext s).2 with rng := ((_getNext s).2.rng.getExp (getA0 (_getNext s).2)).2 } := by
      simp only [runBody, hk, ha, if_false, hgt, if_true]
    exact ⟨_, run_ok_of_loop _ _ _ _ (not_lt.mpr (le_of_lt hlt)) (runLoop_brk fuel s _ endtime hlt hb),
      rfl, rfl⟩

theorem run_ends_at_endtime_witness :
    (run 10 (_reset demoEngine) (1 / 4)).map
        (fun o => (o.status, o.state.time, o.state.nsteps, o.events.length))
      = some (RunStatus.ok, 1 / 4, 3, 3)
    ∧ ∀ o, run 10 (_reset demoEngine) (1 / 4) = some o → o.status = RunStatus.ok →
        o.state.time = 1 / 4 :=
  ⟨by decide!, (run_ends_at_endtime 10 (_reset demoEngine) (1 / 4)).1⟩

/-- C10: `run(endtime)` never applies an event that would fire after
`endtime`. For every event executed, the time before it plus its `dt` is at
most `endtime`, and the step counter grows by exactly the number of events
executed. An event whose `t + dt` exceeds `endtime` ends the loop with the
world, the tree, `A0`, the scratch buffer, the time and the step counter as
they were before it: neither `apply` nor `_update` ran. -/
theorem run_applies_no_late_event (fuel : Nat) (s : Tetexact W) (endtime : ℚ) :
    (∀ o, run fuel s endtime = some o →
        (∀ ev, ev ∈ o.events → ev.tBefore + ev.dt ≤ endtime)
        ∧ o.state.nsteps = s.nsteps + o.events.length)
    ∧ (∀ kp, (_getNext s).1 = some kp → getA0 (_getNext s).2 ≠ 0 →
        (_getNext s).2.time + ((_getNext s).2.rng.getExp (getA0 (_getNext s).2)).1 > endtime →
        ∃ s1, runBody endtime s = Iter.brk s1 ∧ s1.world = s.world ∧ s1.pLevels = s.pLevels
          ∧ s1.pA0 = s.pA0 ∧ s1.pIndices = s.pIndices ∧ s1.time = s.time
          ∧ s1.nsteps = s.nsteps) := by
  refine ⟨?_, ?_⟩
  · intro o ho
    simp only [run] at ho
    split at ho
    · cases ho
      exact ⟨fun ev hev => by simp at hev, rfl⟩
    · split at ho
      · cases ho
      · rename_i r hr
        cases ho
        exact runLoop_spec endtime fuel s r hr
  · intro kp hk ha hgt
    obtain ⟨g1, g2, g3, g4, g5, _, g7⟩ := getNext_frame s
    refine ⟨{ (_getNext s).2 with
      rng := ((_getNext s).2.rng.getExp (getA0 (_getNext s).2)).2 }, ?_, g3, g4, g5, g7, g1, g2⟩
    simp only [runBody, hk, ha, if_false, hgt, if_true]

theorem run_applies_no_late_event_witness :
    (run 10 (_reset demoEngine) (1 / 4)).map (fun o => o.events)
      = some [⟨8, 0, 1 / 16⟩, ⟨8, 1 / 16, 1 / 15⟩, ⟨7, 31 / 240, 1 / 14⟩]
    ∧ ∀ o, run 10 (_reset demoEngine) (1 / 4) = some o →
        (∀ ev, ev ∈ o.events → ev.tBefore + ev.dt ≤ 1 / 4)
        ∧ o.state.nsteps = (_reset demoEngine).nsteps + o.events.length :=
  ⟨by decide!, (run_applies_no_late_event 10 (_reset demoEngine) (1 / 4)).1⟩


theorem run_argErr_iff_witness :
    (run 3 (_reset demoEngine) (-1)).map
        (fun o => (o.status, o.state.time, o.state.nsteps, o.state.rng.pos, o.events.length))
      = some (RunStatus.argErr, 0, 0, 0, 0)
    ∧ ((∃ o, run 3 (_reset demoEngine) (-1) = some o ∧ o.status = RunStatus.argErr)
        ↔ (-1 : ℚ) < (_reset demoEngine).time) :=
  ⟨by decide!, (run_argErr_iff 3 (_reset demoEngine) (-1)).1⟩

/-! ## The shape `_build` produces (claims C19 and C20) -/

/-- The levels `_build` appends, for a start size that does not wrap: the
first has the rounded start size, each next one the rounded sixteenth of the
one before, and their number is the least `h ≥ 1` with `16 ^ h ≥ c`. The
result does not depend on the iteration bound once it is at least `c`. -/
theorem buildLoop_chain (fuel : Nat) : ∀ (c : Nat), 1 ≤ c → c + 15 < UINTMOD → c ≤ fuel →
    ∀ (sizes : List Nat) (levels : List (List ℚ)),
    ∃ new : List Nat, 1 ≤ new.length
      ∧ buildLoop fuel c (sizes, levels)
          = (sizes ++ new, levels ++ new.map (fun n => List.replicate n (0 : ℚ)))
      ∧ buildLoop c c (sizes, levels)
          = (sizes ++ new, levels ++ new.map (fun n => List.replicate n (0 : ℚ)))
      ∧ new.getD 0 0 = roundUpWidth c
      ∧ (∀ k, k + 1 < new.length →
          new.getD (k + 1) 0 = roundUpWidth (new.getD k 0 / SCHEDULEWIDTH))
      ∧ (∀ k, k < new.length → new.getD k 0 + 15 < UINTMOD)
      ∧ c ≤ SCHEDULEWIDTH ^ new.length
      ∧ (new.length = 1 ∨ SCHEDULEWIDTH ^ (new.length - 1) < c) := by
  induction fuel using Nat.strong_induction_on with
  | _ fuel ih =>
    intro c hc hb hf sizes levels
    obtain ⟨hd, hle, hlt⟩ := roundUpWidth_spec c hb
    obtain ⟨f, rfl⟩ : ∃ f, fuel = f + 1 := ⟨fuel - 1, by omega⟩
    obtain ⟨c', hc'⟩ : ∃ c', c = c' + 1 := ⟨c - 1, by omega⟩
    by_cases h2 : roundUpWidth c / SCHEDULEWIDTH > 1
    · have hc2 : roundUpWidth c / SCHEDULEWIDTH ≤ c' := by
        simp only [SCHEDULEWIDTH] at *; omega
      obtain ⟨new, hn1, hn2, hn3, hn4, hn5, hn6, hn7, hn8⟩ :=
        ih f (by omega) (roundUpWidth c / SCHEDULEWIDTH)
          (by omega) (by simp only [SCHEDULEWIDTH, UINTMOD] at *; omega) (by omega)
          (sizes ++ [roundUpWidth c]) (levels ++ [List.replicate (roundUpWidth c) 0])
      obtain ⟨new', hm1, hm2, hm3, hm4, hm5, hm6, hm7, hm8⟩ :=
        ih c' (by omega) (roundUpWidth c / SCHEDULEWIDTH)
          (by omega) (by simp only [SCHEDULEWIDTH, UINTMOD] at *; omega) hc2
          (sizes ++ [roundUpWidth c]) (levels ++ [List.replicate (roundUpWidth c) 0])
      have hsame : new' = new := by
        have := hn3.symm.trans hm3
        simpa using (congrArg Prod.fst this).symm
      subst hsame
      refine ⟨roundUpWidth c :: new', by simp, ?_, ?_, by simp, ?_, ?_, ?_, ?_⟩
      · simp only [buildLoop, h2, if_true]
        rw [hn2]; simp
      · rw [hc']
        simp only [buildLoop]
        rw [← hc']
        simp only [h2, if_true]
        rw [hm2]; simp
      · intro k hk
        cases k with
        | zero => simpa using hn4
        | succ k => simpa using hn5 k (by simpa using hk)
      · intro k hk
        cases k with
        | zero => simp only [List.getD_cons_zero, SCHEDULEWIDTH, UINTMOD] at *; omega
        | succ k => simpa using hn6 k (by simpa using hk)
      · simp only [List.length_cons, pow_succ]
        have : c ≤ SCHEDULEWIDTH * (roundUpWidth c / SCHEDULEWIDTH) := by
          obtain ⟨q, hq⟩ := hd
          rw [hq, Nat.mul_div_cancel_left q (by decide : 0 < SCHEDULEWIDTH), ← hq]
          exact hle
        calc c ≤ SCHEDULEWIDTH * (roundUpWidth c / SCHEDULEWIDTH) := this
          _ ≤ SCHEDULEWIDTH * SCHEDULEWIDTH ^ new'.length := Nat.mul_le_mul_left _ hn7
          _ = SCHEDULEWIDTH ^ new'.length * SCHEDULEWIDTH := Nat.mul_comm _ _
      · right
        simp only [List.length_cons, Nat.add_sub_cancel]
        rcases hn8 with h1 | h1
        · rw [h1]
          simp only [SCHEDULEWIDTH] at *
          omega
        · obtain ⟨m, hm⟩ : ∃ m, new'.length = m + 1 := ⟨new'.length - 1, by omega⟩
          rw [hm] at h1 ⊢
          simp only [Nat.add_sub_cancel] at h1
          rw [pow_succ]
          have : SCHEDULEWIDTH ^ m * SCHEDULEWIDTH < c := by
            have h3 : SCHEDULEWIDTH ^ m + 1 ≤ roundUpWidth c / SCHEDULEWIDTH := h1
            have h4 : roundUpWidth c < c + SCHEDULEWIDTH := hlt
            have h5 := Nat.div_mul_le_self (roundUpWidth c) SCHEDULEWIDTH
            have h6 := Nat.mul_le_mul_right SCHEDULEWIDTH h3
            simp only [SCHEDULEWIDTH] at *
            omega
          exact this
    · have hr : roundUpWidth c = SCHEDULEWIDTH := by
        obtain ⟨q, hq⟩ := hd
        rw [hq, Nat.mul_div_cancel_left q (by decide : 0 < SCHEDULEWIDTH)] at h2
        simp only [SCHEDULEWIDTH] at *
        omega
      refine ⟨[roundUpWidth c], by simp, ?_, ?_, by simp, by simp, ?_, ?_, Or.inl rfl⟩
      · simp only [buildLoop, h2, if_false, List.map_cons, List.map_nil]
      · rw [hc']
        simp only [buildLoop]
        rw [← hc']
        simp only [h2, if_false, List.map_cons, List.map_nil]
      · intro k hk
        have : k = 0 := by simpa using hk
        subst this
        simp only [List.getD_cons_zero, hr, SCHEDULEWIDTH, UINTMOD]
        omega
      · simp only [List.length_singleton, pow_one]
        rw [← hr]; exact hle

theorem roundUpWidth_wrap (c : Nat) (hc : c < UINTMOD) (hb : ¬ c + 15 < UINTMOD) :
    roundUpWidth c = 0 := by
  simp only [roundUpWidth, SCHEDULEWIDTH, UINTMOD] at *
  have : c % 16 ≠ 0 := by omega
  rw [if_pos this]
  omega

/-- What `_build` leaves in an engine that had no level yet and `c ≥ 1`
KProcs (after the conversion to `uint`): the sizes appended, with the levels
all zero. -/
theorem build_levels_eq (s : Tetexact W) (hL : s.pLevels = []) (hS : s.pLevelSizes = [])
    (hne : s.pKProcs.length % UINTMOD ≠ 0) :
    (_build s).pLevels = (_build s).pLevelSizes.map (fun n => List.replicate n (0 : ℚ))
    ∧ (_build s).pLevelSizes
        = (buildLoop (s.pKProcs.length % UINTMOD) (s.pKProcs.length % UINTMOD) ([], [])).1
    ∧ ((s.pKProcs.length % UINTMOD) + 15 < UINTMOD →
        1 ≤ (_build s).pLevelSizes.length
        ∧ (_build s).pLevelSizes.getD 0 0 = roundUpWidth (s.pKProcs.length % UINTMOD)
        ∧ (∀ k, k + 1 < (_build s).pLevelSizes.length →
            (_build s).pLevelSizes.getD (k + 1) 0
              = roundUpWidth ((_build s).pLevelSizes.getD k 0 / SCHEDULEWIDTH))
        ∧ (∀ k, k < (_build s).pLevelSizes.length →
            (_build s).pLevelSizes.getD k 0 + 15 < UINTMOD)
        ∧ s.pKProcs.length % UINTMOD ≤ SCHEDULEWIDTH ^ (_build s).pLevelSizes.length
        ∧ ((_build s).pLevelSizes.length = 1
            ∨ SCHEDULEWIDTH ^ ((_build s).pLevelSizes.length - 1) < s.pKProcs.length % UINTMOD)
        ∧ ∀ fuel, s.pKProcs.length % UINTMOD ≤ fuel →
            buildLoop fuel (s.pKProcs.length % UINTMOD) ([], [])
              = ((_build s).pLevelSizes, (_build s).pLevels))
    ∧ (¬ (s.pKProcs.length % UINTMOD) + 15 < UINTMOD → (_build s).pLevelSizes = [0]) := by
  generalize hcdef : s.pKProcs.length % UINTMOD = c at *
  have hclt : c < UINTMOD := by rw [← hcdef]; exact Nat.mod_lt _ (by decide)
  have hP : (_build s).pLevels = (buildLoop c c ([], [])).2 := by
    simp only [_build, hcdef, hne, if_false, hL, hS]
  have hZ : (_build s).pLevelSizes = (buildLoop c c ([], [])).1 := by
    simp only [_build, hcdef, hne, if_false, hL, hS]
  by_cases hb : c + 15 < UINTMOD
  · obtain ⟨new, hn1, hn2, hn3, hn4, hn5, hn6, hn7, hn8⟩ :=
      buildLoop_chain c c (by omega) hb (le_refl _) [] []
    simp only [List.nil_append] at hn2 hn3
    rw [hn2] at hP hZ
    simp only at hP hZ
    refine ⟨by rw [hP, hZ], by rw [hZ, hn2], fun _ => ?_, fun h => absurd hb h⟩
    rw [hZ, hP]
    refine ⟨hn1, hn4, hn5, hn6, hn7, hn8, ?_⟩
    intro fuel hf
    obtain ⟨new', _, hm2, hm3, _⟩ := buildLoop_chain fuel c (by omega) hb hf [] []
    simp only [List.nil_append] at hm2 hm3
    rw [hm2, ← hm3, hn3]
  · have hw := roundUpWidth_wrap c hclt hb
    obtain ⟨c', hc'⟩ : ∃ c', c = c' + 1 := ⟨c - 1, by omega⟩
    have hloop : buildLoop c c ([], []) = ([0], [[]]) := by
      rw [hc']
      simp only [buildLoop]
      rw [← hc', hw]
      simp
    rw [hloop] at hP hZ
    simp only at hP hZ
    exact ⟨by rw [hP, hZ]; rfl, by rw [hZ, hloop], fun h => absurd h hb, fun _ => hZ⟩

theorem setupEngine_pre (w : W) (r : RNG) (kps : List (KProc W)) :
    (kps.foldl addKProc (Tetexact.init w r)).pKProcs.length = kps.length
    ∧ (kps.foldl addKProc (Tetexact.init w r)).pLevels = []
    ∧ (kps.foldl addKProc (Tetexact.init w r)).pLevelSizes = [] := by
  obtain ⟨_, h2, h3, h4⟩ := foldl_addKProc kps (Tetexact.init w r)
    (by intro i k hk; simp [Tetexact.init] at hk)
  exact ⟨by rw [h2]; simp [Tetexact.init], by rw [h3]; rfl, by rw [h4]; rfl⟩

theorem levelSize_of_sizes (s : Tetexact W)
    (h : s.pLevels = s.pLevelSizes.map (fun n => List.replicate n (0 : ℚ))) (l : Nat) :
    levelSize s l = s.pLevelSizes.getD l 0 := by
  simp only [levelSize]
  rw [h]
  simp only [List.getD_eq_getElem?_getD, List.getElem?_map]
  cases s.pLevelSizes[l]? <;> simp

/-- C19, counterexample: with 17 KProcs level 0 has 32 slots and level 1 has
16, not `ceil(32 / 16) = 2`. -/
theorem build_level_ceil_counterexample :
    ¬ (∀ k, 1 ≤ k → k < demoEngine.pLevels.length →
        levelSize demoEngine k = (levelSize demoEngine (k - 1) + 15) / 16) :=
  fun h => absurd (h 1 (le_refl 1) (by decide!)) (by decide!)

/-- C19, amended: for every number of KProcs and every level
`k ≥ 1` of the tree `_build` makes, `|L[k]|` is the least multiple of 16 that
is at least `ceil(|L[k-1]| / 16)`: each level is padded to a multiple of the
width, as level 0 is. -/
theorem build_level_sizes (w : W) (r : RNG) (kps : List (KProc W)) :
    ∀ k, 1 ≤ k → k < (setupEngine w r kps).pLevels.length →
      16 ∣ levelSize (setupEngine w r kps) k
      ∧ (levelSize (setupEngine w r kps) (k - 1) + 15) / 16 ≤ levelSize (setupEngine w r kps) k
      ∧ levelSize (setupEngine w r kps) k
          < (levelSize (setupEngine w r kps) (k - 1) + 15) / 16 + 16 := by
  obtain ⟨p1, p2, p3⟩ := setupEngine_pre w r kps
  intro k hk1 hk2
  simp only [setupEngine] at hk2 ⊢
  generalize kps.foldl addKProc (Tetexact.init w r) = s at *
  by_cases hne : s.pKProcs.length % UINTMOD = 0
  · have : _build s = s := by simp only [_build, hne, if_true]
    rw [this, p2] at hk2
    simp at hk2
  · obtain ⟨b1, _, b3, b4⟩ := build_levels_eq s p2 p3 hne
    have hlen : (_build s).pLevels.length = (_build s).pLevelSizes.length := by
      rw [b1]; simp
    rw [hlen] at hk2
    by_cases hb : s.pKProcs.length % UINTMOD + 15 < UINTMOD
    · obtain ⟨_, c2, c3, c4, _⟩ := b3 hb
      obtain ⟨j, rfl⟩ : ∃ j, k = j + 1 := ⟨k - 1, by omega⟩
      simp only [Nat.add_sub_cancel]
      rw [levelSize_of_sizes _ b1, levelSize_of_sizes _ b1, c3 j hk2]
      have hdiv : SCHEDULEWIDTH ∣ (_build s).pLevelSizes.getD j 0 := by
        cases j with
        | zero => rw [c2]; exact (roundUpWidth_spec _ hb).1
        | succ i =>
          rw [c3 i (by omega)]
          apply (roundUpWidth_spec _ _).1
          have := c4 i (by omega)
          simp only [SCHEDULEWIDTH, UINTMOD] at *
          omega
      have hbound := c4 j (by omega)
      obtain ⟨q, hq⟩ := hdiv
      obtain ⟨r1, r2, r3⟩ := roundUpWidth_spec ((_build s).pLevelSizes.getD j 0 / SCHEDULEWIDTH)
        (by simp only [SCHEDULEWIDTH, UINTMOD] at *; omega)
      have hceil : ((_build s).pLevelSizes.getD j 0 + 15) / 16
          = (_build s).pLevelSizes.getD j 0 / SCHEDULEWIDTH := by
        simp only [SCHEDULEWIDTH] at *
        omega
      rw [hceil]
      exact ⟨r1, r2, r3⟩
    · rw [b4 hb] at hk2
      simp at hk2
      omega

theorem build_level_sizes_witness :
    1 ≤ demoKProcs.length
    ∧ levelSize demoEngine 0 = 32 ∧ levelSize demoEngine 1 = 16
    ∧ (16 ∣ levelSize demoEngine 1
      ∧ (levelSize demoEngine (1 - 1) + 15) / 16 ≤ levelSize demoEngine 1
      ∧ levelSize demoEngine 1 < (levelSize demoEngine (1 - 1) + 15) / 16 + 16) :=
  ⟨by decide, by decide!, by decide!,
    build_level_sizes demoWorld demoRNG demoKProcs 1 (le_refl 1) (by decide!)⟩

/-- C20: for `N ≥ 1` KProcs with `N + 15 < 2^32`, `_build` terminates (every
iteration bound of at least `N` gives the same levels), the levels are all
zero, `|L[0]|` is the least multiple of 16 that is `≥ N`, the top level has at
most 16 slots, and the number of levels is the least `h ≥ 1` with
`16 ^ h ≥ N`. For `N = 0` it builds no level and leaves `A0 = 0`; `_reset` and
`_update` then change nothing and `_getNext` returns null. -/
theorem build_shape (w : W) (r : RNG) (kps : List (KProc W)) :
    (1 ≤ kps.length → kps.length + 15 < UINTMOD →
      (∀ fuel, kps.length ≤ fuel →
        buildLoop fuel kps.length ([], [])
          = ((setupEngine w r kps).pLevelSizes, (setupEngine w r kps).pLevels))
      ∧ (setupEngine w r kps).pLevels
          = (setupEngine w r kps).pLevelSizes.map (fun n => List.replicate n (0 : ℚ))
      ∧ (16 ∣ levelSize (setupEngine w r kps) 0
          ∧ kps.length ≤ levelSize (setupEngine w r kps) 0
          ∧ levelSize (setupEngine w r kps) 0 < kps.length + 16)
      ∧ levelSize (setupEngine w r kps) ((setupEngine w r kps).pLevels.length - 1) ≤ 16
      ∧ (1 ≤ (setupEngine w r kps).pLevels.length
          ∧ kps.length ≤ 16 ^ (setupEngine w r kps).pLevels.length
          ∧ ∀ h, 1 ≤ h → kps.length ≤ 16 ^ h → (setupEngine w r kps).pLevels.length ≤ h))
    ∧ (kps.length = 0 →
        (setupEngine w r kps).pLevels = [] ∧ (setupEngine w r kps).pA0 = 0
        ∧ _reset (setupEngine w r kps) = setupEngine w r kps
        ∧ (∀ entries, _update (setupEngine w r kps) entries = setupEngine w r kps)
        ∧ _getNext (setupEngine w r kps) = (none, setupEngine w r kps)) := by
  obtain ⟨p1, p2, p3⟩ := setupEngine_pre w r kps
  refine ⟨?_, ?_⟩
  · intro hN hb
    have hbuilt := setupEngine_built w r kps hN hb
    simp only [setupEngine] at hbuilt ⊢
    generalize kps.foldl addKProc (Tetexact.init w r) = s at *
    have hmod : s.pKProcs.length % UINTMOD = kps.length := by
      rw [p1]; exact Nat.mod_eq_of_lt (by omega)
    obtain ⟨b1, _, b3, _⟩ := build_levels_eq s p2 p3 (by rw [hmod]; omega)
    rw [hmod] at b3
    obtain ⟨c1, c2, _, _, c5, c6, c7⟩ := b3 hb
    have hlen : (_build s).pLevels.length = (_build s).pLevelSizes.length := by
      rw [b1]; simp
    obtain ⟨r1, r2, r3⟩ := roundUpWidth_spec kps.length hb
    refine ⟨c7, b1, ?_, ?_, ?_⟩
    · rw [levelSize_of_sizes _ b1, c2]
      exact ⟨r1, r2, r3⟩
    · rw [hbuilt.top]
    · rw [hlen]
      refine ⟨c1, c5, ?_⟩
      intro h h1 hle
      rcases c6 with c6 | c6
      · omega
      · by_contra hlt
        have h2 : h ≤ (_build s).pLevelSizes.length - 1 := by omega
        have := Nat.pow_le_pow_right (by decide : 0 < 16) h2
        simp only [SCHEDULEWIDTH] at c6
        omega
  · intro h0
    have hs : setupEngine w r kps = Tetexact.init w r := by
      have : kps = [] := List.length_eq_zero.mp h0
      subst this
      simp [setupEngine, _build, Tetexact.init]
    rw [hs]
    refine ⟨rfl, rfl, ?_, ?_, ?_⟩
    · simp [_reset, Tetexact.init]
    · intro entries; simp [_update, countKProcs, Tetexact.init]
    · simp [_getNext, Tetexact.init]

theorem build_shape_witness :
    demoEngine.pLevelSizes = [32, 16]
    ∧ (1 ≤ demoEngine.pLevels.length
        ∧ demoKProcs.length ≤ 16 ^ demoEngine.pLevels.length
        ∧ ∀ h, 1 ≤ h → demoKProcs.length ≤ 16 ^ h → demoEngine.pLevels.length ≤ h) :=
  ⟨by decide!,
    ((build_shape demoWorld demoRNG demoKProcs).1 (by decide) (by decide)).2.2.2.2⟩

/-! ## `step` and the order of the random draws (claims C11 and C12) -/

theorem getNext_rng (s : Tetexact W) (hA : s.pA0 ≠ 0) :
    (_getNext s).2.rng = { s.rng with pos := s.rng.pos + s.pLevels.length }
    ∧ (∀ l, l < s.pLevels.length → l < s.pRannum.length →
        (_getNext s).2.pRannum.getD l 0 = s.rng.unf (s.rng.pos + l)) := by
  obtain ⟨d1, d2, d3⟩ := drawRannum_spec s.pLevels.length s.rng s.pRannum
  simp only [_getNext, hA, if_false]
  refine ⟨d1, ?_⟩
  intro l hl hr
  rw [d3 l, if_pos ⟨hl, hr⟩]

/-- What `step` does once `_getNext` has returned a KProc and `A0` is not
zero: the `dt` is the draw right after the selection draws, and `apply` runs
on the generator right after that. -/
theorem step_eq (s : Tetexact W) (hA : s.pA0 ≠ 0) (kp : KProc W)
    (hk : (_getNext s).1 = some kp) :
    step s = _executeStep
      { (_getNext s).2 with rng := { s.rng with pos := s.rng.pos + s.pLevels.length + 1 } }
      kp (s.rng.expo (s.rng.pos + s.pLevels.length) s.pA0) := by
  obtain ⟨g1, _⟩ := getNext_rng s hA
  obtain ⟨_, _, _, _, g5, _⟩ := getNext_frame s
  simp only [step, hk, getA0, g5, hA, if_false, RNG.getExp, g1]

theorem runBody_eq (endtime : ℚ) (s : Tetexact W) (hA : s.pA0 ≠ 0) (kp : KProc W)
    (hk : (_getNext s).1 = some kp) :
    runBody endtime s =
      if s.time + s.rng.expo (s.rng.pos + s.pLevels.length) s.pA0 > endtime then
        Iter.brk { (_getNext s).2 with
          rng := { s.rng with pos := s.rng.pos + s.pLevels.length + 1 } }
      else
        Iter.cont
          (_executeStep { (_getNext s).2 with
              rng := { s.rng with pos := s.rng.pos + s.pLevels.length + 1 } }
            kp (s.rng.expo (s.rng.pos + s.pLevels.length) s.pA0))
          ⟨kp.schedIDX, s.time, s.rng.expo (s.rng.pos + s.pLevels.length) s.pA0⟩ := by
  obtain ⟨g1, _⟩ := getNext_rng s hA
  obtain ⟨gt, _, _, _, g5, _⟩ := getNext_frame s
  simp only [runBody, hk, getA0, g5, hA, if_false, RNG.getExp, g1, gt]

theorem executeStep_eq (s : Tetexact W) (kp : KProc W) (dt : ℚ) :
    _executeStep s kp dt =
      { (_update { s with world := (kp.apply s.world s.rng).1.1,
                          rng := (kp.apply s.world s.rng).1.2 } (kp.apply s.world s.rng).2) with
        time := s.time + dt, nsteps := s.nsteps + 1 } := by
  obtain ⟨h1, h2, _⟩ := update_frame
    { s with world := (kp.apply s.world s.rng).1.1, rng := (kp.apply s.world s.rng).1.2 }
    (kp.apply s.world s.rng).2
  simp only [_executeStep, h1, h2]

/-- C11: `step()` performs exactly one event when `A0 > 0` and is a no-op when
`A0 == 0`. On a built, consistent engine with non-negative rates and uniforms
in `[0,1)`: with `A0 > 0`, `_getNext` returns a KProc, the engine after `step`
is the one obtained by calling that KProc's `apply` once, then `_update` with
the vector `apply` returned, then adding the drawn `dt` to the time and one to
the step counter; with `A0 == 0` the engine (time, step counter, world, tree,
generator) is unchanged. -/
theorem step_one_event (s : Tetexact W) (h : Built s) (hc : Consistent s)
    (hnn : ∀ i, 0 ≤ slot s 0 i)
    (hu : ∀ l, l < s.pLevels.length → 0 ≤ uniformAt s l ∧ uniformAt s l < 1) :
    (0 < s.pA0 → ∃ kp, (_getNext s).1 = some kp
      ∧ step s =
        { (_update
            { (_getNext s).2 with
              world := (kp.apply s.world
                { s.rng with pos := s.rng.pos + s.pLevels.length + 1 }).1.1
              rng := (kp.apply s.world
                { s.rng with pos := s.rng.pos + s.pLevels.length + 1 }).1.2 }
            (kp.apply s.world { s.rng with pos := s.rng.pos + s.pLevels.length + 1 }).2) with
          time := s.time + s.rng.expo (s.rng.pos + s.pLevels.length) s.pA0
          nsteps := s.nsteps + 1 }
      ∧ (step s).nsteps = s.nsteps + 1
      ∧ (step s).time = s.time + s.rng.expo (s.rng.pos + s.pLevels.length) s.pA0)
    ∧ (s.pA0 = 0 → step s = s) := by
  refine ⟨?_, ?_⟩
  · intro hA
    obtain ⟨R, k, kp, e1, _⟩ := getNext_walk s h hc hnn hA hu
    have hk : (_getNext s).1 = some kp := by rw [e1]
    obtain ⟨gt, gn, gw, _⟩ := getNext_frame s
    have hs := step_eq s (ne_of_gt hA) kp hk
    obtain ⟨c1, c2⟩ := executeStep_counts
      { (_getNext s).2 with rng := { s.rng with pos := s.rng.pos + s.pLevels.length + 1 } }
      kp (s.rng.expo (s.rng.pos + s.pLevels.length) s.pA0)
    refine ⟨kp, hk, ?_, ?_, ?_⟩
    · rw [hs, executeStep_eq]
      simp only [gt, gn, gw]
    · rw [hs, c1]; exact congrArg (· + 1) gn
    · rw [hs, c2]; exact congrArg (· + _) gt
  · intro h0
    simp only [step, _getNext, h0, if_true]

theorem step_one_event_witness :
    Built (_reset demoEngine) ∧ Consistent (_reset demoEngine)
    ∧ ((step (_reset demoEngine)).nsteps, (step (_reset demoEngine)).time,
        (step (_reset demoEngine)).pA0, (step (_reset demoEngine)).rng.pos) = (1, 1 / 16, 15, 3)
    ∧ 0 < (_reset demoEngine).pA0
    ∧ (step (_reset demoEngine)).nsteps = (_reset demoEngine).nsteps + 1 :=
  ⟨reset_built _ demoEngine_built, reset_consistent _ demoEngine_built, by decide!, by decide!,
    let ⟨_, _, _, hn, _⟩ := (step_one_event (_reset demoEngine) (reset_built _ demoEngine_built)
      (reset_consistent _ demoEngine_built) demo_reset_nonneg demo_reset_uniform).1 (by decide!)
    hn⟩

/-- C12, counterexample: on the seventeen-process engine with the
position-revealing generator (two levels, so selection takes two uniforms),
the `dt` that `step` adds to the time is not the first draw of the event (which
would give `1`) but the draw at position `2`, after the two selection
uniforms (which gives `3`); `run` does the same. -/
theorem step_dt_first_counterexample :
    ¬ ((step posEngine).time = posEngine.time + (posEngine.rng.getExp posEngine.pA0).1)
    ∧ (step posEngine).time = posEngine.time + posEngine.rng.expo (posEngine.rng.pos + 2) posEngine.pA0
    ∧ ((run 10 posEngine 4).map fun o => o.events.map fun e => e.dt) = some [3] := by
  decide!

/-- C12, amended: within each event of `step()` and of `run()` (with `A0`
not zero and a KProc returned by `_getNext`) the generator is consulted first
exactly `H+1` times for the selection (one uniform per level, level `l` reading
draw number `l` of the event), then once for `dt` (draw number `H+1`), and only
then by the chosen KProc's `apply` (which starts at draw number `H+2`). -/
theorem rng_selection_then_dt_then_apply (s : Tetexact W) (hA : s.pA0 ≠ 0) (kp : KProc W)
    (hk : (_getNext s).1 = some kp) :
    (_getNext s).2.rng = { s.rng with pos := s.rng.pos + s.pLevels.length }
    ∧ (∀ l, l < s.pLevels.length → l < s.pRannum.length →
        (_getNext s).2.pRannum.getD l 0 = s.rng.unf (s.rng.pos + l))
    ∧ step s =
        { (_update
            { (_getNext s).2 with
              world := (kp.apply s.world
                { s.rng with pos := s.rng.pos + s.pLevels.length + 1 }).1.1
              rng := (kp.apply s.world
                { s.rng with pos := s.rng.pos + s.pLevels.length + 1 }).1.2 }
            (kp.apply s.world { s.rng with pos := s.rng.pos + s.pLevels.length + 1 }).2) with
          time := s.time + s.rng.expo (s.rng.pos + s.pLevels.length) s.pA0
          nsteps := s.nsteps + 1 }
    ∧ ∀ endtime, runBody endtime s =
        if s.time + s.rng.expo (s.rng.pos + s.pLevels.length) s.pA0 > endtime then
          Iter.brk { (_getNext s).2 with
            rng := { s.rng with pos := s.rng.pos + s.pLevels.length + 1 } }
        else
          Iter.cont
            { (_update
                { (_getNext s).2 with
                  world := (kp.apply s.world
                    { s.rng with pos := s.rng.pos + s.pLevels.length + 1 }).1.1
                  rng := (kp.apply s.world
                    { s.rng with pos := s.rng.pos + s.pLevels.length + 1 }).1.2 }
                (kp.apply s.world
                  { s.rng with pos := s.rng.pos + s.pLevels.length + 1 }).2) with
              time := s.time + s.rng.expo (s.rng.pos + s.pLevels.length) s.pA0
              nsteps := s.nsteps + 1 }
            ⟨kp.schedIDX, s.time, s.rng.expo (s.rng.pos + s.pLevels.length) s.pA0⟩ := by
  obtain ⟨g1, g2⟩ := getNext_rng s hA
  obtain ⟨gt, gn, gw, _⟩ := getNext_frame s
  refine ⟨g1, g2, ?_, ?_⟩
  · rw [step_eq s hA kp hk, executeStep_eq]
    simp only [gt, gn, gw]
  · intro endtime
    rw [runBody_eq endtime s hA kp hk, executeStep_eq]
    simp only [gt, gn, gw]

theorem rng_selection_then_dt_then_apply_witness :
    posEngine.pA0 ≠ 0
    ∧ ∃ kp, (_getNext posEngine).1 = some kp ∧ kp.schedIDX = 8
      ∧ (_getNext posEngine).2.rng
          = { posEngine.rng with pos := posEngine.rng.pos + posEngine.pLevels.length }
      ∧ (step posEngine).time = 3 := by
  have hs : (_getNext posEngine).1.isSome = true := by decide!
  obtain ⟨kp, h⟩ := Option.isSome_iff_exists.1 hs
  have h8 : ((_getNext posEngine).1.map fun k => k.schedIDX) = some 8 := by decide!
  have h9 : (some kp).map (fun k => k.schedIDX) = some 8 := h ▸ h8
  exact ⟨by decide!, kp, h, Option.some.inj h9,
    (rng_selection_then_dt_then_apply posEngine (by decide!) kp h).1, by decide!⟩


/-! ## The unsupported operations (claim C18) -/

/-- C18: the unsupported operations fail with `NotImplErr` for every argument
and leave the engine as it was: `saveState`, `_getCompReacK`, `_setCompReacK`,
`_getCompDiffD`, `_setCompDiffD`, `_getPatchSReacK`, `_setPatchSReacK`,
`_setTetVol`, `_getTetReacK`, `_setTetReacK`, `_getTetDiffD`, `_setTetDiffD`,
`_setTriArea`, `_getTriSReacK` and `_setTriSReacK`. -/
theorem unsupported_operations_throw (s : Tetexact W) :
    (∀ filename, saveState s filename = (Err.NotImplErr, s))
    ∧ (∀ cidx ridx, _getCompReacK s cidx ridx = (Err.NotImplErr, s))
    ∧ (∀ cidx ridx kf, _setCompReacK s cidx ridx kf = (Err.NotImplErr, s))
    ∧ (∀ cidx didx, _getCompDiffD s cidx didx = (Err.NotImplErr, s))
    ∧ (∀ cidx didx, _setCompDiffD s cidx didx = (Err.NotImplErr, s))
    ∧ (∀ pidx ridx, _getPatchSReacK s pidx ridx = (Err.NotImplErr, s))
    ∧ (∀ pidx ridx kf, _setPatchSReacK s pidx ridx kf = (Err.NotImplErr, s))
    ∧ (∀ tidx vol, _setTetVol s tidx vol = (Err.NotImplErr, s))
    ∧ (∀ tidx ridx, _getTetReacK s tidx ridx = (Err.NotImplErr, s))
    ∧ (∀ tidx ridx kf, _setTetReacK s tidx ridx kf = (Err.NotImplErr, s))
    ∧ (∀ tidx didx, _getTetDiffD s tidx didx = (Err.NotImplErr, s))
    ∧ (∀ tidx didx, _setTetDiffD s tidx didx = (Err.NotImplErr, s))
    ∧ (∀ tidx area, _setTriArea s tidx area = (Err.NotImplErr, s))
    ∧ (∀ tidx ridx, _getTriSReacK s tidx ridx = (Err.NotImplErr, s))
    ∧ (∀ tidx ridx kf, _setTriSReacK s tidx ridx kf = (Err.NotImplErr, s)) :=
  ⟨fun _ => rfl, fun _ _ => rfl, fun _ _ _ => rfl, fun _ _ => rfl, fun _ _ => rfl,
    fun _ _ => rfl, fun _ _ _ => rfl, fun _ _ => rfl, fun _ _ => rfl, fun _ _ _ => rfl,
    fun _ _ => rfl, fun _ _ => rfl, fun _ _ => rfl, fun _ _ => rfl, fun _ _ _ => rfl⟩

/-! ## Distributing a count over a compartment (claims C14 and C15) -/

/-- C14, failing input: in the demo compartment (two tets, five molecules of
the species in each) `_setCompCount(0, 0, 1)` returns with the counts 5 and 6:
the target 1 is smaller than the number of tets, so the pre-seeding loop, the
only place where the old counts are overwritten, is skipped, and the one
molecule is added to what tet 1 already held. The sum over the tets is 11,
not 1. -/
theorem setCompCount_keeps_prior_counts :
    compTetCounts meshEngine.world 0 0 = [5, 5]
    ∧ (_setCompCount meshEngine 0 0 1).map (fun s => compTetCounts s.world 0 0) = some [5, 6]
    ∧ (_setCompCount meshEngine 0 0 1).map (fun s => (compTetCounts s.world 0 0).sum)
        = some 11 := by
  decide!

/-- C15, failing input: in the demo compartment (two tets of volume 1, total
volume 2) with target 4, the pre-seeding loop stores 2 in tet 0 and then
`floor(2 * 1/2) = 1` in tet 1, because the second tet's share is computed from
the remainder `c = 2` left after the first, not from the full target 4 (which
would give 2); the remainder carried out of the loop is 1, not 0. -/
theorem preSeed_uses_running_remainder :
    (preSeed 0 demoCompdef.vol [0, 1] (meshEngine.world, 4)).map
        (fun r => (compTetCounts r.1 0 0, r.2)) = some ([2, 1], 1)
    ∧ (⌊(4 : ℚ) * (1 / 2)⌋.toNat, ⌊(4 : ℚ) * (1 / 2)⌋.toNat) = (2, 2)
    ∧ (_setCompCount meshEngine 0 0 4).map (fun s => (s.rng.pos - meshEngine.rng.pos))
        = some 1 := by
  decide!

/-! ## Stochastic rounding in `_setTetCount` (claim C16) -/

/-- C16, counterexample: with `n = 4294967295.5` (fractional part `1/2`) and a
uniform draw of `1/4 < 1/2`, `_setTetCount(0, 0, n)` stores 0 and
`_getTetCount` reads 0, not `floor(n) + 1 = 4294967296`: the statement `c++`
runs on a `uint` holding `4294967295` and wraps. -/
theorem setTetCount_wraps_counterexample :
    (0 : ℚ) ≤ 4294967295 + 1 / 2
    ∧ Int.fract ((4294967295 : ℚ) + 1 / 2) = 1 / 2
    ∧ meshEngineQuarter.rng.unf meshEngineQuarter.rng.pos < 1 / 2
    ∧ ((_setTetCount meshEngineQuarter 0 0 (4294967295 + 1 / 2)).bind
        fun s => _getTetCount s 0 0) = some 0
    ∧ ¬ (((_setTetCount meshEngineQuarter 0 0 (4294967295 + 1 / 2)).bind
        fun s => _getTetCount s 0 0) = some ((⌊(4294967295 : ℚ) + 1 / 2⌋ : ℚ) + 1)) := by
  decide!


theorem roundTarget_spec (r : RNG) (n : ℚ) (hn : 0 ≤ n) (hb : ⌊n⌋.toNat < UINTMOD) :
    roundTarget r n =
      some (if 0 < Int.fract n ∧ r.unf r.pos < Int.fract n then (⌊n⌋.toNat + 1) % UINTMOD
              else ⌊n⌋.toNat,
            if 0 < Int.fract n then { r with pos := r.pos + 1 } else r) := by
  have hfl : (0 : ℤ) ≤ ⌊n⌋ := Int.floor_nonneg.2 hn
  have h1 : toUint ((⌊n⌋ : ℤ) : ℚ) = some ⌊n⌋.toNat := by
    have h0 : (0 : ℚ) ≤ ((⌊n⌋ : ℤ) : ℚ) := by exact_mod_cast hfl
    have h2 : ⌊((⌊n⌋ : ℤ) : ℚ)⌋ = ⌊n⌋ := Int.floor_intCast _
    simp only [toUint, h2]
    rw [if_pos ⟨h0, by omega⟩]
  have hfr : n - ((⌊n⌋ : ℤ) : ℚ) = Int.fract n := rfl
  simp only [roundTarget, h1, hfr, gt_iff_lt, RNG.getUnfIE, uintInc]
  by_cases hf : 0 < Int.fract n
  · by_cases hu : r.unf r.pos < Int.fract n
    · rw [if_pos hf, if_pos hu, if_pos ⟨hf, hu⟩, if_pos hf]
    · rw [if_pos hf, if_neg hu, if_neg (fun h => hu h.2), if_pos hf]
  · rw [if_neg hf, if_neg (fun h => hf h.1), if_neg hf]

theorem tetAt_setTet (m : Mesh) (i : Nat) (t0 t : Tet) (h : m.tetAt i = some t0) :
    (m.setTet i t).tetAt i = some t := by
  have hi : i < m.pTets.length := by
    by_contra hge
    simp only [Mesh.tetAt, List.getD_eq_getElem?_getD] at h
    rw [List.getElem?_eq_none (by omega)] at h
    simp at h
  simp only [Mesh.tetAt, Mesh.setTet, List.getD_eq_getElem?_getD]
  rw [List.getElem?_set_self hi]
  rfl

theorem insertTriKProcs_some (m : Mesh) (tet : Tet)
    (h : ∀ i ti, tet.nextTri.getD i none = some ti → (m.triAt ti).isSome = true) :
    ∀ (l u : List Nat), ∃ u1, insertTriKProcs m tet l u = some u1 := by
  intro l
  induction l with
  | nil => intro u; exact ⟨u, rfl⟩
  | cons i rest ih =>
    intro u
    rcases hq : tet.nextTri.getD i none with _ | ti
    · simp only [insertTriKProcs, hq]; exact ih u
    · have := h i ti hq
      rcases ht : m.triAt ti with _ | tri
      · rw [ht] at this; exact absurd this (by simp)
      · simp only [insertTriKProcs, hq, ht]; exact ih _

theorem updateSpec_some (s : Tetexact Mesh) (ti lidx : Nat) (tet : Tet)
    (ht : s.world.tetAt ti = some tet)
    (h : ∀ i tri, tet.nextTri.getD i none = some tri → (s.world.triAt tri).isSome = true) :
    ∃ s1, _updateSpec s ti lidx = some s1 ∧ s1.world = s.world ∧ s1.rng = s.rng
      ∧ s1.time = s.time ∧ s1.nsteps = s.nsteps ∧ s1.pKProcs = s.pKProcs := by
  obtain ⟨u1, hu⟩ := insertTriKProcs_some s.world tet h (List.range 4)
    (insertKProcs tet.kprocs [])
  simp only [_updateSpec, ht, hu]
  by_cases he : u1.isEmpty = true
  · rw [if_pos he]; exact ⟨s, rfl, rfl, rfl, rfl, rfl, rfl⟩
  · rw [if_neg he]
    obtain ⟨f1, f2, f3, f4, f5⟩ := update_frame s (schedIDXSet_To_Vec u1 [])
    exact ⟨_, rfl, f3, f4, f1, f2, f5⟩

/-- C16, amended: for every tet, species defined in its compartment and
`n >= 0` whose integer part fits a `uint` (`floor(n) < 2^32`),
`_setTetCount(tidx, sidx, n)` returns and the count then read by
`_getTetCount` is, if `n` has a non-zero fractional part `f` and the single
uniform drawn is `< f`, `floor(n) + 1` when that is below `2^32` and 0 when it
is `2^32` (the `uint` wraps); and `floor(n)` otherwise. Exactly one uniform is
drawn when `f` is not zero, and when `n` is an integer no random number is
drawn and `_getTetCount` returns exactly `n`. -/
theorem setTetCount_rounds (s : Tetexact Mesh) (tidx sidx : Nat) (n : ℚ) (tet : Tet)
    (ht : s.world.tetAt tidx = some tet)
    (hl : tet.compdef.specG2L sidx ≠ LIDX_UNDEFINED)
    (hp : tet.compdef.specG2L sidx < tet.pools.length)
    (htri : ∀ i tri, tet.nextTri.getD i none = some tri → (s.world.triAt tri).isSome = true)
    (hn : 0 ≤ n) (hb : ⌊n⌋.toNat < UINTMOD) :
    ∃ s1, _setTetCount s tidx sidx n = some s1
      ∧ (Int.fract n ≠ 0 → s.rng.unf s.rng.pos < Int.fract n → ⌊n⌋.toNat + 1 < UINTMOD →
          _getTetCount s1 tidx sidx = some ((⌊n⌋ : ℚ) + 1))
      ∧ (Int.fract n ≠ 0 → s.rng.unf s.rng.pos < Int.fract n → ⌊n⌋.toNat + 1 = UINTMOD →
          _getTetCount s1 tidx sidx = some 0)
      ∧ (Int.fract n ≠ 0 → ¬ s.rng.unf s.rng.pos < Int.fract n →
          _getTetCount s1 tidx sidx = some (⌊n⌋ : ℚ))
      ∧ (Int.fract n ≠ 0 → s1.rng = { s.rng with pos := s.rng.pos + 1 })
      ∧ (Int.fract n = 0 → s1.rng = s.rng ∧ _getTetCount s1 tidx sidx = some n) := by
  have hfl : (0 : ℤ) ≤ ⌊n⌋ := Int.floor_nonneg.2 hn
  have hcast : ((⌊n⌋.toNat : ℕ) : ℚ) = (⌊n⌋ : ℚ) := by
    have : ((⌊n⌋.toNat : ℕ) : ℤ) = ⌊n⌋ := Int.toNat_of_nonneg hfl
    exact_mod_cast this
  have hfr0 : 0 ≤ Int.fract n := Int.fract_nonneg n
  have hR := roundTarget_spec s.rng n hn hb
  -- the state handed to `_updateSpec`
  generalize hc : (if 0 < Int.fract n ∧ s.rng.unf s.rng.pos < Int.fract n
      then (⌊n⌋.toNat + 1) % UINTMOD else ⌊n⌋.toNat) = c at hR
  generalize hr : (if 0 < Int.fract n then ({ s.rng with pos := s.rng.pos + 1 } : RNG)
      else s.rng) = r1 at hR
  have ht1 : (s.world.setTet tidx (tet.setCount (tet.compdef.specG2L sidx) c)).tetAt tidx
      = some (tet.setCount (tet.compdef.specG2L sidx) c) := tetAt_setTet _ _ tet _ ht
  obtain ⟨s1, e1, w1, r1e, _⟩ := updateSpec_some
    { s with world := s.world.setTet tidx (tet.setCount (tet.compdef.specG2L sidx) c),
             rng := r1 }
    tidx (tet.compdef.specG2L sidx) (tet.setCount (tet.compdef.specG2L sidx) c) ht1
    (fun i tri hq => htri i tri hq)
  have hset : _setTetCount s tidx sidx n = some s1 := by
    simp only [_setTetCount, ht, hl, if_false, hR]
    exact e1
  have hget : _getTetCount s1 tidx sidx = some (c : ℚ) := by
    have w2 : s1.world = s.world.setTet tidx (tet.setCount (tet.compdef.specG2L sidx) c) := w1
    simp only [_getTetCount, w2, ht1]
    simp only [Tet.setCount, hl, if_false]
    rw [List.getD_eq_getElem?_getD, List.getElem?_set_self hp]
    rfl
  refine ⟨s1, hset, ?_, ?_, ?_, ?_, ?_⟩
  · intro hf hu hlt
    have hpos : 0 < Int.fract n := lt_of_le_of_ne hfr0 (Ne.symm hf)
    rw [if_pos ⟨hpos, hu⟩, Nat.mod_eq_of_lt hlt] at hc
    rw [hget, ← hc]; push_cast; rw [hcast]
  · intro hf hu heq
    have hpos : 0 < Int.fract n := lt_of_le_of_ne hfr0 (Ne.symm hf)
    rw [if_pos ⟨hpos, hu⟩, heq, Nat.mod_self] at hc
    rw [hget, ← hc]
    rfl
  · intro _ hu
    rw [if_neg (fun h => hu h.2)] at hc
    rw [hget, ← hc, hcast]
  · intro hf
    have hpos : 0 < Int.fract n := lt_of_le_of_ne hfr0 (Ne.symm hf)
    rw [if_pos hpos] at hr
    rw [r1e, ← hr]
  · intro hf
    rw [if_neg (by rw [hf]; exact lt_irrefl _)] at hr
    rw [if_neg (by rw [hf]; exact fun h => lt_irrefl _ h.1)] at hc
    refine ⟨by rw [r1e, ← hr], ?_⟩
    rw [hget, ← hc, hcast]
    have : n = (⌊n⌋ : ℚ) + Int.fract n := (Int.floor_add_fract n).symm
    rw [hf, add_zero] at this
    rw [← this]

theorem setTetCount_rounds_witness :
    (∃ s1, _setTetCount meshEngineQuarter 0 0 (7 / 2) = some s1
      ∧ _getTetCount s1 0 0 = some 4
      ∧ s1.rng.pos = meshEngineQuarter.rng.pos + 1)
    ∧ ∃ s2, _setTetCount meshEngineQuarter 0 0 4294967295 = some s2
      ∧ _getTetCount s2 0 0 = some 4294967295
      ∧ s2.rng = meshEngineQuarter.rng := by
  have hfr : Int.fract ((7 : ℚ) / 2) = 1 / 2 := by decide!
  have hfl : ((⌊(7 : ℚ) / 2⌋ : ℤ) : ℚ) + 1 = 4 := by decide!
  have hfr2 : Int.fract (4294967295 : ℚ) = 0 := by decide!
  have htri : ∀ (i tri : Nat),
      ([some 0, none, none, none] : List (Option Nat)).getD i none = some tri →
      (meshEngineQuarter.world.triAt tri).isSome = true := by
    intro i tri hq
    have : tri = 0 := by
      match i, hq with
      | 0, hq => exact (Option.some.inj hq).symm
      | 1, hq => exact absurd hq (by simp)
      | 2, hq => exact absurd hq (by simp)
      | 3, hq => exact absurd hq (by simp)
      | (k + 4), hq => exact absurd hq (by simp)
    subst this; rfl
  obtain ⟨s1, h1, h2, _, _, h4, _⟩ := setTetCount_rounds meshEngineQuarter 0 0 (7 / 2)
    { compdef := demoCompdef, vol := 1, pools := [5], flags := [false],
      nextTet := [some 1, none, none, none], nextTri := [some 0, none, none, none],
      reacs := [⟨0, false, 0⟩], diffs := [] }
    (by rfl) (by decide) (by decide) htri (by norm_num) (by decide!)
  obtain ⟨s2, g1, _, _, _, _, g5⟩ := setTetCount_rounds meshEngineQuarter 0 0 4294967295
    { compdef := demoCompdef, vol := 1, pools := [5], flags := [false],
      nextTet := [some 1, none, none, none], nextTri := [some 0, none, none, none],
      reacs := [⟨0, false, 0⟩], diffs := [] }
    (by rfl) (by decide) (by decide) htri (by norm_num) (by decide!)
  have hne : Int.fract ((7 : ℚ) / 2) ≠ 0 := by rw [hfr]; norm_num
  refine ⟨⟨s1, h1, ?_, ?_⟩, s2, g1, (g5 hfr2).2, (g5 hfr2).1⟩
  · rw [h2 hne (by rw [hfr]; decide!) (by decide!), hfl]
  · rw [h4 hne]


/-! ## Unmapped local indices (claim C17) -/

/-- C17: operations targeting an unmapped local index are skipped, not
errors. For every compartment, patch, tet and tri of the engine, when the
global-to-local map of its definition gives `LIDX_UNDEFINED` for the species,
reaction, diffusion or surface reaction, every getter returns 0 (`false` for
the clamped and active getters) and every setter returns with the whole
engine unchanged: pools, flags, tree, `A0` and the position of the random
number generator. The concentration getters divide the zero count by the
volume, so they are stated for a non-zero volume. -/
theorem undefined_lidx_is_skipped (h c : Mesh → Nat → ℚ) (s : Tetexact Mesh) :
    (∀ cidx comp, s.world.pComps[cidx]? = some comp →
      (∀ sidx, comp.cdef.specG2L sidx = LIDX_UNDEFINED →
        _getCompCount s cidx sidx = some 0
        ∧ _getCompAmount s cidx sidx = some 0
        ∧ (comp.cdef.vol ≠ 0 → _getCompConc s cidx sidx = some 0)
        ∧ _getCompClamped s cidx sidx = some false
        ∧ (∀ n, _setCompCount s cidx sidx n = some s)
        ∧ (∀ a, _setCompAmount s cidx sidx a = some s)
        ∧ (∀ conc, _setCompConc s cidx sidx conc = some s)
        ∧ (∀ b, _setCompClamped s cidx sidx b = some s))
      ∧ (∀ ridx, comp.cdef.reacG2L ridx = LIDX_UNDEFINED →
        _getCompReacActive s cidx ridx = some false
        ∧ (∀ a, _setCompReacActive s cidx ridx a = some s)
        ∧ _getCompReacH h s cidx ridx = some 0
        ∧ _getCompReacC c s cidx ridx = some 0
        ∧ _getCompReacA s cidx ridx = some 0
        ∧ _getCompReacExtent s cidx ridx = some 0
        ∧ _resetCompReacExtent s cidx ridx = some s)
      ∧ (∀ didx, comp.cdef.diffG2L didx = LIDX_UNDEFINED →
        _getCompDiffActive s cidx didx = some false
        ∧ (∀ act, _setCompDiffActive s cidx didx act = some s)))
    ∧ (∀ pidx patch, s.world.pPatches[pidx]? = some patch →
      (∀ sidx, patch.pdef.specG2L sidx = LIDX_UNDEFINED →
        _getPatchCount s pidx sidx = some 0
        ∧ _getPatchAmount s pidx sidx = some 0
        ∧ _getPatchClamped s pidx sidx = some false
        ∧ (∀ n, _setPatchCount s pidx sidx n = some s)
        ∧ (∀ a, _setPatchAmount s pidx sidx a = some s)
        ∧ (∀ buf, _setPatchClamped s pidx sidx buf = some s))
      ∧ (∀ ridx, patch.pdef.sreacG2L ridx = LIDX_UNDEFINED →
        _getPatchSReacActive s pidx ridx = some false
        ∧ (∀ a, _setPatchSReacActive s pidx ridx a = some s)
        ∧ _getPatchSReacH h s pidx ridx = some 0
        ∧ _getPatchSReacC c s pidx ridx = some 0
        ∧ _getPatchSReacA s pidx ridx = some 0
        ∧ _getPatchSReacExtent s pidx ridx = some 0
        ∧ _resetPatchSReacExtent s pidx ridx = some s))
    ∧ (∀ tidx tet, s.world.tetAt tidx = some tet →
      (∀ sidx, tet.compdef.specG2L sidx = LIDX_UNDEFINED →
        _getTetCount s tidx sidx = some 0
        ∧ _getTetAmount s tidx sidx = some 0
        ∧ (tet.vol ≠ 0 → _getTetConc s tidx sidx = some 0)
        ∧ _getTetClamped s tidx sidx = some false
        ∧ (∀ n, _setTetCount s tidx sidx n = some s)
        ∧ (∀ m, _setTetAmount s tidx sidx m = some s)
        ∧ (∀ conc, _setTetConc s tidx sidx conc = some s)
        ∧ (∀ buf, _setTetClamped s tidx sidx buf = some s))
      ∧ (∀ ridx, tet.compdef.reacG2L ridx = LIDX_UNDEFINED →
        _getTetReacActive s tidx ridx = some false
        ∧ (∀ act, _setTetReacActive s tidx ridx act = some s)
        ∧ _getTetReacH h s tidx ridx = some 0
        ∧ _getTetReacC c s tidx ridx = some 0
        ∧ _getTetReacA s tidx ridx = some 0)
      ∧ (∀ didx, tet.compdef.diffG2L didx = LIDX_UNDEFINED →
        _getTetDiffActive s tidx didx = some false
        ∧ (∀ act, _setTetDiffActive s tidx didx act = some s)
        ∧ _getTetDiffA s tidx didx = some 0))
    ∧ (∀ tidx tri, s.world.triAt tidx = some tri →
      (∀ sidx, tri.patchdef.specG2L sidx = LIDX_UNDEFINED →
        _getTriCount s tidx sidx = some 0
        ∧ _getTriClamped s tidx sidx = some false
        ∧ (∀ n, _setTriCount s tidx sidx n = some s)
        ∧ (∀ buf, _setTriClamped s tidx sidx buf = some s))
      ∧ (∀ ridx, tri.patchdef.sreacG2L ridx = LIDX_UNDEFINED →
        _getTriSReacActive s tidx ridx = some false
        ∧ (∀ act, _setTriSReacActive s tidx ridx act = some s)
        ∧ _getTriSReacH h s tidx ridx = some 0
        ∧ _getTriSReacC c s tidx ridx = some 0
        ∧ _getTriSReacA s tidx ridx = some 0)) := by
  refine ⟨?_, ?_, ?_, ?_⟩
  · intro cidx comp hc
    refine ⟨?_, ?_, ?_⟩
    · intro sidx hs
      have hg : _getCompCount s cidx sidx = some 0 := by
        simp only [_getCompCount, hc, hs, if_true]
      have hset : ∀ n, _setCompCount s cidx sidx n = some s := by
        intro n; simp only [_setCompCount, hc, hs, if_true]
      refine ⟨hg, ?_, ?_, ?_, hset, ?_, ?_, ?_⟩
      · simp only [_getCompAmount, hg, zero_div]
      · intro _; simp only [_getCompConc, hg, hc, zero_div]
      · simp only [_getCompClamped, hc, hs, if_true]
      · intro a; exact hset _
      · intro conc; simp only [_setCompConc, hc]; exact hset _
      · intro b; simp only [_setCompClamped, hc, hs, if_true]
    · intro ridx hr
      refine ⟨?_, ?_, ?_, ?_, ?_, ?_, ?_⟩
      · simp only [_getCompReacActive, hc, hr, if_true]
      · intro a; simp only [_setCompReacActive, hc, hr, if_true]
      · simp only [_getCompReacH, hc, hr, if_true]
      · simp only [_getCompReacC, hc, hr, if_true]
      · simp only [_getCompReacA, hc, hr, if_true]
      · simp only [_getCompReacExtent, hc, hr, if_true]
      · simp only [_resetCompReacExtent, hc, hr, if_true]
    · intro didx hd
      refine ⟨?_, ?_⟩
      · simp only [_getCompDiffActive, hc, hd, if_true]
      · intro act; simp only [_setCompDiffActive, hc, hd, if_true]
  · intro pidx patch hp
    refine ⟨?_, ?_⟩
    · intro sidx hs
      have hg : _getPatchCount s pidx sidx = some 0 := by
        simp only [_getPatchCount, hp, hs, if_true]
      have hset : ∀ n, _setPatchCount s pidx sidx n = some s := by
        intro n; simp only [_setPatchCount, hp, hs, if_true]
      refine ⟨hg, ?_, ?_, hset, ?_, ?_⟩
      · simp only [_getPatchAmount, hg, zero_div]
      · simp only [_getPatchClamped, hp, hs, if_true]
      · intro a; exact hset _
      · intro buf; simp only [_setPatchClamped, hp, hs, if_true]
    · intro ridx hr
      refine ⟨?_, ?_, ?_, ?_, ?_, ?_, ?_⟩
      · simp only [_getPatchSReacActive, hp, hr, if_true]
      · intro a; simp only [_setPatchSReacActive, hp, hr, if_true]
      · simp only [_getPatchSReacH, hp, hr, if_true]
      · simp only [_getPatchSReacC, hp, hr, if_true]
      · simp only [_getPatchSReacA, hp, hr, if_true]
      · simp only [_getPatchSReacExtent, hp, hr, if_true]
      · simp only [_resetPatchSReacExtent, hp, hr, if_true]
  · intro tidx tet ht
    refine ⟨?_, ?_, ?_⟩
    · intro sidx hs
      have hg : _getTetCount s tidx sidx = some 0 := by
        simp only [_getTetCount, ht, hs, if_true]
      have hset : ∀ n, _setTetCount s tidx sidx n = some s := by
        intro n; simp only [_setTetCount, ht, hs, if_true]
      refine ⟨hg, ?_, ?_, ?_, hset, ?_, ?_, ?_⟩
      · simp only [_getTetAmount, hg, zero_div]
      · intro _; simp only [_getTetConc, hg, ht, zero_div]
      · simp only [_getTetClamped, ht, hs, if_true]
      · intro m; exact hset _
      · intro conc; simp only [_setTetConc, ht]; exact hset _
      · intro buf; simp only [_setTetClamped, ht, hs, if_true]
    · intro ridx hr
      refine ⟨?_, ?_, ?_, ?_, ?_⟩
      · simp only [_getTetReacActive, ht, hr, if_true]
      · intro act; simp only [_setTetReacActive, ht, hr, if_true]
      · simp only [_getTetReacH, ht, hr, if_true]
      · simp only [_getTetReacC, ht, hr, if_true]
      · simp only [_getTetReacA, ht, hr, if_true]
    · intro didx hd
      refine ⟨?_, ?_, ?_⟩
      · simp only [_getTetDiffActive, ht, hd, if_true]
      · intro act; simp only [_setTetDiffActive, ht, hd, if_true]
      · simp only [_getTetDiffA, ht, hd, if_true]
  · intro tidx tri ht
    refine ⟨?_, ?_⟩
    · intro sidx hs
      refine ⟨?_, ?_, ?_, ?_⟩
      · simp only [_getTriCount, ht, hs, if_true]
      · simp only [_getTriClamped, ht, hs, if_true]
      · intro n; simp only [_setTriCount, ht, hs, if_true]
      · intro buf; simp only [_setTriClamped, ht, hs, if_true]
    · intro ridx hr
      refine ⟨?_, ?_, ?_, ?_, ?_⟩
      · simp only [_getTriSReacActive, ht, hr, if_true]
      · intro act; simp only [_setTriSReacActive, ht, hr, if_true]
      · simp only [_getTriSReacH, ht, hr, if_true]
      · simp only [_getTriSReacC, ht, hr, if_true]
      · simp only [_getTriSReacA, ht, hr, if_true]

theorem undefined_lidx_is_skipped_witness :
    demoCompdef.specG2L 1 = LIDX_UNDEFINED
    ∧ _getCompCount meshEngine 0 0 = some 10
    ∧ _getCompCount meshEngine 0 1 = some 0
    ∧ _setCompCount meshEngine 0 1 7 = some meshEngine
    ∧ _getTetCount meshEngine 1 0 = some 5
    ∧ _getTetCount meshEngine 1 1 = some 0
    ∧ _setTetReacActive meshEngine 1 1 false = some meshEngine :=
  ⟨rfl, by decide!,
    (((undefined_lidx_is_skipped (fun _ _ => 1) (fun _ _ => 1) meshEngine).1 0
      { cdef := demoCompdef, tets := [0, 1], pools := [10] } rfl).1 1 rfl).1,
    (((undefined_lidx_is_skipped (fun _ _ => 1) (fun _ _ => 1) meshEngine).1 0
      { cdef := demoCompdef, tets := [0, 1], pools := [10] } rfl).1 1 rfl).2.2.2.2.1 7,
    by decide!,
    (((undefined_lidx_is_skipped (fun _ _ => 1) (fun _ _ => 1) meshEngine).2.2.1 1
      { compdef := demoCompdef, vol := 1, pools := [5], flags := [false],
        nextTet := [some 0, none, none, none], nextTri := [none, none, none, none],
        reacs := [⟨1, false, 0⟩], diffs := [] } rfl).1 1 rfl).1,
    (((undefined_lidx_is_skipped (fun _ _ => 1) (fun _ _ => 1) meshEngine).2.2.1 1
      { compdef := demoCompdef, vol := 1, pools := [5], flags := [false],
        nextTet := [some 0, none, none, none], nextTri := [none, none, none, none],
        reacs := [⟨1, false, 0⟩], diffs := [] } rfl).2.1 1 rfl).2.1 false⟩


/-! ## `reset` (claim C13) -/

theorem map_set_same {α β : Type} (g : α → β) (l : List α) (i : Nat) (x y : α)
    (hx : l[i]? = some x) (hg : g y = g x) : (l.set i y).map g = l.map g := by
  apply List.ext_getElem?
  intro k
  rw [List.getElem?_map, List.getElem?_map, List.getElem?_set]
  by_cases hik : i = k
  · subst hik
    have hi : i < l.length := by
      by_contra hge
      rw [List.getElem?_eq_none (by omega)] at hx
      exact Option.noConfusion hx
    rw [if_pos rfl, if_pos hi, hx]
    simp only [Option.map_some', hg]
  · rw [if_neg hik]

theorem tetAt_eq_getElem (m : Mesh) (i : Nat) (t : Tet) (h : m.tetAt i = some t) :
    m.pTets[i]? = some (some t) := by
  simp only [Mesh.tetAt, List.getD_eq_getElem?_getD] at h
  rcases hq : m.pTets[i]? with _ | x
  · rw [hq] at h; exact Option.noConfusion h
  · rw [hq] at h; simp only [Option.getD_some] at h; rw [h]

theorem triAt_eq_getElem (m : Mesh) (i : Nat) (t : Tri) (h : m.triAt i = some t) :
    m.pTris[i]? = some (some t) := by
  simp only [Mesh.triAt, List.getD_eq_getElem?_getD] at h
  rcases hq : m.pTris[i]? with _ | x
  · rw [hq] at h; exact Option.noConfusion h
  · rw [hq] at h; simp only [Option.getD_some] at h; rw [h]

theorem tetAt_isSome_of_shape (m m1 : Mesh)
    (h : m1.pTets.map (Option.map Tet.links) = m.pTets.map (Option.map Tet.links)) (i : Nat) :
    (m1.tetAt i).isSome = (m.tetAt i).isSome := by
  have hk := congrArg (fun l => l[i]?) h
  simp only [List.getElem?_map] at hk
  simp only [Mesh.tetAt, List.getD_eq_getElem?_getD]
  rcases h1 : m1.pTets[i]? with _ | x <;> rcases h2 : m.pTets[i]? with _ | y <;>
    rw [h1, h2] at hk
  · simp at hk
  · simp at hk
  · simp only [Option.map_some', Option.some.injEq] at hk
    cases x <;> cases y <;> simp_all

theorem triAt_isSome_of_shape (m m1 : Mesh)
    (h : m1.pTris.map (Option.map Tri.links) = m.pTris.map (Option.map Tri.links)) (i : Nat) :
    (m1.triAt i).isSome = (m.triAt i).isSome := by
  have hk := congrArg (fun l => l[i]?) h
  simp only [List.getElem?_map] at hk
  simp only [Mesh.triAt, List.getD_eq_getElem?_getD]
  rcases h1 : m1.pTris[i]? with _ | x <;> rcases h2 : m.pTris[i]? with _ | y <;>
    rw [h1, h2] at hk
  · simp at hk
  · simp at hk
  · simp only [Option.map_some', Option.some.injEq] at hk
    cases x <;> cases y <;> simp_all

theorem forTets_graph (f : Tet → Option Tet)
    (hf : ∀ t, ∃ t1, f t = some t1 ∧ t1.links = t.links) :
    ∀ (l : List Nat) (m : Mesh), (∀ i ∈ l, (m.tetAt i).isSome = true) →
      ∃ m1, forTets f l m = some m1 ∧ m1.pComps = m.pComps ∧ m1.pPatches = m.pPatches
        ∧ m1.pTris = m.pTris
        ∧ m1.pTets.map (Option.map Tet.links) = m.pTets.map (Option.map Tet.links) := by
  intro l
  induction l with
  | nil => intro m _; exact ⟨m, rfl, rfl, rfl, rfl, rfl⟩
  | cons i rest ih =>
    intro m hv
    have hi := hv i (List.mem_cons_self _ _)
    rcases ht : m.tetAt i with _ | t
    · rw [ht] at hi; exact absurd hi (by simp)
    · obtain ⟨t1, hft, hl⟩ := hf t
      have hshape : (m.setTet i t1).pTets.map (Option.map Tet.links)
          = m.pTets.map (Option.map Tet.links) :=
        map_set_same _ _ _ (some t) (some t1) (tetAt_eq_getElem m i t ht)
          (by simp only [Option.map_some', hl])
      obtain ⟨m1, e1, c1, p1, r1, s1⟩ := ih (m.setTet i t1) (fun j hj => by
        rw [tetAt_isSome_of_shape m (m.setTet i t1) hshape j]
        exact hv j (List.mem_cons_of_mem _ hj))
      refine ⟨m1, ?_, c1, p1, r1, s1.trans hshape⟩
      simp only [forTets, ht, hft]
      exact e1

theorem forTris_graph (f : Tri → Option Tri)
    (hf : ∀ t, ∃ t1, f t = some t1 ∧ t1.links = t.links) :
    ∀ (l : List Nat) (m : Mesh), (∀ i ∈ l, (m.triAt i).isSome = true) →
      ∃ m1, forTris f l m = some m1 ∧ m1.pComps = m.pComps ∧ m1.pPatches = m.pPatches
        ∧ m1.pTets = m.pTets
        ∧ m1.pTris.map (Option.map Tri.links) = m.pTris.map (Option.map Tri.links) := by
  intro l
  induction l with
  | nil => intro m _; exact ⟨m, rfl, rfl, rfl, rfl, rfl⟩
  | cons i rest ih =>
    intro m hv
    have hi := hv i (List.mem_cons_self _ _)
    rcases ht : m.triAt i with _ | t
    · rw [ht] at hi; exact absurd hi (by simp)
    · obtain ⟨t1, hft, hl⟩ := hf t
      have hshape : (m.setTri i t1).pTris.map (Option.map Tri.links)
          = m.pTris.map (Option.map Tri.links) :=
        map_set_same _ _ _ (some t) (some t1) (triAt_eq_getElem m i t ht)
          (by simp only [Option.map_some', hl])
      obtain ⟨m1, e1, c1, p1, r1, s1⟩ := ih (m.setTri i t1) (fun j hj => by
        rw [triAt_isSome_of_shape m (m.setTri i t1) hshape j]
        exact hv j (List.mem_cons_of_mem _ hj))
      refine ⟨m1, ?_, c1, p1, r1, s1.trans hshape⟩
      simp only [forTris, ht, hft]
      exact e1

theorem linked_of_graph (m m1 : Mesh) (hg : m1.graph = m.graph) (h : m.Linked) : m1.Linked := by
  simp only [Mesh.graph, Prod.mk.injEq] at hg
  obtain ⟨g1, g2, g3, g4⟩ := hg
  refine ⟨?_, ?_, ?_⟩
  · intro c hc i hi
    have : c.tets ∈ m1.pComps.map (fun c => c.tets) := List.mem_map.2 ⟨c, hc, rfl⟩
    rw [g1] at this
    obtain ⟨c0, hc0, e0⟩ := List.mem_map.1 this
    rw [tetAt_isSome_of_shape m m1 g3 i]
    exact h.1 c0 hc0 i (by rw [e0]; exact hi)
  · intro p hp i hi
    have : p.tris ∈ m1.pPatches.map (fun p => p.tris) := List.mem_map.2 ⟨p, hp, rfl⟩
    rw [g2] at this
    obtain ⟨p0, hp0, e0⟩ := List.mem_map.1 this
    rw [triAt_isSome_of_shape m m1 g4 i]
    exact h.2.1 p0 hp0 i (by rw [e0]; exact hi)
  · intro t ht
    obtain ⟨k, hk, e⟩ := List.getElem_of_mem ht
    have h1 : m1.tetAt k = t := by
      simp only [Mesh.tetAt, List.getD_eq_getElem?_getD, List.getElem?_eq_getElem hk, e,
        Option.getD_some]
    have h2 := tetAt_isSome_of_shape m m1 g3 k
    have hlen : m1.pTets.length = m.pTets.length := by
      have := congrArg List.length g3
      simpa using this
    have h3 : (m.tetAt k).isSome = true := by
      have hk2 : k < m.pTets.length := by omega
      have : m.tetAt k = m.pTets[k] := by
        simp only [Mesh.tetAt, List.getD_eq_getElem?_getD, List.getElem?_eq_getElem hk2,
          Option.getD_some]
      rw [this]
      exact h.2.2 _ (List.getElem_mem _)
    rw [← h1, h2, h3]

theorem compReset_graph (m : Mesh) (ci : Nat) (hL : m.Linked) (hci : ci < m.pComps.length) :
    ∃ m1, Comp.reset m ci = some m1 ∧ m1.graph = m.graph := by
  have hc : m.pComps[ci]? = some m.pComps[ci] := List.getElem?_eq_getElem hci
  obtain ⟨m1, e1, c1, p1, r1, s1⟩ := forTets_graph (fun t => some t.resetPools)
    (fun t => ⟨t.resetPools, rfl, rfl⟩) m.pComps[ci].tets m
    (fun i hi => hL.1 _ (List.getElem_mem _) i hi)
  have e : Comp.reset m ci = some { m1 with
      pComps := m1.pComps.set ci
        ({ m.pComps[ci] with pools := m.pComps[ci].pools.map (fun _ => 0) }) } := by
    simp only [Comp.reset, hc, e1]
  refine ⟨_, e, ?_⟩
  simp only [Mesh.graph, Prod.mk.injEq]
  refine ⟨?_, by rw [p1], s1, by rw [r1]⟩
  rw [c1]
  exact map_set_same _ _ _ _ _ hc rfl

theorem patchReset_graph (m : Mesh) (pi : Nat) (hL : m.Linked) (hpi : pi < m.pPatches.length) :
    ∃ m1, Patch.reset m pi = some m1 ∧ m1.graph = m.graph := by
  have hc : m.pPatches[pi]? = some m.pPatches[pi] := List.getElem?_eq_getElem hpi
  obtain ⟨m1, e1, c1, p1, r1, s1⟩ := forTris_graph (fun t => some t.resetPools)
    (fun t => ⟨t.resetPools, rfl, rfl⟩) m.pPatches[pi].tris m
    (fun i hi => hL.2.1 _ (List.getElem_mem _) i hi)
  have e : Patch.reset m pi = some { m1 with
      pPatches := m1.pPatches.set pi
        ({ m.pPatches[pi] with pools := m.pPatches[pi].pools.map (fun _ => 0) }) } := by
    simp only [Patch.reset, hc, e1]
  refine ⟨_, e, ?_⟩
  simp only [Mesh.graph, Prod.mk.injEq]
  refine ⟨by rw [c1], ?_, by rw [r1], s1⟩
  rw [p1]
  exact map_set_same _ _ _ _ _ hc rfl

theorem graph_lengths (m m1 : Mesh) (hg : m1.graph = m.graph) :
    m1.pComps.length = m.pComps.length ∧ m1.pPatches.length = m.pPatches.length := by
  simp only [Mesh.graph, Prod.mk.injEq] at hg
  obtain ⟨g1, g2, _, _⟩ := hg
  have h1 := congrArg List.length g1
  have h2 := congrArg List.length g2
  simp only [List.length_map] at h1 h2
  exact ⟨h1, h2⟩

theorem resetComps_graph : ∀ (l : List Nat) (m : Mesh), m.Linked →
    (∀ ci ∈ l, ci < m.pComps.length) →
    ∃ m1, resetComps l m = some m1 ∧ m1.graph = m.graph := by
  intro l
  induction l with
  | nil => intro m _ _; exact ⟨m, rfl, rfl⟩
  | cons ci rest ih =>
    intro m hL hv
    obtain ⟨m1, e1, g1⟩ := compReset_graph m ci hL (hv ci (List.mem_cons_self _ _))
    obtain ⟨m2, e2, g2⟩ := ih m1 (linked_of_graph m m1 g1 hL) (fun j hj => by
      rw [(graph_lengths m m1 g1).1]; exact hv j (List.mem_cons_of_mem _ hj))
    exact ⟨m2, by simp only [resetComps, e1, e2], g2.trans g1⟩

theorem resetPatches_graph : ∀ (l : List Nat) (m : Mesh), m.Linked →
    (∀ pi ∈ l, pi < m.pPatches.length) →
    ∃ m1, resetPatches l m = some m1 ∧ m1.graph = m.graph := by
  intro l
  induction l with
  | nil => intro m _ _; exact ⟨m, rfl, rfl⟩
  | cons pi rest ih =>
    intro m hL hv
    obtain ⟨m1, e1, g1⟩ := patchReset_graph m pi hL (hv pi (List.mem_cons_self _ _))
    obtain ⟨m2, e2, g2⟩ := ih m1 (linked_of_graph m m1 g1 hL) (fun j hj => by
      rw [(graph_lengths m m1 g1).2]; exact hv j (List.mem_cons_of_mem _ hj))
    exact ⟨m2, by simp only [resetPatches, e1, e2], g2.trans g1⟩

theorem kstate_reset_idx (ks : List KState) :
    (ks.map KState.reset).map (fun k => k.schedIDX) = ks.map (fun k => k.schedIDX) := by
  rw [List.map_map]; rfl

theorem tet_reset_links (t : Tet) : t.reset.links = t.links := by
  simp only [Tet.links, Tet.reset, Tet.kprocs, List.map_append, kstate_reset_idx]

theorem tri_reset_links (t : Tri) : t.reset.links = t.links := by
  simp only [Tri.links, Tri.reset, kstate_reset_idx]

theorem resetTets_graph (m : Mesh) (hL : m.Linked) :
    resetTets m = some { m with pTets := m.pTets.map (Option.map Tet.reset) }
    ∧ ({ m with pTets := m.pTets.map (Option.map Tet.reset) } : Mesh).graph = m.graph := by
  refine ⟨?_, ?_⟩
  · simp only [resetTets]
    rw [if_pos (List.all_eq_true.2 (fun t ht => hL.2.2 t ht))]
  · simp only [Mesh.graph, Prod.mk.injEq, List.map_map, true_and, and_true]
    apply List.map_congr_left
    intro t _
    cases t with
    | none => rfl
    | some t => simp only [Function.comp, Option.map_some', tet_reset_links]

theorem resetTris_graph (m : Mesh) : (resetTris m).graph = m.graph := by
  simp only [resetTris, Mesh.graph, Prod.mk.injEq, List.map_map, true_and]
  apply List.map_congr_left
  intro t _
  cases t with
  | none => rfl
  | some t => simp only [Function.comp, Option.map_some', tri_reset_links]

theorem reset_world (s : Tetexact Mesh) (hL : s.world.Linked) :
    ∃ m3 : Mesh,
      reset s = some (_reset { s with
          world := resetTris ⟨m3.pComps, m3.pPatches, m3.pTets.map (Option.map Tet.reset), m3.pTris⟩
          time := 0
          nsteps := 0 })
      ∧ (resetTris ⟨m3.pComps, m3.pPatches, m3.pTets.map (Option.map Tet.reset), m3.pTris⟩).graph
          = s.world.graph := by
  obtain ⟨m1, e1, g1⟩ := resetComps_graph (List.range s.world.pComps.length) s.world hL
    (fun ci hci => List.mem_range.1 hci)
  have hL1 := linked_of_graph s.world m1 g1 hL
  obtain ⟨m2, e2, g2⟩ := resetPatches_graph (List.range m1.pPatches.length) m1 hL1
    (fun pi hpi => List.mem_range.1 hpi)
  have hL2 := linked_of_graph m1 m2 g2 hL1
  obtain ⟨e3, g3⟩ := resetTets_graph m2 hL2
  refine ⟨m2, by simp only [reset, e1, e2, e3], ?_⟩
  rw [resetTris_graph]
  exact (g3.trans g2).trans g1

theorem getD_map_reset_tet (l : List (Option Tet)) (i : Nat) (t : Tet)
    (h : (l.map (Option.map Tet.reset)).getD i none = some t) : ∃ t0 : Tet, t = Tet.reset t0 := by
  rw [List.getD_eq_getElem?_getD, List.getElem?_map] at h
  rcases hq : l[i]? with _ | x
  · rw [hq] at h; exact Option.noConfusion h
  · rw [hq] at h
    cases x with
    | none => exact Option.noConfusion h
    | some t0 => exact ⟨t0, (Option.some.inj h).symm⟩

theorem getD_map_reset_tri (l : List (Option Tri)) (i : Nat) (t : Tri)
    (h : (l.map (Option.map Tri.reset)).getD i none = some t) : ∃ t0 : Tri, t = Tri.reset t0 := by
  rw [List.getD_eq_getElem?_getD, List.getElem?_map] at h
  rcases hq : l[i]? with _ | x
  · rw [hq] at h; exact Option.noConfusion h
  · rw [hq] at h
    cases x with
    | none => exact Option.noConfusion h
    | some t0 => exact ⟨t0, (Option.some.inj h).symm⟩

theorem getD_map_zero (l : List Nat) (k : Nat) : (l.map (fun _ => 0)).getD k 0 = 0 := by
  rw [List.getD_eq_getElem?_getD, List.getElem?_map]
  cases l[k]? <;> rfl

/-- C13: `reset()` on a built engine whose mesh pointers are all valid returns
with the simulation time 0 and the step counter 0; every tet and tri holds
zero molecules of every species; the tree is consistent with the KProc rates
of these reset populations (every leaf holds its KProc's rate in the reset
mesh, every internal slot is the sum of its children, `A0` is the sum of the top
level); and the list of KProcs with their `schedIDX` and the object graph
(the tets of each compartment, the tris of each patch, which slots of `pTets`
and `pTris` are filled, the neighbour links and the `schedIDX` of the KProcs
of each tet and tri) are the same as before the call. -/
theorem reset_restores_initial_state (s : Tetexact Mesh) (h : Built s) (hL : s.world.Linked) :
    ∃ s1, reset s = some s1
      ∧ s1.time = 0 ∧ s1.nsteps = 0
      ∧ (∀ i t, s1.world.tetAt i = some t → ∀ lidx, t.pools.getD lidx 0 = 0)
      ∧ (∀ i t, s1.world.triAt i = some t → ∀ lidx, t.pools.getD lidx 0 = 0)
      ∧ LeavesMatch s1 ∧ Consistent s1
      ∧ s1.pKProcs = s.pKProcs
      ∧ s1.world.graph = s.world.graph := by
  obtain ⟨m3, e, g⟩ := reset_world s hL
  generalize hw : resetTris ⟨m3.pComps, m3.pPatches, m3.pTets.map (Option.map Tet.reset),
    m3.pTris⟩ = w at e g
  have hB : Built ({ s with world := w, time := 0, nsteps := 0 } : Tetexact Mesh) :=
    built_congr s _ h rfl rfl rfl rfl
  obtain ⟨⟨P1, a, heq⟩, _, _, hleaf, _, _, hsum, htop⟩ := reset_props _ hB
  refine ⟨_, e, by rw [heq], by rw [heq], ?_, ?_, ?_, ⟨hsum, htop⟩, by rw [heq], ?_⟩
  · intro i t ht lidx
    rw [heq] at ht
    have ht2 : (m3.pTets.map (Option.map Tet.reset)).getD i none = some t := by
      rw [← hw] at ht; exact ht
    obtain ⟨t0, rfl⟩ := getD_map_reset_tet _ _ _ ht2
    exact getD_map_zero _ _
  · intro i t ht lidx
    rw [heq] at ht
    have ht2 : (m3.pTris.map (Option.map Tri.reset)).getD i none = some t := by
      rw [← hw] at ht; exact ht
    obtain ⟨t0, rfl⟩ := getD_map_reset_tri _ _ _ ht2
    exact getD_map_zero _ _
  · intro i kp hk
    have hk2 : s.pKProcs[i]? = some kp := by rw [heq] at hk; exact hk
    have hidx : kp.schedIDX = i := h.idx i kp hk2
    have hw1 : (_reset ({ s with world := w, time := 0, nsteps := 0 } : Tetexact Mesh)).world
        = w := by rw [heq]
    rw [hidx, hw1]
    exact hleaf i kp hk2
  · rw [heq]; exact g

theorem meshEngine_built : Built meshEngine :=
  reset_built _ (setupEngine_built demoMesh demoRNG [tetDecay 0, tetDecay 1, triDecay]
    (by decide) (by decide))

theorem demoMesh_linked : demoMesh.Linked := by
  refine ⟨?_, ?_, ?_⟩
  · intro c hc i hi
    simp only [demoMesh, List.mem_singleton] at hc
    subst hc
    simp only [List.mem_cons, List.mem_singleton, List.not_mem_nil, or_false] at hi
    rcases hi with rfl | rfl <;> rfl
  · intro p hp i hi
    simp only [demoMesh, List.mem_singleton] at hp
    subst hp
    simp only [List.mem_singleton] at hi
    subst hi; rfl
  · intro t ht
    simp only [demoMesh, List.mem_cons, List.mem_singleton, List.not_mem_nil, or_false] at ht
    rcases ht with rfl | rfl <;> rfl

theorem reset_restores_initial_state_witness :
    ((step meshEngine).time, (step meshEngine).nsteps,
        compTetCounts (step meshEngine).world 0 0) = (1 / 13, 1, [5, 4])
    ∧ ∃ s1, reset { meshEngine with time := 3, nsteps := 7 } = some s1
      ∧ s1.time = 0 ∧ s1.nsteps = 0 ∧ Consistent s1
      ∧ s1.world.graph = demoMesh.graph :=
  ⟨by decide!,
    let ⟨s1, e, t0, n0, _, _, _, hc, _, hg⟩ :=
      reset_restores_initial_state { meshEngine with time := 3, nsteps := 7 }
        (built_congr meshEngine _ meshEngine_built rfl rfl rfl rfl) demoMesh_linked
    ⟨s1, e, t0, n0, hc, hg⟩⟩


/-! ## `schedIDXSet_To_Vec` (claim C24) -/

theorem vecResize_length (v : List Nat) (n : Nat) : (vecResize v n).length = n := by
  simp only [vecResize, List.length_append, List.length_take, List.length_replicate]
  omega

theorem vecCopy_spec : ∀ (xs : List Nat) (i : Nat) (v : List Nat), v.length = i + xs.length →
    vecCopy xs i v = v.take i ++ xs := by
  intro xs
  induction xs with
  | nil =>
    intro i v h
    simp only [vecCopy, List.append_nil]
    rw [List.take_of_length_le (by simp at h; omega)]
  | cons x rest ih =>
    intro i v h
    simp only [List.length_cons] at h
    simp only [vecCopy]
    rw [ih (i + 1) (v.set i x) (by simp; omega)]
    have hi : i < v.length := by omega
    rw [List.take_succ, List.set_take, List.set_eq_of_length_le (by simp)]
    simp only [List.getElem?_set_self hi, Option.toList_some, List.append_assoc,
      List.singleton_append]

theorem schedIDXSet_To_Vec_eq (s v : List Nat) : schedIDXSet_To_Vec s v = s := by
  simp only [schedIDXSet_To_Vec]
  rw [vecCopy_spec s 0 _ (by rw [vecResize_length]; omega)]
  simp

theorem setInsert_sorted (x : Nat) (s : List Nat) (h : s.Sorted (fun a b => a < b)) :
    (setInsert x s).Sorted (fun a b => a < b) := by
  simp only [setInsert]
  split
  · exact h
  · rename_i hx
    have h1 : (List.orderedInsert (fun a b => a ≤ b) x s).Sorted (fun a b => a ≤ b) :=
      List.Sorted.orderedInsert x s (List.Sorted.le_of_lt h)
    have h2 : (List.orderedInsert (fun a b => a ≤ b) x s).Nodup :=
      (List.perm_orderedInsert _ x s).nodup_iff.2 (List.nodup_cons.2 ⟨hx, h.nodup⟩)
    exact List.Sorted.lt_of_le h1 h2

theorem setInsert_mem (x y : Nat) (s : List Nat) : y ∈ setInsert x s ↔ y = x ∨ y ∈ s := by
  simp only [setInsert]
  split
  · rename_i hx
    constructor
    · intro h; exact Or.inr h
    · rintro (h | h)
      · rw [h]; exact hx
      · exact h
  · rw [List.mem_orderedInsert]

theorem insertKProcs_sorted (ks : List KState) : ∀ (u : List Nat),
    u.Sorted (fun a b => a < b) → (insertKProcs ks u).Sorted (fun a b => a < b) := by
  induction ks with
  | nil => intro u h; exact h
  | cons k rest ih =>
    intro u h
    simp only [insertKProcs, List.foldl_cons]
    exact ih _ (setInsert_sorted _ _ h)

theorem insertKProcs_mem (ks : List KState) : ∀ (u : List Nat) (y : Nat),
    y ∈ insertKProcs ks u ↔ y ∈ u ∨ ∃ k ∈ ks, k.schedIDX = y := by
  induction ks with
  | nil => intro u y; simp [insertKProcs]
  | cons k rest ih =>
    intro u y
    have := ih (setInsert k.schedIDX u) y
    simp only [insertKProcs, List.foldl_cons] at this ⊢
    rw [this, setInsert_mem]
    simp only [List.mem_cons, exists_eq_or_imp]
    constructor
    · rintro ((h | h) | h)
      · exact Or.inr (Or.inl h.symm)
      · exact Or.inl h
      · exact Or.inr (Or.inr h)
    · rintro (h | h | h)
      · exact Or.inl (Or.inr h)
      · exact Or.inl (Or.inl h.symm)
      · exact Or.inr h

theorem insertTriKProcs_sorted (m : Mesh) (tet : Tet) : ∀ (l u u1 : List Nat),
    u.Sorted (fun a b => a < b) → insertTriKProcs m tet l u = some u1 →
    u1.Sorted (fun a b => a < b) := by
  intro l
  induction l with
  | nil =>
    intro u u1 h e
    simp only [insertTriKProcs, Option.some.injEq] at e
    rw [← e]; exact h
  | cons i rest ih =>
    intro u u1 h e
    rcases hq : tet.nextTri.getD i none with _ | ti
    · simp only [insertTriKProcs, hq] at e
      exact ih u u1 h e
    · rcases ht : m.triAt ti with _ | tri
      · simp only [insertTriKProcs, hq, ht] at e
        exact Option.noConfusion e
      · simp only [insertTriKProcs, hq, ht] at e
        exact ih _ u1 (insertKProcs_sorted _ _ h) e

/-- C24: `schedIDXSet_To_Vec(s, v)` completely overrides `v`: for every set
`s` (the list of its elements in increasing order) and every prior content
of `v`, afterwards `v` has exactly `s.size()` elements, contains exactly the
elements of `s`, and lists them in strictly increasing order; it is the list
of the elements of `s`. The sets `_updateSpec` builds for a tet and for a tri
are strictly increasing, so the vectors it hands to `_update` are sorted and
duplicate-free. -/
theorem schedIDXSet_To_Vec_overrides (s v : List Nat) :
    (schedIDXSet_To_Vec s v).length = s.length
    ∧ (∀ x, x ∈ schedIDXSet_To_Vec s v ↔ x ∈ s)
    ∧ schedIDXSet_To_Vec s v = s
    ∧ (s.Sorted (fun a b => a < b) → (schedIDXSet_To_Vec s v).Sorted (fun a b => a < b))
    ∧ (∀ (m : Mesh) (tet : Tet) (updset : List Nat),
        insertTriKProcs m tet (List.range 4) (insertKProcs tet.kprocs []) = some updset →
        (schedIDXSet_To_Vec updset v).Sorted (fun a b => a < b)
        ∧ (schedIDXSet_To_Vec updset v).Nodup)
    ∧ (∀ tri : Tri,
        (schedIDXSet_To_Vec (insertKProcs tri.sreacs []) v).Sorted (fun a b => a < b)
        ∧ (schedIDXSet_To_Vec (insertKProcs tri.sreacs []) v).Nodup) := by
  refine ⟨by rw [schedIDXSet_To_Vec_eq], fun x => by rw [schedIDXSet_To_Vec_eq],
    schedIDXSet_To_Vec_eq s v, fun h => by rw [schedIDXSet_To_Vec_eq]; exact h, ?_, ?_⟩
  · intro m tet updset e
    have hs := insertTriKProcs_sorted m tet (List.range 4) _ updset
      (insertKProcs_sorted tet.kprocs [] List.sorted_nil) e
    rw [schedIDXSet_To_Vec_eq]
    exact ⟨hs, hs.nodup⟩
  · intro tri
    have hs := insertKProcs_sorted tri.sreacs [] List.sorted_nil
    rw [schedIDXSet_To_Vec_eq]
    exact ⟨hs, hs.nodup⟩

theorem schedIDXSet_To_Vec_overrides_witness :
    schedIDXSet_To_Vec [2, 5, 9] [7, 7, 7, 7, 7] = [2, 5, 9]
    ∧ schedIDXSet_To_Vec [2, 5, 9] [] = [2, 5, 9]
    ∧ insertKProcs [⟨9, false, 0⟩, ⟨2, false, 0⟩, ⟨9, false, 0⟩, ⟨5, false, 0⟩] [] = [2, 5, 9]
    ∧ (schedIDXSet_To_Vec [2, 5, 9] [7, 7, 7, 7, 7]).length = 3 :=
  ⟨by decide, by decide, by decide, (schedIDXSet_To_Vec_overrides [2, 5, 9] [7, 7, 7, 7, 7]).1⟩

/-! ## The size assertion of `_update` (claim C27) -/

theorem foldl_addKProc_maxUp (kps : List (KProc W)) : ∀ (s : Tetexact W),
    (kps.foldl addKProc s).pMaxUpSize = s.pMaxUpSize := by
  induction kps with
  | nil => intro s; rfl
  | cons k rest ih => intro s; simp only [List.foldl_cons]; rw [ih]; rfl

/-- C27, failing input: for every list of KProcs the engine leaves
construction with `pMaxUpSize == 0`: the member is initialised to 0 and
`_build` keeps the maximum `updVecSize()` in the local `maxupdate` only. With
the seventeen decay processes (maximum `updVecSize()` 4) the assertion
`entries.size() <= pMaxUpSize` is false for the one-element vector `[8]` that
`apply` of process 8 returns. -/
theorem build_leaves_pMaxUpSize_zero :
    (∀ (V : Type) (w : V) (r : RNG) (kps : List (KProc V)), (setupEngine w r kps).pMaxUpSize = 0)
    ∧ maxUpdate demoKProcs = 4
    ∧ demoEngine.pIndices.length = 4
    ∧ ((demoKProc 8).apply demoWorld demoRNG).2 = [8]
    ∧ updateAssert demoEngine ((demoKProc 8).apply demoWorld demoRNG).2 = false := by
  refine ⟨?_, by decide, by decide, rfl, by decide⟩
  intro V w r kps
  have h := foldl_addKProc_maxUp kps (Tetexact.init w r)
  simp only [setupEngine, _build]
  split
  · rw [h]; rfl
  · simp only [h]; rfl

/-! ## The destructor (claim C30) -/

/-- C30, failing input: on the demo mesh, whose `pTris` holds one triangle,
the destructor calls `delete` on the compartment, the patch and the two tets,
and on no element of `pTris`: the loop starts at `pTris.end()`, so its body
never runs, for this and for every engine. -/
theorem destructor_skips_tris :
    (meshEngine.world.triAt 0).isSome = true
    ∧ destructor meshEngine = { comps := [0], patches := [0], tets := [0, 1], tris := [] }
    ∧ ∀ s : Tetexact Mesh, (destructor s).tris = [] := by
  refine ⟨by decide, by decide, ?_⟩
  intro s
  simp [destructor, iterRange]


/-! ## The scratch buffer of `_update` (claims C25 and C26) -/

theorem storeCollapseAccess_lt (ind0 : List Nat) (e q : Nat) (st : List Nat × Nat × Nat)
    (h : ScratchInv ind0 e st) :
    (∀ p ∈ (storeCollapseAccess q st).1, p < e + 1)
    ∧ ∀ p ∈ (storeCollapseAccess q st).2, p < e + 1 := by
  obtain ⟨ind, pe, ce⟩ := st
  obtain ⟨h1, h2, _, _, _⟩ := h
  simp only at h1 h2
  simp only [storeCollapseAccess]
  split
  · refine ⟨fun p hp => absurd hp (List.not_mem_nil _), fun p hp => ?_⟩
    rw [List.mem_singleton] at hp
    omega
  · rename_i hne
    have hpe : pe < ce := by
      rcases h2 with h2 | h2
      · exact absurd h2 hne
      · exact h2
    split
    · refine ⟨fun p hp => ?_, fun p hp => ?_⟩ <;> rw [List.mem_singleton] at hp <;> omega
    · refine ⟨fun p hp => ?_, fun p hp => absurd hp (List.not_mem_nil _)⟩
      rw [List.mem_singleton] at hp
      omega

theorem storeCollapse_scratch (ind0 : List Nat) (e q : Nat) (st : List Nat × Nat × Nat)
    (h : ScratchInv ind0 e st) : ScratchInv ind0 (e + 1) (storeCollapse q st) :=
  (storeCollapse_inv ind0 e q st ((List.range st.2.2).map fun j => st.1.getD j 0) h
    (fun p => by
      simp only [Stored, List.mem_map, List.mem_range])).1

theorem updateRatesLog_spec (s : Tetexact W) (ind0 : List Nat) :
    ∀ (entries : List Nat) (e : Nat) (st : List ℚ × List Nat × Nat × Nat) (log : UpdLog),
      ScratchInv ind0 e st.2 →
      (updateRatesLog s entries (st, log)).1 = updateRates s entries st
      ∧ (updateRatesLog s entries (st, log)).2.slots
          = log.slots ++ entries.map (fun i => (0, i))
      ∧ (updateRatesLog s entries (st, log)).2.scratch = log.scratch
      ∧ (∀ p ∈ (updateRatesLog s entries (st, log)).2.reads,
          p ∈ log.reads ∨ p < e + entries.length)
      ∧ (∀ p ∈ (updateRatesLog s entries (st, log)).2.writes,
          p ∈ log.writes ∨ p < e + entries.length)
      ∧ ScratchInv ind0 (e + entries.length) (updateRates s entries st).2 := by
  intro entries
  induction entries with
  | nil =>
    intro e st log h
    simp only [updateRatesLog, updateRates, List.foldl_nil, List.map_nil, List.append_nil,
      List.length_nil, Nat.add_zero]
    exact ⟨trivial, trivial, trivial, fun p hp => Or.inl hp, fun p hp => Or.inl hp, h⟩
  | cons x rest ih =>
    intro e st log h
    obtain ⟨a1, a2⟩ := storeCollapseAccess_lt ind0 e (x / SCHEDULEWIDTH) st.2 h
    have hsc := storeCollapse_scratch ind0 e (x / SCHEDULEWIDTH) st.2 h
    obtain ⟨i1, i2, i3, i4, i5, i6⟩ := ih (e + 1)
      (st.1.set x (rateAt s x), storeCollapse (x / SCHEDULEWIDTH) st.2)
      { log with
        slots := log.slots ++ [(0, x)]
        reads := log.reads ++ (storeCollapseAccess (x / SCHEDULEWIDTH) st.2).1
        writes := log.writes ++ (storeCollapseAccess (x / SCHEDULEWIDTH) st.2).2 } hsc
    have hstep : updateRates s (x :: rest) st
        = updateRates s rest (st.1.set x (rateAt s x), storeCollapse (x / SCHEDULEWIDTH) st.2) := by
      simp only [updateRates, List.foldl_cons]
    have hlog : updateRatesLog s (x :: rest) (st, log)
        = updateRatesLog s rest
            ((st.1.set x (rateAt s x), storeCollapse (x / SCHEDULEWIDTH) st.2),
              { log with
                slots := log.slots ++ [(0, x)]
                reads := log.reads ++ (storeCollapseAccess (x / SCHEDULEWIDTH) st.2).1
                writes := log.writes ++ (storeCollapseAccess (x / SCHEDULEWIDTH) st.2).2 }) := by
      simp only [updateRatesLog]
    rw [hlog, hstep]
    simp only [List.length_cons]
    refine ⟨i1, ?_, i3, ?_, ?_, ?_⟩
    · rw [i2]
      simp
    · intro p hp
      rcases i4 p hp with hq | hq
      · rcases List.mem_append.1 hq with hq | hq
        · exact Or.inl hq
        · have := a1 p hq
          exact Or.inr (by omega)
      · exact Or.inr (by omega)
    · intro p hp
      rcases i5 p hp with hq | hq
      · rcases List.mem_append.1 hq with hq | hq
        · exact Or.inl hq
        · have := a2 p hq
          exact Or.inr (by omega)
      · exact Or.inr (by omega)
    · rw [show e + (rest.length + 1) = e + 1 + rest.length by omega]
      exact i6

theorem updateLevelLog_spec (l : Nat) (prev : List ℚ) (ind0 : List Nat) :
    ∀ (k e : Nat) (st : List ℚ × List Nat × Nat × Nat) (log : UpdLog),
      ScratchInv ind0 e st.2 →
      (updateLevelLog l prev (List.range' e k) (st, log)).1
        = (List.range' e k).foldl
            (fun st e =>
              (st.1.set (st.2.1.getD e 0)
                  (sumChildren prev (st.2.1.getD e 0 * SCHEDULEWIDTH)).1,
                storeCollapse (st.2.1.getD e 0 / SCHEDULEWIDTH) st.2)) st
      ∧ (updateLevelLog l prev (List.range' e k) (st, log)).2.slots
          = log.slots ++ (List.range' e k).map (fun j => (l, ind0.getD j 0))
      ∧ (updateLevelLog l prev (List.range' e k) (st, log)).2.scratch = log.scratch
      ∧ (∀ p ∈ (updateLevelLog l prev (List.range' e k) (st, log)).2.reads,
          p ∈ log.reads ∨ p < e + k)
      ∧ (∀ p ∈ (updateLevelLog l prev (List.range' e k) (st, log)).2.writes,
          p ∈ log.writes ∨ p < e + k)
      ∧ ScratchInv ind0 (e + k)
          ((List.range' e k).foldl
            (fun st e =>
              (st.1.set (st.2.1.getD e 0)
                  (sumChildren prev (st.2.1.getD e 0 * SCHEDULEWIDTH)).1,
                storeCollapse (st.2.1.getD e 0 / SCHEDULEWIDTH) st.2)) st).2 := by
  intro k
  induction k with
  | zero =>
    intro e st log h
    simp only [List.range'_zero, updateLevelLog, List.foldl_nil, List.map_nil,
      List.append_nil, Nat.add_zero]
    exact ⟨trivial, trivial, trivial, fun p hp => Or.inl hp, fun p hp => Or.inl hp, h⟩
  | succ k ih =>
    intro e st log h
    have hidx : st.2.1.getD e 0 = ind0.getD e 0 := h.unread e (le_refl _)
    obtain ⟨a1, a2⟩ := storeCollapseAccess_lt ind0 e (ind0.getD e 0 / SCHEDULEWIDTH) st.2 h
    have hsc := storeCollapse_scratch ind0 e (ind0.getD e 0 / SCHEDULEWIDTH) st.2 h
    obtain ⟨i1, i2, i3, i4, i5, i6⟩ := ih (e + 1)
      (st.1.set (ind0.getD e 0) (sumChildren prev (ind0.getD e 0 * SCHEDULEWIDTH)).1,
        storeCollapse (ind0.getD e 0 / SCHEDULEWIDTH) st.2)
      { log with
        slots := log.slots ++ [(l, ind0.getD e 0)]
        reads := log.reads ++ e :: (storeCollapseAccess (ind0.getD e 0 / SCHEDULEWIDTH) st.2).1
        writes := log.writes ++ (storeCollapseAccess (ind0.getD e 0 / SCHEDULEWIDTH) st.2).2 }
      hsc
    rw [List.range'_succ]
    simp only [updateLevelLog, hidx, List.foldl_cons, List.map_cons]
    refine ⟨i1, ?_, i3, ?_, ?_, ?_⟩
    · rw [i2]
      simp
    · intro p hp
      rcases i4 p hp with hq | hq
      · rcases List.mem_append.1 hq with hq | hq
        · exact Or.inl hq
        · rcases List.mem_cons.1 hq with hq | hq
          · exact Or.inr (by omega)
          · have := a1 p hq
            exact Or.inr (by omega)
      · exact Or.inr (by omega)
    · intro p hp
      rcases i5 p hp with hq | hq
      · rcases List.mem_append.1 hq with hq | hq
        · exact Or.inl hq
        · have := a2 p hq
          exact Or.inr (by omega)
      · exact Or.inr (by omega)
    · rw [show e + (k + 1) = e + 1 + k by omega]
      exact i6

theorem range'_map_getD (l : List Nat) : ∀ (k e : Nat), e + k ≤ l.length →
    (List.range' e k).map (fun j => l.getD j 0) = (l.take (e + k)).drop e := by
  intro k
  induction k with
  | zero =>
    intro e _
    simp only [List.range'_zero, List.map_nil, Nat.add_zero]
    rw [List.drop_eq_nil_of_le (by simp)]
  | succ k ih =>
    intro e h
    rw [List.range'_succ, List.map_cons, ih (e + 1) (by omega)]
    have he : e < (l.take (e + 1 + k)).length := by simp; omega
    rw [show e + (k + 1) = e + 1 + k by omega, List.drop_eq_getElem_cons he]
    congr 1
    rw [List.getD_eq_getElem?_getD, List.getElem?_eq_getElem (by omega), List.getElem_take]
    rfl

theorem updateLevel_log (l : Nat) (prev curr : List ℚ) (ind : List Nat) (nent : Nat)
    (log : UpdLog) (hf : nent ≤ ind.length) :
    (updateLevelLog l prev (List.range nent) ((curr, ind, NOPREV, 0), log)).1
      = updateLevel prev nent (curr, ind, NOPREV, 0)
    ∧ (updateLevelLog l prev (List.range nent) ((curr, ind, NOPREV, 0), log)).2.slots
        = log.slots ++ (ind.take nent).map (fun i => (l, i))
    ∧ (updateLevelLog l prev (List.range nent) ((curr, ind, NOPREV, 0), log)).2.scratch
        = log.scratch
    ∧ (∀ p ∈ (updateLevelLog l prev (List.range nent) ((curr, ind, NOPREV, 0), log)).2.reads,
        p ∈ log.reads ∨ p < nent)
    ∧ (∀ p ∈ (updateLevelLog l prev (List.range nent) ((curr, ind, NOPREV, 0), log)).2.writes,
        p ∈ log.writes ∨ p < nent)
    ∧ ScratchInv ind nent (updateLevel prev nent (curr, ind, NOPREV, 0)).2 := by
  obtain ⟨h1, h2, h3, h4, h5, h6⟩ := updateLevelLog_spec l prev ind nent 0
    (curr, ind, NOPREV, 0) log (scratchInv_init ind)
  have hmap : (List.range' 0 nent).map (fun j => (l, ind.getD j 0))
      = (ind.take nent).map fun i => (l, i) := by
    have := range'_map_getD ind nent 0 (by omega)
    simp only [Nat.zero_add, List.drop_zero] at this
    rw [← this, List.map_map]
    rfl
  have hU : updateLevel prev nent (curr, ind, NOPREV, 0)
      = (List.range' 0 nent).foldl
          (fun st e =>
            (st.1.set (st.2.1.getD e 0)
                (sumChildren prev (st.2.1.getD e 0 * SCHEDULEWIDTH)).1,
              storeCollapse (st.2.1.getD e 0 / SCHEDULEWIDTH) st.2)) (curr, ind, NOPREV, 0) := by
    simp only [updateLevel, List.range_eq_range']
  simp only [Nat.zero_add] at h4 h5 h6
  rw [List.range_eq_range', hU, ← hmap]
  exact ⟨h1, h2, h3, h4, h5, h6⟩

theorem filter_level_same (xs : List Nat) (l : Nat) :
    ((xs.map fun i => (l, i)).filter fun p => decide (p.1 = l)).map (fun p => p.2) = xs := by
  have : (xs.map fun i => (l, i)).filter (fun p => decide (p.1 = l))
      = xs.map fun i => (l, i) := by
    rw [List.filter_eq_self]
    rintro p hp
    obtain ⟨i, _, rfl⟩ := List.mem_map.1 hp
    simp
  rw [this, List.map_map]
  simp [Function.comp]

theorem filter_level_ne (xs : List Nat) (l k : Nat) (h : l ≠ k) :
    (xs.map fun i => (l, i)).filter (fun p => decide (p.1 = k)) = [] := by
  rw [List.filter_eq_nil_iff]
  rintro p hp
  obtain ⟨i, _, rfl⟩ := List.mem_map.1 hp
  simpa using h

theorem filter_level_above (slots : List (Nat × Nat)) (L : Nat) (h : ∀ p ∈ slots, p.1 < L) :
    slots.filter (fun p => decide (p.1 = L)) = [] := by
  rw [List.filter_eq_nil_iff]
  intro p hp
  have := h p hp
  simp only [decide_eq_true_eq]
  omega

theorem logInv_level (entries : List Nat) (l : Nat) (hl : 1 ≤ l)
    (P : List (List ℚ)) (ind : List Nat) (nent : Nat) (log : UpdLog)
    (h : LogInv entries l (P, ind, nent) log) :
    (updateLevelLog l (P.getD (l - 1) []) (List.range nent)
        ((P.getD l [], ind, NOPREV, 0), log)).1
      = updateLevel (P.getD (l - 1) []) nent (P.getD l [], ind, NOPREV, 0)
    ∧ LogInv entries (l + 1)
        (P.set l (updateLevel (P.getD (l - 1) []) nent (P.getD l [], ind, NOPREV, 0)).1,
          (updateLevel (P.getD (l - 1) []) nent (P.getD l [], ind, NOPREV, 0)).2.1,
          (updateLevel (P.getD (l - 1) []) nent (P.getD l [], ind, NOPREV, 0)).2.2.2)
        { (updateLevelLog l (P.getD (l - 1) []) (List.range nent)
            ((P.getD l [], ind, NOPREV, 0), log)).2 with
          scratch := (updateLevelLog l (P.getD (l - 1) []) (List.range nent)
              ((P.getD l [], ind, NOPREV, 0), log)).2.scratch
            ++ [(updateLevel (P.getD (l - 1) []) nent (P.getD l [], ind, NOPREV, 0)).2.1.take
                (updateLevel (P.getD (l - 1) []) nent (P.getD l [], ind, NOPREV, 0)).2.2.2] } := by
  obtain ⟨c1, c2, c3, c4, c5, c6, c7, c8, c9⟩ := h
  simp only at c2 c3
  obtain ⟨h1, h2, h3, h4, h5, h6⟩ := updateLevel_log l (P.getD (l - 1) []) (P.getD l []) ind nent
    log c3
  have hnent : nent ≤ entries.length := by
    have hmem : log.scratch.getD (l - 1) [] ∈ log.scratch := by
      rw [List.getD_eq_getElem?_getD, List.getElem?_eq_getElem (by omega)]
      exact List.getElem_mem _
    have := c4 _ hmem
    rw [c2, List.length_take] at this
    omega
  refine ⟨h1, ?_⟩
  generalize updateLevelLog l (P.getD (l - 1) []) (List.range nent)
    ((P.getD l [], ind, NOPREV, 0), log) = r at *
  generalize updateLevel (P.getD (l - 1) []) nent (P.getD l [], ind, NOPREV, 0) = u at *
  have hcur := h6.cur_le
  have hfit := h6.fits
  have hslots : ∀ k, ({ r.2 with scratch := r.2.scratch ++ [u.2.1.take u.2.2.2] } : UpdLog).slotsAt k
      = log.slotsAt k ++ (((ind.take nent).map fun i => (l, i)).filter
          fun p => decide (p.1 = k)).map fun p => p.2 := by
    intro k
    simp only [UpdLog.slotsAt, h2, List.filter_append, List.map_append]
  refine ⟨?_, ?_, hfit, ?_, ?_, ?_, ?_, ?_, ?_⟩
  · simp only [List.length_append, List.length_singleton, h3, c1]
  · simp only [Nat.add_sub_cancel, h3]
    rw [List.getD_eq_getElem?_getD, List.getElem?_append_right (by omega), c1, Nat.sub_self]
    rfl
  · intro sc hsc
    simp only [h3] at hsc
    rcases List.mem_append.1 hsc with hsc | hsc
    · exact c4 sc hsc
    · rw [List.mem_singleton] at hsc
      rw [hsc, List.length_take]
      omega
  · intro p hp
    rcases h4 p hp with hq | hq
    · exact c5 p hq
    · omega
  · intro p hp
    rcases h5 p hp with hq | hq
    · exact c6 p hq
    · omega
  · rw [hslots 0, filter_level_ne _ l 0 (by omega), List.map_nil, List.append_nil]
    exact c7
  · intro k hk1 hk2
    rw [hslots k]
    simp only [h3]
    by_cases hkl : k = l
    · subst hkl
      have : log.slotsAt k = [] := by
        simp only [UpdLog.slotsAt, filter_level_above log.slots k c9, List.map_nil]
      rw [this, List.nil_append, filter_level_same]
      rw [List.getD_eq_getElem?_getD, List.getElem?_append_left (by omega),
        ← List.getD_eq_getElem?_getD, c2]
    · rw [filter_level_ne _ l k (fun e => hkl e.symm), List.map_nil, List.append_nil,
        c8 k hk1 (by omega)]
      rw [List.getD_eq_getElem?_getD, List.getD_eq_getElem?_getD,
        List.getElem?_append_left (by omega)]
  · intro p hp
    simp only [h2] at hp
    rcases List.mem_append.1 hp with hp | hp
    · have := c9 p hp
      omega
    · obtain ⟨i, _, rfl⟩ := List.mem_map.1 hp
      simp

theorem updateUpLog_spec (entries : List Nat) : ∀ (n l : Nat)
    (st : List (List ℚ) × List Nat × Nat) (log : UpdLog),
    1 ≤ l → LogInv entries l st log →
    (updateUpLog n l (st, log)).1 = updateUp n l st
    ∧ LogInv entries (l + n) (updateUp n l st) (updateUpLog n l (st, log)).2 := by
  intro n
  induction n with
  | zero => intro l st log _ h; exact ⟨rfl, h⟩
  | succ n ih =>
    intro l st log hl h
    obtain ⟨P, ind, nent⟩ := st
    obtain ⟨k1, k2⟩ := logInv_level entries l hl P ind nent log h
    obtain ⟨i1, i2⟩ := ih (l + 1) _ _ (by omega) k2
    simp only [updateUpLog, updateUp]
    rw [k1]
    refine ⟨i1, ?_⟩
    rw [show l + (n + 1) = l + 1 + n by omega]
    exact i2

/-- The logged `_update` computes what `_update` computes, and its log obeys
the invariant of the level loop for the whole tree. -/
theorem updateLog_spec (s : Tetexact W) (entries : List Nat) :
    (_updateLog s entries).1 = _update s entries
    ∧ (countKProcs s ≠ 0 →
        ∃ st, LogInv entries (1 + (s.pLevels.length - 1)) st (_updateLog s entries).2)
    ∧ (countKProcs s = 0 → (_updateLog s entries).2 = ⟨[], [], [], []⟩) := by
  by_cases h0 : countKProcs s = 0
  · simp only [_updateLog, _update, h0, if_true]
    exact ⟨trivial, fun h => absurd rfl h, fun _ => trivial⟩
  · obtain ⟨r1, r2, r3, r4, r5, r6⟩ := updateRatesLog_spec s s.pIndices entries 0
      (s.pLevels.getD 0 [], s.pIndices, NOPREV, 0) ⟨[], [], [], []⟩ (scratchInv_init _)
    simp only [Nat.zero_add, List.nil_append] at r2 r4 r5 r6
    have hinit : LogInv entries 1
        (s.pLevels.set 0 (updateRates s entries (s.pLevels.getD 0 [], s.pIndices, NOPREV, 0)).1,
          (updateRates s entries (s.pLevels.getD 0 [], s.pIndices, NOPREV, 0)).2.1,
          (updateRates s entries (s.pLevels.getD 0 [], s.pIndices, NOPREV, 0)).2.2.2)
        { (updateRatesLog s entries
            ((s.pLevels.getD 0 [], s.pIndices, NOPREV, 0), ⟨[], [], [], []⟩)).2 with
          scratch := [(updateRates s entries
              (s.pLevels.getD 0 [], s.pIndices, NOPREV, 0)).2.1.take
            (updateRates s entries (s.pLevels.getD 0 [], s.pIndices, NOPREV, 0)).2.2.2] } := by
      have hcur := r6.cur_le
      have hfit := r6.fits
      refine ⟨rfl, rfl, hfit, ?_, ?_, ?_, ?_, ?_, ?_⟩
      · intro sc hsc
        rw [List.mem_singleton] at hsc
        rw [hsc, List.length_take]
        omega
      · intro p hp
        rcases r4 p hp with hq | hq
        · exact absurd hq (List.not_mem_nil _)
        · exact hq
      · intro p hp
        rcases r5 p hp with hq | hq
        · exact absurd hq (List.not_mem_nil _)
        · exact hq
      · simp only [UpdLog.slotsAt, r2]
        exact filter_level_same entries 0
      · intro k hk1 hk2
        omega
      · intro p hp
        simp only [r2] at hp
        obtain ⟨i, _, rfl⟩ := List.mem_map.1 hp
        simp
    obtain ⟨u1, u2⟩ := updateUpLog_spec entries (s.pLevels.length - 1) 1 _ _ (le_refl 1) hinit
    refine ⟨?_, fun _ => ⟨_, by simp only [_updateLog, h0, if_false, r1]; exact u2⟩,
      fun h => absurd h h0⟩
    simp only [_updateLog, _update, h0, if_false, r1, u1]

theorem foldl_addKProc_upd (kps : List (KProc W)) (s : Tetexact W) :
    (kps.foldl addKProc s).pKProcs.map (fun kp => kp.updVecSize)
      = s.pKProcs.map (fun kp => kp.updVecSize) ++ kps.map (fun kp => kp.updVecSize) := by
  induction kps generalizing s with
  | nil => simp
  | cons kp rest ih =>
    rw [List.foldl_cons, ih]
    simp [addKProc]

theorem maxUpdate_map (kps : List (KProc W)) :
    maxUpdate kps
      = (kps.map fun kp => kp.updVecSize).foldl (fun m u => if u > m then u else m) 0 := by
  simp only [maxUpdate, List.foldl_map]

theorem setupEngine_pIndices (w : W) (r : RNG) (kps : List (KProc W))
    (h1 : 1 ≤ kps.length) (h2 : kps.length < UINTMOD) :
    (setupEngine w r kps).pIndices.length = maxUpdate kps := by
  obtain ⟨_, hlen, _, _⟩ := foldl_addKProc kps (Tetexact.init w r)
    (by intro i k hk; simp [Tetexact.init] at hk)
  have hl : (kps.foldl addKProc (Tetexact.init w r)).pKProcs.length = kps.length := by
    rw [hlen]; simp [Tetexact.init]
  have hm : maxUpdate (kps.foldl addKProc (Tetexact.init w r)).pKProcs = maxUpdate kps := by
    rw [maxUpdate_map, maxUpdate_map, foldl_addKProc_upd]
    simp [Tetexact.init]
  simp only [setupEngine, _build, hl, Nat.mod_eq_of_lt h2]
  rw [if_neg (by omega)]
  simp only [List.length_replicate, hm]

theorem foldl_max_spec (us : List Nat) : ∀ m : Nat,
    m ≤ us.foldl (fun m u => if u > m then u else m) m
    ∧ (∀ u ∈ us, u ≤ us.foldl (fun m u => if u > m then u else m) m)
    ∧ (us.foldl (fun m u => if u > m then u else m) m = m
        ∨ us.foldl (fun m u => if u > m then u else m) m ∈ us) := by
  induction us with
  | nil => intro m; exact ⟨le_refl _, fun u hu => absurd hu (List.not_mem_nil _), Or.inl rfl⟩
  | cons a rest ih =>
    intro m
    simp only [List.foldl_cons]
    by_cases ha : a > m
    · rw [if_pos ha]
      obtain ⟨i1, i2, i3⟩ := ih a
      refine ⟨by omega, ?_, ?_⟩
      · intro u hu
        rcases List.mem_cons.1 hu with hu | hu
        · rw [hu]; exact i1
        · exact i2 u hu
      · rcases i3 with h | h
        · exact Or.inr (by rw [h]; exact List.mem_cons_self _ _)
        · exact Or.inr (List.mem_cons_of_mem _ h)
    · rw [if_neg ha]
      obtain ⟨i1, i2, i3⟩ := ih m
      refine ⟨i1, ?_, ?_⟩
      · intro u hu
        rcases List.mem_cons.1 hu with hu | hu
        · rw [hu]; omega
        · exact i2 u hu
      · rcases i3 with h | h
        · exact Or.inl h
        · exact Or.inr (List.mem_cons_of_mem _ h)

/-- The value `_build` computes in `maxupdate` is the maximum of `updVecSize()`
over the KProcs: no KProc has a larger one, and some KProc has this one. -/
theorem maxUpdate_is_max (kps : List (KProc W)) :
    (∀ kp ∈ kps, kp.updVecSize ≤ maxUpdate kps)
    ∧ (kps ≠ [] → ∃ kp ∈ kps, kp.updVecSize = maxUpdate kps) := by
  obtain ⟨_, h2, h3⟩ := foldl_max_spec (kps.map fun kp => kp.updVecSize) 0
  rw [← maxUpdate_map] at h2 h3
  refine ⟨fun kp hkp => h2 _ (List.mem_map.2 ⟨kp, hkp, rfl⟩), ?_⟩
  intro hne
  rcases h3 with h | h
  · obtain ⟨kp, rest, rfl⟩ := List.exists_cons_of_ne_nil hne
    refine ⟨kp, List.mem_cons_self _ _, ?_⟩
    have := h2 kp.updVecSize (List.mem_map.2 ⟨kp, List.mem_cons_self _ _, rfl⟩)
    omega
  · obtain ⟨kp, hkp, e⟩ := List.mem_map.1 h
    exact ⟨kp, hkp, e⟩

theorem updateUp_ind_length : ∀ (n l : Nat) (P : List (List ℚ)) (ind : List Nat) (nent : Nat),
    ind.length ≤ (updateUp n l (P, ind, nent)).2.1.length := by
  intro n
  induction n with
  | zero => intro l P ind nent; exact le_refl _
  | succ n ih =>
    intro l P ind nent
    obtain ⟨_, _, _, h4, _⟩ := updateLevel_spec (P.getD (l - 1) []) (P.getD l []) ind nent
    simp only [updateUp]
    exact le_trans h4.len (ih (l + 1) _ _ _)

theorem update_ind_length (s : Tetexact W) (entries : List Nat) :
    (_update s entries).pIndices.length = s.pIndices.length := by
  simp only [_update]
  split
  · rfl
  · obtain ⟨_, _, _, a4, _⟩ := updateRates_spec s entries (s.pLevels.getD 0 []) s.pIndices
    have h1 := a4.len
    have h2 := updateUp_ind_length (s.pLevels.length - 1) 1
      (s.pLevels.set 0 (updateRates s entries (s.pLevels.getD 0 [], s.pIndices, NOPREV, 0)).1)
      (updateRates s entries (s.pLevels.getD 0 [], s.pIndices, NOPREV, 0)).2.1
      (updateRates s entries (s.pLevels.getD 0 [], s.pIndices, NOPREV, 0)).2.2.2
    simp only [List.length_take]
    omega

/-- What the log of `_update` shows for every engine and every vector. -/
theorem updateLog_bounds (s : Tetexact W) (entries : List Nat) :
    (∀ sc ∈ (_updateLog s entries).2.scratch, sc.length ≤ entries.length)
    ∧ (∀ p ∈ (_updateLog s entries).2.writes, p < entries.length)
    ∧ (∀ p ∈ (_updateLog s entries).2.reads, p < entries.length)
    ∧ (_updateLog s entries).2.slotsAt 0 = (if countKProcs s = 0 then [] else entries)
    ∧ (∀ l, 1 ≤ l → l < (_updateLog s entries).2.scratch.length →
        (_updateLog s entries).2.slotsAt l = (_updateLog s entries).2.scratch.getD (l - 1) [])
    ∧ (countKProcs s ≠ 0 →
        (_updateLog s entries).2.scratch.length = 1 + (s.pLevels.length - 1)) := by
  obtain ⟨_, h2, h3⟩ := updateLog_spec s entries
  by_cases h0 : countKProcs s = 0
  · rw [h3 h0]
    simp only [h0, if_true]
    refine ⟨fun sc hsc => absurd hsc (List.not_mem_nil _),
      fun p hp => absurd hp (List.not_mem_nil _), fun p hp => absurd hp (List.not_mem_nil _),
      rfl, fun l _ hl => ?_, fun h => absurd rfl h⟩
    simp at hl
  · obtain ⟨st, c1, _, _, c4, c5, c6, c7, c8, _⟩ := h2 h0
    rw [if_neg h0]
    exact ⟨c4, c6, c5, c7, fun l hl1 hl2 => c8 l hl1 (by rw [c1] at hl2; exact hl2),
      fun _ => c1⟩

/-- C26: the scratch buffer sized at build time suffices for `_update`. For
every engine and every list `entries`, sorted or not: the logged `_update`
computes what `_update` computes; the number of indices kept in `pIndices`
after every level is at most `entries.size()`; every position of `pIndices`
written, and every position read, is below `entries.size()`; the slots
recomputed on every upper level are exactly the indices kept after the level
below, so the in-place compaction has not overwritten an index before it was
read; hence every access is inside the array when `entries.size()` is at most
the size of `pIndices`, and the array keeps its size. After construction with
at least one KProc the size of `pIndices` is the maximum `updVecSize()` over
all KProcs (no KProc has a larger one and some KProc has this one), so every
access is inside the array when `entries.size()` is at most that maximum. -/
theorem update_scratch_suffices (s : Tetexact W) (entries : List Nat) :
    (_updateLog s entries).1 = _update s entries
    ∧ (∀ sc ∈ (_updateLog s entries).2.scratch, sc.length ≤ entries.length)
    ∧ (∀ p ∈ (_updateLog s entries).2.writes, p < entries.length)
    ∧ (∀ p ∈ (_updateLog s entries).2.reads, p < entries.length)
    ∧ (∀ l, 1 ≤ l → l < (_updateLog s entries).2.scratch.length →
        (_updateLog s entries).2.slotsAt l = (_updateLog s entries).2.scratch.getD (l - 1) [])
    ∧ (countKProcs s ≠ 0 →
        (_updateLog s entries).2.scratch.length = 1 + (s.pLevels.length - 1))
    ∧ (entries.length ≤ s.pIndices.length →
        ∀ p ∈ (_updateLog s entries).2.reads ++ (_updateLog s entries).2.writes,
          p < s.pIndices.length)
    ∧ (_update s entries).pIndices.length = s.pIndices.length
    ∧ (∀ (w : W) (r : RNG) (kps : List (KProc W)), 1 ≤ kps.length → kps.length < UINTMOD →
        (setupEngine w r kps).pIndices.length = maxUpdate kps
        ∧ (∀ kp ∈ kps, kp.updVecSize ≤ maxUpdate kps)
        ∧ (∃ kp ∈ kps, kp.updVecSize = maxUpdate kps)
        ∧ (entries.length ≤ maxUpdate kps →
            ∀ p ∈ (_updateLog (setupEngine w r kps) entries).2.reads
                ++ (_updateLog (setupEngine w r kps) entries).2.writes,
              p < (setupEngine w r kps).pIndices.length)) := by
  have hin : ∀ (t : Tetexact W), entries.length ≤ t.pIndices.length →
      ∀ p ∈ (_updateLog t entries).2.reads ++ (_updateLog t entries).2.writes,
        p < t.pIndices.length := by
    intro t ht p hp
    obtain ⟨_, b2, b3, _⟩ := updateLog_bounds t entries
    rcases List.mem_append.1 hp with hp | hp
    · have := b3 p hp
      omega
    · have := b2 p hp
      omega
  obtain ⟨b1, b2, b3, _, b5, b6⟩ := updateLog_bounds s entries
  refine ⟨(updateLog_spec s entries).1, b1, b2, b3, b5, b6, hin s, update_ind_length s entries,
    ?_⟩
  intro w r kps h1 h2
  have hlen := setupEngine_pIndices w r kps h1 h2
  obtain ⟨m1, m2⟩ := maxUpdate_is_max kps
  refine ⟨hlen, m1, m2 (by intro e; rw [e] at h1; simp at h1), ?_⟩
  intro hle
  exact hin _ (by rw [hlen]; exact hle)

theorem update_scratch_suffices_witness :
    (_reset demoEngine).pIndices.length = 4
    ∧ (_updateLog (_reset demoEngine) [16, 5, 16, 0]).2.slots
        = [(0, 16), (0, 5), (0, 16), (0, 0), (1, 1), (1, 0), (1, 1), (1, 0)]
    ∧ (_updateLog (_reset demoEngine) [16, 5, 16, 0]).2.scratch = [[1, 0, 1, 0], [0]]
    ∧ (_updateLog (_reset demoEngine) [16, 5, 16, 0]).2.writes = [0, 1, 2, 3, 0]
    ∧ (_updateLog (_reset demoEngine) [16, 5, 16, 0]).2.reads = [0, 1, 2, 0, 1, 0, 2, 0, 3, 0]
    ∧ ∀ p ∈ (_updateLog (_reset demoEngine) [16, 5, 16, 0]).2.reads
          ++ (_updateLog (_reset demoEngine) [16, 5, 16, 0]).2.writes,
        p < (_reset demoEngine).pIndices.length :=
  ⟨by decide!, by decide!, by decide!, by decide!, by decide!,
    (update_scratch_suffices (_reset demoEngine) [16, 5, 16, 0]).2.2.2.2.2.2.1 (by decide!)⟩

theorem reset_leaves (s : Tetexact W) (h : Built s) : LeavesMatch (_reset s) := by
  obtain ⟨⟨P1, a, heq⟩, _, _, hleaf, _, _, _, _⟩ := reset_props s h
  intro i kp hk
  have hk2 : s.pKProcs[i]? = some kp := by rw [heq] at hk; exact hk
  have hw : (_reset s).world = s.world := by rw [heq]
  rw [h.idx i kp hk2, hw]
  exact hleaf i kp hk2

theorem wideSetup_built :
    Built (setupEngine wideMesh demoRNG ((List.range 17).map speciesDecay)) :=
  setupEngine_built _ _ _ (by decide) (by decide)

/-- C21, failing input: on the engine with one tet and seventeen independent
decay reactions (`schedIDX` 0 to 16, every `updVecSize()` 1, so `pIndices` is
an array of one element) invariants 1 to 3 hold, and `_setTetCount(0, 16, 9)`
hands `_update` the vector of all seventeen KProcs of the tet. Their parents
are the two slots 0 and 1 of level 1, and storing the second one writes
`pIndices[1]`, outside the array; level 1 then reads `pIndices[1]` back. In
the release build, where the store lands in the memory after the array, the
call ends with leaf 16 and slot 1 of level 1 holding 9 and with `A0 == 89`. -/
theorem setTetCount_overruns_scratch :
    wideEngine.pIndices.length = 1
    ∧ LeavesMatch wideEngine ∧ Consistent wideEngine
    ∧ ((wideEngine.world.tetAt 0).bind fun tet =>
        insertTriKProcs wideEngine.world tet (List.range 4) (insertKProcs tet.kprocs []))
        = some (List.range 17)
    ∧ ∃ s1, _setTetCount wideEngine 0 16 9 = some s1
        ∧ (_updateLog { wideEngine with world := s1.world } (List.range 17)).2.writes
            = [0, 1, 0]
        ∧ (_updateLog { wideEngine with world := s1.world } (List.range 17)).2.reads
            = [0, 0, 0, 0, 0, 0, 0, 0, 0, 0, 0, 0, 0, 0, 0, 0, 0, 1, 0]
        ∧ ¬ (1 < wideEngine.pIndices.length)
        ∧ slot s1 0 16 = 9 ∧ slot s1 1 1 = 9 ∧ s1.pA0 = 89 := by
  have hev : (_setTetCount wideEngine 0 16 9).map
      (fun s => ((_updateLog { wideEngine with world := s.world } (List.range 17)).2.writes,
        (_updateLog { wideEngine with world := s.world } (List.range 17)).2.reads,
        slot s 0 16, slot s 1 1, s.pA0))
      = some ([0, 1, 0], [0, 0, 0, 0, 0, 0, 0, 0, 0, 0, 0, 0, 0, 0, 0, 0, 0, 1, 0],
          9, 9, 89) := by decide!
  obtain ⟨s1, hs1, hval⟩ := Option.map_eq_some'.1 hev
  obtain ⟨v0, hval⟩ := Prod.mk.inj hval
  obtain ⟨v1, hval⟩ := Prod.mk.inj hval
  obtain ⟨v2, hval⟩ := Prod.mk.inj hval
  obtain ⟨v3, v4⟩ := Prod.mk.inj hval
  exact ⟨by decide, reset_leaves _ wideSetup_built, reset_consistent _ wideSetup_built,
    by decide, s1, hs1, v0, v1, by decide, v2, v3, v4⟩


/-! ## The compartment-level reaction queries (claims C22 and C23) -/

theorem sumTets_spec (m : Mesh) (f : Tet → Option ℚ) (g : Nat → ℚ) :
    ∀ (l : List Nat) (acc : ℚ),
      (∀ i ∈ l, ∃ t, m.tetAt i = some t ∧ f t = some (g i)) →
      sumTets m f l acc = some (acc + (l.map g).sum) := by
  intro l
  induction l with
  | nil => intro acc _; simp [sumTets]
  | cons i rest ih =>
    intro acc h
    obtain ⟨t, ht, hft⟩ := h i (List.mem_cons_self _ _)
    simp only [sumTets, ht, hft]
    rw [ih _ (fun j hj => h j (List.mem_cons_of_mem _ hj))]
    simp only [List.map_cons, List.sum_cons, add_assoc]

theorem tetAt_setTet_ne (m : Mesh) (i j : Nat) (t : Tet) (h : i ≠ j) :
    (m.setTet j t).tetAt i = m.tetAt i := by
  simp only [Mesh.tetAt, Mesh.setTet, List.getD_eq_getElem?_getD]
  rw [List.getElem?_set_ne (fun e => h e.symm)]

theorem reac_set (t : Tet) (lr : Nat) (k x : KState) (h : t.reac lr = some k) :
    ({ t with reacs := t.reacs.set lr x } : Tet).reac lr = some x := by
  have hlt : lr < t.reacs.length := by
    by_contra hge
    simp only [Tet.reac] at h
    rw [List.getElem?_eq_none (by omega)] at h
    exact Option.noConfusion h
  simp only [Tet.reac]
  rw [List.getElem?_set_self hlt]

theorem forTets_setActive (lr : Nat) (a : Bool) : ∀ (l : List Nat) (m : Mesh),
    (∀ i ∈ l, ∃ t k, m.tetAt i = some t ∧ t.reac lr = some k) →
    ∃ m1, forTets (fun t => (t.reac lr).map fun k =>
              { t with reacs := t.reacs.set lr (k.setActive a) }) l m = some m1
      ∧ m1.pComps = m.pComps ∧ m1.pPatches = m.pPatches ∧ m1.pTris = m.pTris
      ∧ m1.pTets.length = m.pTets.length
      ∧ (∀ i, i ∉ l → m1.tetAt i = m.tetAt i)
      ∧ (∀ i ∈ l, ∀ t k, m.tetAt i = some t → t.reac lr = some k →
          m1.tetAt i = some { t with reacs := t.reacs.set lr (k.setActive a) }) := by
  intro l
  induction l with
  | nil =>
    intro m _
    exact ⟨m, rfl, rfl, rfl, rfl, rfl, fun _ _ => rfl, fun i hi => absurd hi (List.not_mem_nil _)⟩
  | cons i0 rest ih =>
    intro m hv
    obtain ⟨t0, k0, ht0, hk0⟩ := hv i0 (List.mem_cons_self _ _)
    have hm1 : (m.setTet i0 { t0 with reacs := t0.reacs.set lr (k0.setActive a) }).tetAt i0
        = some { t0 with reacs := t0.reacs.set lr (k0.setActive a) } :=
      tetAt_setTet m i0 t0 _ ht0
    have hr1 := reac_set t0 lr k0 (k0.setActive a) hk0
    obtain ⟨m2, e2, c2, p2, r2, n2, o2, s2⟩ :=
      ih (m.setTet i0 { t0 with reacs := t0.reacs.set lr (k0.setActive a) }) (fun j hj => by
        by_cases hji : j = i0
        · subst hji; exact ⟨_, _, hm1, hr1⟩
        · rw [tetAt_setTet_ne m j i0 _ hji]
          exact hv j (List.mem_cons_of_mem _ hj))
    refine ⟨m2, ?_, c2, p2, r2, by rw [n2]; simp [Mesh.setTet], ?_, ?_⟩
    · simp only [forTets, ht0, hk0, Option.map_some']
      exact e2
    · intro i hi
      have h1 : i ≠ i0 := fun e => hi (by rw [e]; exact List.mem_cons_self _ _)
      have h2 : i ∉ rest := fun e => hi (List.mem_cons_of_mem _ e)
      rw [o2 i h2, tetAt_setTet_ne m i i0 _ h1]
    · intro i hi t k ht hk
      by_cases hir : i ∈ rest
      · by_cases hii : i = i0
        · subst hii
          rw [ht0] at ht
          have htt : t0 = t := Option.some.inj ht
          subst htt
          rw [hk0] at hk
          have hkk : k0 = k := Option.some.inj hk
          subst hkk
          rw [s2 i hir _ _ hm1 hr1]
          simp only [List.set_set, KState.setActive]
        · rw [s2 i hir t k (by rw [tetAt_setTet_ne m i i0 _ hii]; exact ht) hk]
      · have hii : i = i0 := by
          rcases List.mem_cons.1 hi with h | h
          · exact h
          · exact absurd h hir
        subst hii
        rw [ht0] at ht
        have htt : t0 = t := Option.some.inj ht
        subst htt
        rw [hk0] at hk
        have hkk : k0 = k := Option.some.inj hk
        subst hkk
        rw [o2 i hir, hm1]

theorem getCompReacA_congr (s s1 : Tetexact Mesh) (cidx ridx : Nat)
    (hw : s1.world = s.world) (hk : s1.pKProcs = s.pKProcs) :
    _getCompReacA s1 cidx ridx = _getCompReacA s cidx ridx := by
  have hr : ∀ i, rateAt s1 i = rateAt s i := by
    intro i; simp only [rateAt, hw, hk]
  simp only [_getCompReacA, hw, hr]

theorem mesh_ext_tetAt (m m1 : Mesh) (hc : m1.pComps = m.pComps) (hp : m1.pPatches = m.pPatches)
    (hr : m1.pTris = m.pTris) (hn : m1.pTets.length = m.pTets.length)
    (ht : ∀ i, m1.tetAt i = m.tetAt i) : m1 = m := by
  have hT : m1.pTets = m.pTets := by
    apply List.ext_getElem hn
    intro i h1 h2
    have := ht i
    simp only [Mesh.tetAt, List.getD_eq_getElem?_getD, List.getElem?_eq_getElem h1,
      List.getElem?_eq_getElem h2, Option.getD_some] at this
    exact this
  cases m1; cases m
  simp only at hc hp hr hT
  subst hc; subst hp; subst hr; subst hT
  rfl

theorem reset_frame (s : Tetexact W) :
    (_reset s).world = s.world ∧ (_reset s).pKProcs = s.pKProcs := by
  simp only [_reset]
  split <;> exact ⟨rfl, rfl⟩

theorem set_same {α : Type} (l : List α) (i : Nat) (x : α) (h : l[i]? = some x) :
    l.set i x = l := by
  apply List.ext_getElem?
  intro k
  rw [List.getElem?_set]
  by_cases hik : i = k
  · subst hik
    have hi : i < l.length := by
      by_contra hge
      rw [List.getElem?_eq_none (by omega)] at h
      exact Option.noConfusion h
    rw [if_pos rfl, if_pos hi, h]
  · rw [if_neg hik]

/-- C22, counterexample: on the demo mesh, first switch the reaction off in
tet 1 only; `_getCompReacA(0, 0)` is then 5, the rate in tet 0. After
`_setCompReacActive(0, 0, false)` it is 0, and after the following
`_setCompReacActive(0, 0, true)`, with no population change, it is 10, not
the 5 it was before the reaction was disabled: the call switches the reaction
on in every tet. And in a compartment without tets `_getCompReacActive` is
`true` right after `_setCompReacActive(c, r, false)`. -/
theorem compReac_toggle_counterexample :
    ((_setTetReacActive meshEngine 1 0 false).bind fun s0 =>
        (_getCompReacA s0 0 0).map fun a => (a, compTetCounts s0.world 0 0)) = some (5, [5, 5])
    ∧ ((_setTetReacActive meshEngine 1 0 false).bind fun s0 =>
        (_setCompReacActive s0 0 0 false).bind fun s1 => _getCompReacA s1 0 0) = some 0
    ∧ ((_setTetReacActive meshEngine 1 0 false).bind fun s0 =>
        (_setCompReacActive s0 0 0 false).bind fun s1 =>
          (_setCompReacActive s1 0 0 true).bind fun s2 =>
            (_getCompReacA s2 0 0).map fun a => (a, compTetCounts s2.world 0 0))
        = some (10, [5, 5])
    ∧ ((_setCompReacActive emptyCompEngine 1 0 false).bind fun s1 =>
        _getCompReacActive s1 1 0) = some true := by
  refine ⟨by decide!, by decide!, by decide!, by decide!⟩

/-- C22, amended: for every compartment with at least one tet and every
reaction defined in it that is active in every tet of the compartment, on a
built engine whose KProcs report rate 0 while their `inactive` flag is set:
`_setCompReacActive(c, r, false)` returns, and after it `_getCompReacA(c, r)`
is 0, `_getCompReacActive(c, r)` is `false` and the leaf slot of the reaction
of every tet of the compartment is 0; a following
`_setCompReacActive(c, r, true)` returns with the mesh as it was before the
reaction was disabled, and `_getCompReacA(c, r)` equals its value before the
reaction was disabled. -/
theorem compReac_toggle (s : Tetexact Mesh) (h : Built s) (cidx ridx : Nat) (comp : Comp)
    (hc : s.world.pComps[cidx]? = some comp)
    (hl : comp.cdef.reacG2L ridx ≠ LIDX_UNDEFINED)
    (hne : comp.tets ≠ [])
    (hv : ∀ i ∈ comp.tets, ∃ t k, s.world.tetAt i = some t
      ∧ t.reac (comp.cdef.reacG2L ridx) = some k ∧ k.inactive = false)
    (hz : ∀ i ∈ comp.tets, ∀ t k, s.world.tetAt i = some t →
      t.reac (comp.cdef.reacG2L ridx) = some k →
      ∀ (m : Mesh) (t1 : Tet) (k1 : KState), m.tetAt i = some t1 →
        t1.reac (comp.cdef.reacG2L ridx) = some k1 → k1.inactive = true →
        rateAt ({ s with world := m } : Tetexact Mesh) k.schedIDX = 0) :
    ∃ s1, _setCompReacActive s cidx ridx false = some s1
      ∧ _getCompReacA s1 cidx ridx = some 0
      ∧ _getCompReacActive s1 cidx ridx = some false
      ∧ (∀ i ∈ comp.tets, ∀ t k, s1.world.tetAt i = some t →
          t.reac (comp.cdef.reacG2L ridx) = some k → slot s1 0 k.schedIDX = 0)
      ∧ ∃ s2 a, _setCompReacActive s1 cidx ridx true = some s2
          ∧ s2.world = s.world
          ∧ _getCompReacA s cidx ridx = some a
          ∧ _getCompReacA s2 cidx ridx = some a := by
  obtain ⟨m1, e1, c1, p1, r1, n1, o1, t1⟩ := forTets_setActive (comp.cdef.reacG2L ridx) false
    comp.tets s.world (fun i hi => by
      obtain ⟨t, k, ht, hk, _⟩ := hv i hi
      exact ⟨t, k, ht, hk⟩)
  have hB : Built ({ s with world := m1 } : Tetexact Mesh) := built_congr s _ h rfl rfl rfl rfl
  obtain ⟨⟨P1, a1, heq⟩, _, _, hleaf, hpad0, _, _, _⟩ := reset_props _ hB
  have hset1 : _setCompReacActive s cidx ridx false
      = some (_reset ({ s with world := m1 } : Tetexact Mesh)) := by
    simp only [_setCompReacActive, hc, hl, if_false, e1]
  have hw1 : (_reset ({ s with world := m1 } : Tetexact Mesh)).world = m1 := by rw [heq]
  have hk1 : (_reset ({ s with world := m1 } : Tetexact Mesh)).pKProcs = s.pKProcs := by rw [heq]
  have hc1 : (_reset ({ s with world := m1 } : Tetexact Mesh)).world.pComps[cidx]? = some comp := by
    rw [hw1, c1]; exact hc
  have hc2 : m1.pComps[cidx]? = some comp := by rw [c1]; exact hc
  -- every tet of the compartment now holds the reaction with the flag set
  have hoff : ∀ i ∈ comp.tets, ∃ t k, m1.tetAt i = some t
      ∧ t.reac (comp.cdef.reacG2L ridx) = some k ∧ k.inactive = true
      ∧ rateAt (_reset ({ s with world := m1 } : Tetexact Mesh)) k.schedIDX = 0 := by
    intro i hi
    obtain ⟨t, k, ht, hk, _⟩ := hv i hi
    refine ⟨_, _, t1 i hi t k ht hk, reac_set t _ k _ hk, rfl, ?_⟩
    have := hz i hi t k ht hk m1 _ _ (t1 i hi t k ht hk) (reac_set t _ k _ hk) rfl
    simp only [rateAt, hk1, hw1] at this ⊢
    exact this
  have hrate0 : ∀ i ∈ comp.tets, ∀ t k,
      (_reset ({ s with world := m1 } : Tetexact Mesh)).world.tetAt i = some t →
      t.reac (comp.cdef.reacG2L ridx) = some k →
      rateAt (_reset ({ s with world := m1 } : Tetexact Mesh)) k.schedIDX = 0 := by
    intro i hi t k ht hk
    obtain ⟨t2, k2, ht2, hk2, _, hr⟩ := hoff i hi
    rw [hw1, ht2] at ht
    have htt : t2 = t := Option.some.inj ht
    subst htt
    rw [hk2] at hk
    have hkk : k2 = k := Option.some.inj hk
    subst hkk
    exact hr
  -- the second call restores the mesh
  obtain ⟨m2, e2, c2, p2, r2, n2, o2, t2⟩ := forTets_setActive (comp.cdef.reacG2L ridx) true
    comp.tets m1 (fun i hi => by
      obtain ⟨t, k, ht, hk, _, _⟩ := hoff i hi
      exact ⟨t, k, ht, hk⟩)
  have hm2 : m2 = s.world := by
    refine mesh_ext_tetAt s.world m2 (c2.trans c1) (p2.trans p1) (r2.trans r1) (n2.trans n1) ?_
    intro i
    by_cases hi : i ∈ comp.tets
    · obtain ⟨t, k, ht, hk, hact⟩ := hv i hi
      rw [t2 i hi _ _ (t1 i hi t k ht hk) (reac_set t _ k _ hk), ht]
      have hkk : (k.setActive false).setActive true = k := by
        cases k
        simp only at hact
        subst hact
        rfl
      simp only [List.set_set, hkk]
      rw [set_same t.reacs _ k hk]
    · rw [o2 i hi, o1 i hi]
  have hset2 : _setCompReacActive (_reset ({ s with world := m1 } : Tetexact Mesh)) cidx ridx true
      = some (_reset ({ (_reset ({ s with world := m1 } : Tetexact Mesh)) with
          world := m2 } : Tetexact Mesh)) := by
    simp only [_setCompReacActive, hw1, hc2, hl, if_false, e2]
  obtain ⟨f1, f2⟩ := reset_frame ({ (_reset ({ s with world := m1 } : Tetexact Mesh)) with
    world := m2 } : Tetexact Mesh)
  -- the value before
  have hA := sumTets_spec s.world
    (fun t => (t.reac (comp.cdef.reacG2L ridx)).map fun k => rateAt s k.schedIDX)
    (fun i =>
      match s.world.tetAt i with
      | some t =>
        match t.reac (comp.cdef.reacG2L ridx) with
        | some k => rateAt s k.schedIDX
        | none => 0
      | none => 0) comp.tets 0 (fun i hi => by
        obtain ⟨t, k, ht, hk, _⟩ := hv i hi
        refine ⟨t, ht, ?_⟩
        simp only [hk, Option.map_some', ht])
  have hAs : _getCompReacA s cidx ridx = some (0 + (comp.tets.map fun i =>
      match s.world.tetAt i with
      | some t =>
        match t.reac (comp.cdef.reacG2L ridx) with
        | some k => rateAt s k.schedIDX
        | none => 0
      | none => 0).sum) := by
    simp only [_getCompReacA, hc, hl, if_false, hne]
    exact hA
  refine ⟨_, hset1, ?_, ?_, ?_, _, _, hset2, by rw [f1, hm2], hAs, ?_⟩
  · have h0 := sumTets_spec (_reset ({ s with world := m1 } : Tetexact Mesh)).world
      (fun t => (t.reac (comp.cdef.reacG2L ridx)).map fun k =>
        rateAt (_reset ({ s with world := m1 } : Tetexact Mesh)) k.schedIDX)
      (fun _ => 0) comp.tets 0 (fun i hi => by
        obtain ⟨t, k, ht, hk, _, _⟩ := hoff i hi
        refine ⟨t, by rw [hw1]; exact ht, ?_⟩
        simp only [hk, Option.map_some']
        rw [hrate0 i hi t k (by rw [hw1]; exact ht) hk])
    simp only [_getCompReacA, hc1, hl, if_false, hne]
    rw [h0]
    simp
  · obtain ⟨i0, rest, hcons⟩ := List.exists_cons_of_ne_nil hne
    obtain ⟨t, k, ht, hk, hin, _⟩ := hoff i0 (by rw [hcons]; exact List.mem_cons_self _ _)
    simp only [_getCompReacActive, hw1, hc2, hl, if_false, hcons, allTets, ht, hk, activeOf,
      Option.map_some', hin, Bool.not_true, if_true]
  · intro i hi t k ht hk
    have hr := hrate0 i hi t k ht hk
    rcases hq : s.pKProcs[k.schedIDX]? with _ | kp
    · have hge : s.pKProcs.length ≤ k.schedIDX := by
        by_contra hlt
        rw [List.getElem?_eq_getElem (by omega)] at hq
        exact Option.noConfusion hq
      exact hpad0 _ hge
    · rw [hleaf _ kp hq]
      simp only [rateAt, hk1, hq, hw1] at hr
      exact hr
  · rw [getCompReacA_congr s _ cidx ridx (by rw [f1, hm2]) (by rw [f2, hk1])]
    exact hAs

theorem compReac_toggle_witness :
    _getCompReacA meshEngine 0 0 = some 10
    ∧ ∃ s1, _setCompReacActive meshEngine 0 0 false = some s1
      ∧ _getCompReacA s1 0 0 = some 0
      ∧ _getCompReacActive s1 0 0 = some false
      ∧ ∃ s2 a, _setCompReacActive s1 0 0 true = some s2 ∧ s2.world = meshEngine.world
          ∧ _getCompReacA meshEngine 0 0 = some a ∧ _getCompReacA s2 0 0 = some a :=
  ⟨by decide!,
    let ⟨s1, h1, h2, h3, _, h5⟩ := compReac_toggle meshEngine meshEngine_built 0 0
      { cdef := demoCompdef, tets := [0, 1], pools := [10] } rfl (by decide) (by decide)
      (by
        intro i hi
        simp only [List.mem_cons, List.mem_singleton, List.not_mem_nil, or_false] at hi
        rcases hi with rfl | rfl
        · exact ⟨_, ⟨0, false, 0⟩, rfl, rfl, rfl⟩
        · exact ⟨_, ⟨1, false, 0⟩, rfl, rfl, rfl⟩)
      (by
        intro i hi t k ht hk m t1 k1 ht1 hk1 hin
        simp only [List.mem_cons, List.mem_singleton, List.not_mem_nil, or_false] at hi
        have hd : demoCompdef.reacG2L 0 = 0 := rfl
        rw [hd] at hk hk1
        simp only [Tet.reac] at hk hk1
        have hg : t1.reacs.getD 0 ⟨0, true, 0⟩ = k1 := by
          rw [List.getD_eq_getElem?_getD, hk1]; rfl
        rcases hi with rfl | rfl
        · have hk0 : k = ⟨0, false, 0⟩ := by
            have : meshEngine.world.tetAt 0 = some
                { compdef := demoCompdef, vol := 1, pools := [5], flags := [false],
                  nextTet := [some 1, none, none, none],
                  nextTri := [some 0, none, none, none],
                  reacs := [⟨0, false, 0⟩], diffs := [] } := rfl
            rw [this] at ht
            have := Option.some.inj ht
            subst this
            exact (Option.some.inj hk).symm
          subst hk0
          have hr : rateAt ({ meshEngine with world := m } : Tetexact Mesh) 0
              = (tetDecay 0).rate m := rfl
          rw [hr]
          simp only [tetDecay, ht1, hg, hin, if_true]
        · have hk0 : k = ⟨1, false, 0⟩ := by
            have : meshEngine.world.tetAt 1 = some
                { compdef := demoCompdef, vol := 1, pools := [5], flags := [false],
                  nextTet := [some 0, none, none, none],
                  nextTri := [none, none, none, none],
                  reacs := [⟨1, false, 0⟩], diffs := [] } := rfl
            rw [this] at ht
            have := Option.some.inj ht
            subst this
            exact (Option.some.inj hk).symm
          subst hk0
          have hr : rateAt ({ meshEngine with world := m } : Tetexact Mesh) 1
              = (tetDecay 1).rate m := rfl
          rw [hr]
          simp only [tetDecay, ht1, hg, hin, if_true])
    ⟨s1, h1, h2, h3, h5⟩⟩


/-! ## Construction and reset over a mesh with an empty tet slot -/

theorem setupTets_null_head (f : Nat → Tetexact Mesh → Tetexact Mesh) (n : Nat)
    (s : Tetexact Mesh) (hn : 0 < n) (h0 : s.world.tetAt 0 = none) :
    setupTets f (List.range n) s = none := by
  obtain ⟨k, rfl⟩ : ∃ k, n = k + 1 := ⟨n - 1, by omega⟩
  rw [List.range_succ_eq_map]
  simp only [setupTets, h0]

/-- C28 (code defect): on a mesh whose `pTets` has an empty slot (tet 0 of
`holeMesh` belongs to no compartment) the loop that connects neighbours skips
the slot and stores no link to it in tet 1, whose neighbour across face 0 it
is, but `_setup` dereferences the slot in
its first loop, whatever the calls made through the tets and tris do, and so
does `reset()`; the loops over `pTris` skip an empty slot, so `reset()` on the
demo mesh with an empty triangle slot goes through. More generally `_setup`
is undefined on every engine whose first tet slot is empty. -/
theorem setup_and_reset_dereference_null_tet :
    holeMesh.tetAt 0 = none
    ∧ connectTets (fun t i => if t = 1 ∧ i = 0 then 0 else -1)
        (List.range holeMesh.pTets.length) holeMesh = holeMesh
    ∧ (∀ tetKProcs triKProcs tetDeps triDeps,
        _setup tetKProcs triKProcs tetDeps triDeps holeEngine = none)
    ∧ (reset holeEngine).isNone = true
    ∧ (reset nullTriEngine).isSome = true
    ∧ ∀ tetKProcs triKProcs tetDeps triDeps (s : Tetexact Mesh),
        0 < s.world.pTets.length → s.world.tetAt 0 = none →
        _setup tetKProcs triKProcs tetDeps triDeps s = none := by
  have hgen : ∀ tetKProcs triKProcs tetDeps triDeps (s : Tetexact Mesh),
      0 < s.world.pTets.length → s.world.tetAt 0 = none →
      _setup tetKProcs triKProcs tetDeps triDeps s = none := by
    intro f g d1 d2 s hn h0
    simp only [_setup, setupTets_null_head f _ s hn h0]
  refine ⟨rfl, ?_, ?_, ?_, ?_, hgen⟩
  · rfl
  · intro f g d1 d2
    exact hgen f g d1 d2 holeEngine (by decide) rfl
  · decide!
  · decide!


/-! ## Attaching the patch triangles to the tets -/

end Steps
